import Mathlib

/-!
# Multi-key CKKS evaluator and gadget product: a shallow embedding

The Go sources embedded here are

* `mkrlwe/utils.go`            (`Contains`, `MergeSlices`),
* `mkckks/evaluator.go`        (`Mul`, `Add`, `Sub`, `evaluateInPlace`, ...),
* `rlwe/evaluator_gadget_product.go` (`GadgetProductNoModDown`).

Unsigned 64-bit identifiers are natural numbers (no arithmetic is done on them).
A Go panic is the `Except.error` result of the embedded function.
-/

/-! ## Definitions -/

namespace mkrlwe

/-- Loop of `Contains`: `i` is the index of the head of the remaining slice. -/
def Contains.go (e : Nat) : List Nat → Nat → Int
  | [], _ => -1
  | el :: rest, i => if el = e then (i : Int) else Contains.go e rest (i + 1)

/-- `Contains` returns the index of the first occurrence of `e` in `s`, and `-1` when there is
none. -/
def Contains (s : List Nat) (e : Nat) : Int :=
  Contains.go e s 0

/-- The call `sort.Slice(s3, func(i, j) bool { return s3[i] < s3[j] })` of the Go standard library:
it leaves a permutation of the slice in which no later element is less than an earlier one. On
`uint64` values that permutation is unique; it is computed here by insertion. -/
def sortSlice (s : List Nat) : List Nat :=
  s.insertionSort (· ≤ ·)

/-- Body of the `for _, el := range s2` loop of `MergeSlices`. -/
def MergeSlices.step (s3 : List Nat) (el : Nat) : List Nat :=
  if Contains s3 el < 0 then s3 ++ [el] else s3

/-- `MergeSlices` copies `s1`, appends the elements of `s2` that the slice built so far does not
contain, and sorts. -/
def MergeSlices (s1 s2 : List Nat) : List Nat :=
  sortSlice (s2.foldl MergeSlices.step s1)

end mkrlwe

namespace ring

/-- Coefficients of a `ring.Poly`: `Coeffs[u][k]` is the `k`-th coefficient of the residue modulo
the `u`-th modulus of the chain. -/
abbrev Poly := List (List Nat)

/-- Coefficient `k` of row `u` (zero outside the stored rows). -/
def Poly.coeff (p : Poly) (u k : Nat) : Nat :=
  (p.getD u []).getD k 0

/-- The ring-arithmetic capability consumed by the evaluator (package `ring`, version 2, whose code
is not among the sources). An operation that writes its result into a receiver polynomial takes
the old value of the receiver as its last argument and returns the new one. -/
structure Ring where
  /-- Ring degree. -/
  N : Nat
  /-- The modulus chain. -/
  Modulus : List Nat
  /-- `NewPoly()`: a freshly allocated polynomial. -/
  NewPoly : Poly
  /-- `MFormLvl(level, p1, p2)`. -/
  MFormLvl : Nat → Poly → Poly → Poly
  /-- `MulCoeffsMontgomeryLvl(level, p1, p2, p3)`. -/
  MulCoeffsMontgomeryLvl : Nat → Poly → Poly → Poly → Poly
  /-- `AddLvl(level, p1, p2, p3)`. -/
  AddLvl : Nat → Poly → Poly → Poly → Poly
  /-- `SubLvl(level, p1, p2, p3)`. -/
  SubLvl : Nat → Poly → Poly → Poly → Poly
  /-- `Neg(p1, p2)`, which runs over every modulus of the chain, whatever the level of its
  operands; `none` when it aborts (an operand that lacks a row of the chain is indexed out of
  range). -/
  Neg : Poly → Poly → Option Poly
  /-- `NegLvl(level, p1, p2)`. -/
  NegLvl : Nat → Poly → Poly → Poly
  /-- `CopyLvl(level, p1, p2)`. -/
  CopyLvl : Nat → Poly → Poly → Poly
  /-- `Add(p1, p2, p3)`. -/
  Add : Poly → Poly → Poly → Poly
  /-- `MulCoeffsMontgomeryAndAdd(p1, p2, p3)`. -/
  MulCoeffsMontgomeryAndAdd : Poly → Poly → Poly → Poly
  /-- `MulCoeffsMontgomeryAndAddLvl(level, p1, p2, p3)`. -/
  MulCoeffsMontgomeryAndAddLvl : Nat → Poly → Poly → Poly → Poly

/-- The `u`-th modulus of the chain. -/
def Ring.modulus (r : Ring) (u : Nat) : Nat :=
  r.Modulus.getD u 1

/-- `c` holds the product of `a` and `b` in every row `u ≤ level` of the chain. -/
def Ring.IsProductLvl (r : Ring) (level : Nat) (a b c : Poly) : Prop :=
  ∀ u k : Nat, u ≤ level → u < r.Modulus.length → k < r.N →
    c.coeff u k = (a.coeff u k * b.coeff u k) % r.modulus u

/-- Rows `0..level` of the receiver are recomputed coefficient by coefficient, the other rows of
the receiver are kept (a receiver with fewer than `level+1` rows is extended). -/
def exactLvl (N : Nat) (moduli : List Nat) (f : Nat → Nat → Nat → Nat) (level : Nat)
    (p1 p2 p3 : Poly) : Poly :=
  (List.range (max p3.length (level + 1))).map fun u =>
    if u ≤ level then
      (List.range N).map fun k => f (moduli.getD u 1) (p1.coeff u k) (p2.coeff u k)
    else p3.getD u []

/-- The inverse of the Montgomery radix `2^64` modulo `q` (zero when there is none). -/
def radixInverse (q : Nat) : Nat :=
  ((List.range q).find? fun t => (t * (2 ^ 64 % q)) % q = 1).getD 0

/-- The negation `q - a` of a coefficient in `uint64` arithmetic, as `Neg` and `NegLvl` store it:
the negation of `0` is stored as `q`. -/
def negCoeff (q a : Nat) : Nat :=
  (q + (2 ^ 64 - a % 2 ^ 64)) % 2 ^ 64

/-- An implementation of the capability over a chain `moduli` and degree `N`, in exact arithmetic
modulo each modulus with the Montgomery radix `2^64`: `MFormLvl` multiplies by the radix and the
Montgomery multiplications divide by it; sums, differences and products are stored reduced, a
negation is stored as `q - a`; the non-leveled `Neg` aborts on an operand with fewer rows than the
chain; `NewPoly` has one zero row per modulus of the chain. -/
def exactRing (N : Nat) (moduli : List Nat) : Ring where
  N := N
  Modulus := moduli
  NewPoly := List.replicate moduli.length (List.replicate N 0)
  MFormLvl := fun level p1 p2 =>
    exactLvl N moduli (fun q a _ => (a * (2 ^ 64 % q)) % q) level p1 p1 p2
  MulCoeffsMontgomeryLvl := exactLvl N moduli (fun q a b => (a * b * radixInverse q) % q)
  AddLvl := exactLvl N moduli (fun q a b => (a + b) % q)
  SubLvl := exactLvl N moduli (fun q a b => (a + (q - b % q)) % q)
  Neg := fun p1 p2 =>
    if moduli.length = 0 then some p2
    else if moduli.length ≤ p1.length ∧ moduli.length ≤ p2.length then
      some (exactLvl N moduli (fun q a _ => negCoeff q a) (moduli.length - 1) p1 p1 p2)
    else none
  NegLvl := fun level p1 p2 => exactLvl N moduli (fun q a _ => negCoeff q a) level p1 p1 p2
  CopyLvl := fun level p1 p2 => exactLvl N moduli (fun _ a _ => a) level p1 p1 p2
  Add := exactLvl N moduli (fun q a b => (a + b) % q) (moduli.length - 1)
  MulCoeffsMontgomeryAndAdd := fun p1 p2 p3 =>
    (List.range moduli.length).map fun u => (List.range N).map fun k =>
      (p3.coeff u k + p1.coeff u k * p2.coeff u k * radixInverse (moduli.getD u 1)) %
        moduli.getD u 1
  MulCoeffsMontgomeryAndAddLvl := fun level p1 p2 p3 =>
    (List.range (max p3.length (level + 1))).map fun u =>
      if u ≤ level then
        (List.range N).map fun k =>
          (p3.coeff u k + p1.coeff u k * p2.coeff u k * radixInverse (moduli.getD u 1)) %
            moduli.getD u 1
      else p3.getD u []

/-- The ring `exactRing`, under the name that recalls its Montgomery radix `2^64`. -/
def montgomeryRing (N : Nat) (moduli : List Nat) : Ring :=
  exactRing N moduli

end ring

namespace mkrlwe

/-- The ways in which the embedded functions of package `mkrlwe` abort. -/
inductive Panic where
  /-- `panic("Cannot compute dot product on vectors of different size !")`. -/
  | sizeMismatch
  /-- A slice is indexed outside its bounds. -/
  | indexOutOfRange
  deriving DecidableEq, Repr

/-- An `MKDecomposedPoly`: the vector of the digits of a polynomial. -/
structure MKDecomposedPoly where
  Poly : List ring.Poly
  deriving DecidableEq, Repr

/-- The loop `for i := uint64(0); i < uint64(len(p1.Poly)); i++` of `Dot` and `DotLvl`, with `n`
iterations left; `acc` is the multiply-accumulate operation of the ring. -/
def Dot.loop (acc : ring.Poly → ring.Poly → ring.Poly → ring.Poly) (p1 p2 : List ring.Poly) :
    Nat → Nat → ring.Poly → Except Panic ring.Poly
  | 0, _, res => pure res
  | n + 1, i, res =>
    match p1[i]?, p2[i]? with
    | some a, some b => Dot.loop acc p1 p2 n (i + 1) (acc a b res)
    | _, _ => throw Panic.indexOutOfRange

/-- `Dot` computes the dot product of two decomposed polynomials in `r`. -/
def Dot (p1 p2 : MKDecomposedPoly) (r : ring.Ring) : Except Panic ring.Poly :=
  if p1.Poly.length ≠ p2.Poly.length then throw Panic.sizeMismatch
  else Dot.loop r.MulCoeffsMontgomeryAndAdd p1.Poly p2.Poly p1.Poly.length 0 r.NewPoly

/-- `DotLvl` computes the dot product of two decomposed polynomials in `r` up to `level`. -/
def DotLvl (level : Nat) (p1 p2 : MKDecomposedPoly) (r : ring.Ring) : Except Panic ring.Poly :=
  if p1.Poly.length ≠ p2.Poly.length then throw Panic.sizeMismatch
  else Dot.loop (r.MulCoeffsMontgomeryAndAddLvl level) p1.Poly p2.Poly p1.Poly.length 0 r.NewPoly

/-- The dot product as the claim words it: starting from the zero polynomial of the ring, the
products `p1[i] * p2[i]` are accumulated for `i = 0..d-1`. -/
def dotProduct (acc : ring.Poly → ring.Poly → ring.Poly → ring.Poly) (zero : ring.Poly)
    (p1 p2 : List ring.Poly) : ring.Poly :=
  (List.zip p1 p2).foldl (fun res ab => acc ab.1 ab.2 res) zero

/-- An `MKEvaluationKey`: the identifier of its participant and its key material. -/
structure MKEvaluationKey where
  PeerID : Nat
  Key : List ring.Poly
  deriving DecidableEq, Repr

/-- An `MKPublicKey`: the identifier of its participant and its key material. -/
structure MKPublicKey where
  PeerID : Nat
  Key : List ring.Poly
  deriving DecidableEq, Repr

/-- An `MKEvalGalKey`: the identifier of its participant and the two decomposed polynomials
`Key[0]` and `Key[1]`. -/
structure MKEvalGalKey where
  PeerID : Nat
  Key : MKDecomposedPoly × MKDecomposedPoly
  deriving DecidableEq, Repr

end mkrlwe

namespace ckks

/-- The `ckks.Element` shared by ciphertexts and plaintexts: its parts (`nil` is an absent part),
its scale (a `float64` in the source, a rational here) and its domain flag. -/
structure Element where
  Value : List (Option ring.Poly)
  scale : ℚ
  IsNTT : Bool

/-- Modelled from the spec: `Element.Degree`, an accessor of package `ckks` whose code is not among
the sources; the data model states `len(parts) == degree+1`. The value is a `uint64`. -/
def Element.Degree (el : Element) : Nat :=
  (el.Value.length + (2 ^ 64 - 1)) % 2 ^ 64

/-- Number of modulus rows of part `i`, when that part is present. -/
def Element.rows? (el : Element) (i : Nat) : Option Nat :=
  (el.Value.getD i none).map List.length

end ckks

namespace mkckks

/-- The ways in which the embedded code aborts. -/
inductive Panic where
  /-- `panic("cannot MulRelin: op0 must be in NTT")`. -/
  | op0NotNTT
  /-- `panic("cannot MulRelin: op1 must be in NTT")`. -/
  | op1NotNTT
  /-- A slice is indexed outside its bounds. -/
  | indexOutOfRange
  /-- A `nil` pointer is dereferenced. -/
  | nilDereference
  /-- A collaborator whose code is not among the sources aborts. -/
  | collaborator
  /-- `panic("ids and ciphertexts must be of ssame length")`. -/
  | idsLength
  /-- `panic("Cannot convert ciphertexts of degree different than 1")`. -/
  | degreeNotOne
  /-- `panic("cannot Negate: invalid receiver Ciphertext does not match input Ciphertext
  degree")`. -/
  | negateDegree
  /-- `panic("Incorrect evaluation keys for the given ciphertexts")`. -/
  | incorrectEvalKeys
  /-- `panic("Incorrect public keys for the given ciphertexts")`. -/
  | incorrectPubKeys
  /-- `panic("Incorrect galois evaluation keys for the given ciphertexts")`. -/
  | incorrectGalKeys
  /-- A slice expression is out of the bounds of its slice. -/
  | sliceBounds
  /-- `panic("Cannot compute dot product on vectors of different size !")`, raised by `Dot`. -/
  | dotSize
  deriving DecidableEq, Repr

/-- A multi-key ciphertext: a `ckks` ciphertext and the identifiers of its participants. -/
structure MKCiphertext where
  Ciphertexts : ckks.Element
  PeerID : List Nat

/-- The evaluator. Besides `ringQ` it carries the functions of other files of the repository that
the embedded methods call and whose code is not among the sources; they are parameters. An
operation that writes into a receiver element takes the old value of the receiver as its last
argument and returns the new one. -/
structure mkEvaluator where
  ringQ : ring.Ring
  /-- `Element.Level()`; `none` when the accessor aborts. -/
  Level : ckks.Element → Option Nat
  /-- `PadCiphers(c1, c2, params)`. -/
  PadCiphers : MKCiphertext → MKCiphertext → MKCiphertext × MKCiphertext
  /-- `NewMKCiphertext(peerIDs, ringQ, params, level, scale)`. -/
  NewMKCiphertext : List Nat → Nat → ℚ → MKCiphertext
  /-- `ckks.NewCiphertext(params, degree, level, scale)`. -/
  NewCiphertext : Nat → Nat → ℚ → ckks.Element
  /-- `mkrlwe.GetThreeElementsckksWithNil(op0, op1, opOut)`; `nil` operands are `none`. -/
  GetThreeElementsckksWithNil : Option ckks.Element → Option ckks.Element → Option ckks.Element →
    Option ckks.Element × Option ckks.Element × Option ckks.Element
  /-- `mkrlwe.MinLevelWithNil(el0, el1, elOut)`; `none` when it aborts. -/
  MinLevelWithNil : Option ckks.Element → Option ckks.Element → Option ckks.Element → Option Nat
  /-- `Element.Resize(params, degree)`, applied to the element given first. -/
  Resize : ckks.Element → Nat → ckks.Element
  /-- `ckksEval.DropLevel(ct, levels)`, applied to the element given first. -/
  DropLevel : ckks.Element → Nat → ckks.Element
  /-- `ckksEval.MultByConst(ct0, constant, ctOut)`, which reads the level of its receiver `ctOut`
  before it writes into it; the new value of the receiver, `none` when the call aborts. -/
  MultByConst : ckks.Element → Nat → ckks.Element → Option ckks.Element
  ringP : ring.Ring
  /-- `mkrlwe.Relinearization(evalKeys, publicKeys, &ct.Ciphertexts.Value, params, level)`: the new
  value of the parts. -/
  Relinearization : List mkrlwe.MKEvaluationKey → List mkrlwe.MKPublicKey →
    List (Option ring.Poly) → Nat → List (Option ring.Poly)
  /-- `params.Beta()`. -/
  Beta : Nat
  /-- `params.GaloisElementForColumnRotationBy(n)`. -/
  GaloisElementForColumnRotationBy : Int → Nat
  /-- The degree `N` of `mkrlwe.GetRingQP(params)`. -/
  ringQPN : Nat
  /-- `ring.PermuteNTTIndex(galEl, N)`. -/
  PermuteNTTIndex : Nat → Nat → List Nat
  /-- `ring.PermuteNTTWithIndexLvl(level, polIn, index, polOut)`. -/
  PermuteNTTWithIndexLvl : Nat → ring.Poly → List Nat → ring.Poly → ring.Poly
  /-- `mkrlwe.NewDecomposedPoly(r, beta)`. -/
  NewDecomposedPoly : ring.Ring → Nat → mkrlwe.MKDecomposedPoly
  /-- `mkrlwe.GInverse(p, params, level)`: the digits in the rings of Q and of P. -/
  GInverse : ring.Poly → Nat → mkrlwe.MKDecomposedPoly × mkrlwe.MKDecomposedPoly
  /-- `convertor.ModDownSplitNTTPQ(level, p1Q, p1P, p2)`. -/
  ModDownSplitNTTPQ : Nat → ring.Poly → ring.Poly → ring.Poly → ring.Poly

/-- Conversion to `uint64`. -/
def toUint64 (n : Int) : Nat :=
  (n % 2 ^ 64).toNat

/-- Conversion to `int` (64 bits, two's complement). -/
def toInt64 (n : Int) : Int :=
  (n + 2 ^ 63) % 2 ^ 64 - 2 ^ 63

/-- The assignment `s[index] = v` to a slice. -/
def setIndex (s : List (Option ring.Poly)) (index : Int) (v : Option ring.Poly) :
    Except Panic (List (Option ring.Poly)) :=
  if 0 ≤ index ∧ index < s.length then .ok (s.set index.toNat v) else .error Panic.indexOutOfRange

/-- Body of the loop `for j, v2 := range el2.Value` of `Mul`, for one `j`. -/
def Mul.cell (ringQ : ring.Ring) (level nbrElements : Nat) (i : Nat) (v1 : Option ring.Poly)
    (tmp1 : ring.Poly) (j : Nat) (v2 : Option ring.Poly) (resCipher : List (Option ring.Poly)) :
    Except Panic (List (Option ring.Poly)) :=
  let index := toInt64 (toInt64 (toInt64 nbrElements * i) + j)
  (match v1, v2 with
    | some _, some p2 =>
      setIndex resCipher index (some (ringQ.MulCoeffsMontgomeryLvl level tmp1 p2 ringQ.NewPoly))
    | _, _ => pure resCipher) >>= fun resCipher =>
  (if v1.isNone then setIndex resCipher index none else pure resCipher) >>= fun resCipher =>
  if v2.isNone then setIndex resCipher index none else pure resCipher

/-- The loop `for j, v2 := range el2.Value` of `Mul`; `j` is the index of the head of the
remaining parts. -/
def Mul.inner (ringQ : ring.Ring) (level nbrElements : Nat) (i : Nat) (v1 : Option ring.Poly)
    (tmp1 : ring.Poly) : List (Option ring.Poly) → Nat → List (Option ring.Poly) →
    Except Panic (List (Option ring.Poly))
  | [], _, resCipher => pure resCipher
  | v2 :: rest, j, resCipher => do
    let resCipher ← Mul.cell ringQ level nbrElements i v1 tmp1 j v2 resCipher
    Mul.inner ringQ level nbrElements i v1 tmp1 rest (j + 1) resCipher

/-- The buffer `tmp1` after the statement `if v1 != nil { ringQ.MFormLvl(level, v1, tmp1) }`. -/
def Mul.mform (ringQ : ring.Ring) (level : Nat) (v1 : Option ring.Poly) (tmp1 : ring.Poly) :
    ring.Poly :=
  match v1 with
  | some p1 => ringQ.MFormLvl level p1 tmp1
  | none => tmp1

/-- The loop `for i, v1 := range el1.Value` of `Mul`; `i` is the index of the head of the remaining
parts. -/
def Mul.outer (ringQ : ring.Ring) (level nbrElements : Nat) (value2 : List (Option ring.Poly)) :
    List (Option ring.Poly) → Nat → ring.Poly → List (Option ring.Poly) →
    Except Panic (List (Option ring.Poly))
  | [], _, _, resCipher => pure resCipher
  | v1 :: rest, i, tmp1, resCipher => do
    let tmp1 := Mul.mform ringQ level v1 tmp1
    let resCipher ← Mul.inner ringQ level nbrElements i v1 tmp1 value2 0 resCipher
    Mul.outer ringQ level nbrElements value2 rest (i + 1) tmp1 resCipher

/-- `Mul` computes the tensor product of the two padded operands. -/
def Mul (eval : mkEvaluator) (c1 c2 : MKCiphertext) : Except Panic MKCiphertext := do
  let (padded1, padded2) := eval.PadCiphers c1 c2
  let nbrElements := (padded1.Ciphertexts.Degree + 1) % 2 ^ 64
  let outputDegree := (nbrElements * nbrElements) % 2 ^ 64
  let el1 := padded1.Ciphertexts
  let el2 := padded2.Ciphertexts
  let level1 ← (eval.Level el1).elim (.error Panic.collaborator) pure
  let level2 ← (eval.Level el2).elim (.error Panic.collaborator) pure
  let level := min level1 level2
  let value : List (Option ring.Poly) := List.replicate outputDegree none
  if !el1.IsNTT then throw Panic.op0NotNTT
  if !el2.IsNTT then throw Panic.op1NotNTT
  let tmp1 := eval.ringQ.NewPoly
  let resCipher ← Mul.outer eval.ringQ level nbrElements el2.Value el1.Value 0 tmp1 value
  pure { Ciphertexts := { Value := resCipher, scale := el1.scale * el2.scale, IsNTT := true },
         PeerID := padded1.PeerID }

/-- Which operand, if any, the receiver pointer `ctOut` of `evaluateInPlace` is equal to. -/
inductive Receiver where
  /-- `ctOut == c0` and `ctOut != c1`. -/
  | isC0
  /-- `ctOut == c1` and `ctOut != c0`. -/
  | isC1
  /-- `ctOut == c0` and `ctOut == c1`. -/
  | isBoth
  /-- `ctOut` is neither `c0` nor `c1`. -/
  | other
  deriving DecidableEq, Repr

/-- An element pointer read during `evaluateInPlace`: the receiver itself, seen in its current
state, or an element that the call does not modify. -/
inductive Source where
  | receiver
  | element (el : ckks.Element)

/-- The element behind a pointer, given the current state of the receiver. -/
def Source.read (s : Source) (ctOut : ckks.Element) : ckks.Element :=
  match s with
  | Source.receiver => ctOut
  | Source.element el => el

/-- The pointer `c0` of `evaluateInPlace`. -/
def Receiver.src0 (recv : Receiver) (c0 : ckks.Element) : Source :=
  match recv with
  | Receiver.isC0 => Source.receiver
  | Receiver.isBoth => Source.receiver
  | _ => Source.element c0

/-- The pointer `c1` of `evaluateInPlace`. -/
def Receiver.src1 (recv : Receiver) (c1 : ckks.Element) : Source :=
  match recv with
  | Receiver.isC1 => Source.receiver
  | Receiver.isBoth => Source.receiver
  | _ => Source.element c1

/-- The read `el.Value[i]`. -/
def readPart (el : ckks.Element) (i : Nat) : Except Panic (Option ring.Poly) :=
  match el.Value[i]? with
  | some v => pure v
  | none => throw Panic.indexOutOfRange

/-- The assignment `el.Value[i] = v`. -/
def writePart (el : ckks.Element) (i : Nat) (v : Option ring.Poly) : Except Panic ckks.Element :=
  if i < el.Value.length then pure { el with Value := el.Value.set i v }
  else throw Panic.indexOutOfRange

/-- A call `op(..., el.Value[i])` of a ring operation that writes into the part `i` of `el`: the
part is dereferenced, `op` maps its old value to its new value. -/
def updatePart (el : ckks.Element) (i : Nat) (op : ring.Poly → ring.Poly) :
    Except Panic ckks.Element :=
  readPart el i >>= fun old =>
  match old with
  | some p => writePart el i (some (op p))
  | none => throw Panic.nilDereference

/-- The result of `Element.Level()`, a panic of the collaborator when it aborts. -/
def levelOf (eval : mkEvaluator) (el : ckks.Element) : Except Panic Nat :=
  match eval.Level el with
  | some l => pure l
  | none => throw Panic.collaborator

/-- Subtraction of `uint64` values. -/
def subUint64 (a b : Nat) : Nat :=
  (a % 2 ^ 64 + (2 ^ 64 - b % 2 ^ 64)) % 2 ^ 64

/-- The conversion `uint64(a / b)` of a quotient of scales (the scales are `float64` in the source;
the quotient is exact here and truncated). -/
def scaleRatio (a b : ℚ) : Nat :=
  ⌊a / b⌋.toNat % 2 ^ 64

/-- The element `new(ckks.Element)`. -/
def newElement : ckks.Element :=
  { Value := [], scale := 0, IsNTT := false }

/-- A call `eval.ckksEval.MultByConst(ct0, constant, ctOut)`: the new value of the receiver, a panic
of the collaborator when the call aborts. -/
def multByConst (eval : mkEvaluator) (ct0 : ckks.Element) (constant : Nat) (ctOut : ckks.Element) :
    Except Panic ckks.Element :=
  match eval.MultByConst ct0 constant ctOut with
  | some el => pure el
  | none => throw Panic.collaborator

/-- A statement `if uint64(a/b) != 0 { MultByConst(ct0, uint64(a/b), ctOut) }` of the scale
alignment: the new value of the receiver `ctOut`. -/
def evaluateInPlace.rescale (eval : mkEvaluator) (a b : ℚ) (ct0 ctOut : ckks.Element) :
    Except Panic ckks.Element :=
  if scaleRatio a b ≠ 0 then multByConst eval ct0 (scaleRatio a b) ctOut else pure ctOut

/-- The scale alignment of `evaluateInPlace` (the `if ctOut == c0 ... else if ctOut == c1 ... else`
statement): it returns the pointers `tmp0` and `tmp1` and the new state of the receiver. -/
def evaluateInPlace.align (eval : mkEvaluator) (recv : Receiver) (c0 c1 ctOut : ckks.Element) :
    Except Panic (Source × Source × ckks.Element) :=
  let s0 := (recv.src0 c0).read ctOut
  let s1 := (recv.src1 c1).read ctOut
  match recv with
  | Receiver.other =>
    if s1.scale > s0.scale then
      evaluateInPlace.rescale eval s1.scale s0.scale s0 newElement >>= fun tmp0 =>
      pure (Source.element tmp0, recv.src1 c1, ctOut)
    else if s0.scale > s1.scale then
      evaluateInPlace.rescale eval s0.scale s1.scale s1 newElement >>= fun tmp1 =>
      pure (recv.src0 c0, Source.element tmp1, ctOut)
    else pure (recv.src0 c0, recv.src1 c1, ctOut)
  | Receiver.isC1 =>
    if s1.scale > s0.scale then
      evaluateInPlace.rescale eval s1.scale s0.scale s0 newElement >>= fun tmp0 =>
      pure (Source.element tmp0, recv.src1 c1, ctOut)
    else if s0.scale > s1.scale then
      evaluateInPlace.rescale eval s0.scale s1.scale s1 ctOut >>= fun ctOut =>
      pure (recv.src0 c0, recv.src1 c1, { ctOut with scale := s0.scale })
    else pure (recv.src0 c0, recv.src1 c1, ctOut)
  | _ =>
    if s0.scale > s1.scale then
      evaluateInPlace.rescale eval s0.scale s1.scale s1 newElement >>= fun tmp1 =>
      pure (recv.src0 c0, Source.element tmp1, ctOut)
    else if s1.scale > s0.scale then
      evaluateInPlace.rescale eval s1.scale s0.scale s0 ctOut >>= fun ctOut =>
      pure (recv.src0 c0, recv.src1 c1, { ctOut with scale := s1.scale })
    else pure (recv.src0 c0, recv.src1 c1, ctOut)

/-- The call `eval.ringQ.Neg(p, ctOut.Value[i])` of the non-leveled negation: the part `i` of the
receiver is dereferenced and receives the negation, unless the negation aborts. -/
def negatePart (ringQ : ring.Ring) (p : ring.Poly) (ctOut : ckks.Element) (i : Nat) :
    Except Panic ckks.Element :=
  readPart ctOut i >>= fun old =>
  match old with
  | some po =>
    match ringQ.Neg p po with
    | some v => writePart ctOut i (some v)
    | none => throw Panic.indexOutOfRange
  | none => throw Panic.nilDereference

/-- First statement of the combination loop: `if tmp0.Value[i] == nil && tmp1.Value[i] == nil`. -/
def evaluateInPlace.bothNil (tmp0 tmp1 : Source) (i : Nat) (ctOut : ckks.Element) :
    Except Panic ckks.Element :=
  readPart (tmp0.read ctOut) i >>= fun a =>
  match a with
  | some _ => pure ctOut
  | none =>
    readPart (tmp1.read ctOut) i >>= fun b =>
    match b with
    | some _ => pure ctOut
    | none => writePart ctOut i none

/-- Second statement of the combination loop:
`if tmp0.Value[i] == nil && tmp1.Value[i] != nil`. -/
def evaluateInPlace.firstNil (ringQ : ring.Ring) (isSub : Bool) (tmp0 tmp1 : Source) (i : Nat)
    (ctOut : ckks.Element) : Except Panic ckks.Element :=
  readPart (tmp0.read ctOut) i >>= fun a =>
  match a with
  | some _ => pure ctOut
  | none =>
    readPart (tmp1.read ctOut) i >>= fun b =>
    match b with
    | none => pure ctOut
    | some pb =>
      if !isSub then writePart ctOut i (some pb)
      else negatePart ringQ pb ctOut i

/-- Third statement of the combination loop:
`if tmp0.Value[i] != nil && tmp1.Value[i] == nil`. -/
def evaluateInPlace.secondNil (tmp0 tmp1 : Source) (i : Nat) (ctOut : ckks.Element) :
    Except Panic ckks.Element :=
  readPart (tmp0.read ctOut) i >>= fun a =>
  match a with
  | none => pure ctOut
  | some pa =>
    readPart (tmp1.read ctOut) i >>= fun b =>
    match b with
    | some _ => pure ctOut
    | none => writePart ctOut i (some pa)

/-- Fourth statement of the combination loop:
`if tmp0.Value[i] != nil && tmp1.Value[i] != nil`. -/
def evaluateInPlace.noneNil (evaluate : Nat → ring.Poly → ring.Poly → ring.Poly → ring.Poly)
    (level : Nat) (tmp0 tmp1 : Source) (i : Nat) (ctOut : ckks.Element) :
    Except Panic ckks.Element :=
  readPart (tmp0.read ctOut) i >>= fun a =>
  match a with
  | none => pure ctOut
  | some pa =>
    readPart (tmp1.read ctOut) i >>= fun b =>
    match b with
    | none => pure ctOut
    | some pb => updatePart ctOut i (evaluate level pa pb)

/-- Body of the combination loop `for i := uint64(0); i < minDegree+1; i++`. -/
def evaluateInPlace.step (ringQ : ring.Ring) (isSub : Bool)
    (evaluate : Nat → ring.Poly → ring.Poly → ring.Poly → ring.Poly) (level : Nat)
    (tmp0 tmp1 : Source) (i : Nat) (ctOut : ckks.Element) : Except Panic ckks.Element :=
  evaluateInPlace.bothNil tmp0 tmp1 i ctOut >>= fun ctOut =>
  evaluateInPlace.firstNil ringQ isSub tmp0 tmp1 i ctOut >>= fun ctOut =>
  evaluateInPlace.secondNil tmp0 tmp1 i ctOut >>= fun ctOut =>
  evaluateInPlace.noneNil evaluate level tmp0 tmp1 i ctOut

/-- The part that one pass of the combination loop leaves at its index when the receiver is neither
operand and the pass does not abort: `a` and `b` are the parts of `tmp0` and `tmp1`, `po` is the
polynomial that the receiver holds there before the pass. -/
def evaluateInPlace.combine (ringQ : ring.Ring) (isSub : Bool)
    (evaluate : Nat → ring.Poly → ring.Poly → ring.Poly → ring.Poly) (level : Nat)
    (a b : Option ring.Poly) (po : ring.Poly) : Option ring.Poly :=
  match a, b with
  | none, none => none
  | none, some pb => if isSub then some ((ringQ.Neg pb po).getD po) else some pb
  | some pa, none => some pa
  | some pa, some pb => some (evaluate level pa pb po)

/-- The combination loop, with `n` iterations left and `i` the current index. -/
def evaluateInPlace.loop (ringQ : ring.Ring) (isSub : Bool)
    (evaluate : Nat → ring.Poly → ring.Poly → ring.Poly → ring.Poly) (level : Nat)
    (tmp0 tmp1 : Source) : Nat → Nat → ckks.Element → Except Panic ckks.Element
  | 0, _, ctOut => pure ctOut
  | n + 1, i, ctOut =>
    evaluateInPlace.step ringQ isSub evaluate level tmp0 tmp1 i ctOut >>= fun ctOut =>
    evaluateInPlace.loop ringQ isSub evaluate level tmp0 tmp1 n (i + 1) ctOut

/-- The loop `for i := minDegree + 1; i < maxDegree+1; i++` that copies the remaining parts of
`tmp` on the receiver, with `n` iterations left. -/
def evaluateInPlace.copyTail (ringQ : ring.Ring) (level : Nat) (tmp : ckks.Element) :
    Nat → Nat → ckks.Element → Except Panic ckks.Element
  | 0, _, ctOut => pure ctOut
  | n + 1, i, ctOut =>
    readPart tmp i >>= fun a =>
    readPart ctOut i >>= fun old =>
    (match a, old with
      | some pa, some po => writePart ctOut i (some (ringQ.CopyLvl level pa po))
      | _, _ => throw Panic.nilDereference) >>= fun ctOut =>
    evaluateInPlace.copyTail ringQ level tmp n (i + 1) ctOut

/-- The end of `evaluateInPlace`: when the degrees `d0` of `c0` and `d1` of `c1` differ, the
remaining parts of the operand of larger degree are copied on the receiver, unless that operand is
the receiver. -/
def evaluateInPlace.copyRemaining (ringQ : ring.Ring) (level : Nat) (tmp0 tmp1 : Source)
    (d0 d1 first last : Nat) (ctOut : ckks.Element) : Except Panic ckks.Element :=
  if d0 > d1 then
    match tmp0 with
    | Source.element t0 => evaluateInPlace.copyTail ringQ level t0 (last - first) first ctOut
    | Source.receiver => pure ctOut
  else if d1 > d0 then
    match tmp1 with
    | Source.element t1 => evaluateInPlace.copyTail ringQ level t1 (last - first) first ctOut
    | Source.receiver => pure ctOut
  else pure ctOut

/-- `evaluateInPlace` on operands and a receiver that are not `nil`. -/
def evaluateInPlace.run (eval : mkEvaluator) (e0 e1 eo : ckks.Element) (recv : Receiver)
    (isSub : Bool) (evaluate : Nat → ring.Poly → ring.Poly → ring.Poly → ring.Poly) :
    Except Panic ckks.Element :=
  let cur0 := fun (out : ckks.Element) => (recv.src0 e0).read out
  let cur1 := fun (out : ckks.Element) => (recv.src1 e1).read out
  levelOf eval (cur0 eo) >>= fun l0 =>
  levelOf eval (cur1 eo) >>= fun l1 =>
  levelOf eval eo >>= fun lOut =>
  let level := min (min l0 l1) lOut
  let maxDegree := max (cur0 eo).Degree (cur1 eo).Degree
  let minDegree := min (cur0 eo).Degree (cur1 eo).Degree
  let eo := eval.Resize eo maxDegree
  levelOf eval eo >>= fun lOut =>
  levelOf eval (cur0 eo) >>= fun l0 =>
  levelOf eval (cur1 eo) >>= fun l1 =>
  let eo := eval.DropLevel eo (subUint64 lOut (min l0 l1))
  evaluateInPlace.align eval recv e0 e1 eo >>= fun aligned =>
  evaluateInPlace.loop eval.ringQ isSub evaluate level aligned.1 aligned.2.1
    ((minDegree + 1) % 2 ^ 64) 0 aligned.2.2 >>= fun eo =>
  let eo := { eo with scale := max (cur0 eo).scale (cur1 eo).scale }
  evaluateInPlace.copyRemaining eval.ringQ level aligned.1 aligned.2.1 (cur0 eo).Degree
    (cur1 eo).Degree ((minDegree + 1) % 2 ^ 64) ((maxDegree + 1) % 2 ^ 64) eo

/-- `evaluateInPlace` combines `c0` and `c1` into the receiver `ctOut`; the result is the state of
the receiver after the call. `recv` tells which operand the receiver pointer is equal to. The
polynomials of the operands are not tracked after the call. -/
def evaluateInPlace (eval : mkEvaluator) (c0 c1 ctOut : Option ckks.Element) (recv : Receiver)
    (isSub : Bool) (evaluate : Nat → ring.Poly → ring.Poly → ring.Poly → ring.Poly) :
    Except Panic (Option ckks.Element) :=
  match c0, c1, ctOut with
  | none, none, _ => pure ctOut
  | some e0, some e1, some eo =>
    evaluateInPlace.run eval e0 e1 eo recv isSub evaluate >>= fun eo => pure (some eo)
  | _, _, _ => throw Panic.nilDereference

/-- `newCiphertextBinary` returns a ciphertext with max degree, max scale and min level. -/
def newCiphertextBinary (eval : mkEvaluator) (op0 op1 : Option ckks.Element) :
    Except Panic ckks.Element :=
  match op0, op1 with
  | some e0, some e1 => do
    let maxDegree := max e0.Degree e1.Degree
    let maxScale := max e0.scale e1.scale
    let l0 ← levelOf eval e0
    let l1 ← levelOf eval e1
    pure (eval.NewCiphertext maxDegree (min l0 l1) maxScale)
  | _, _ => throw Panic.nilDereference

/-- `AddWithNil` adds `op0` to `op1` into the receiver `ctOut`; the result is the state of the
receiver after the call. -/
def AddWithNil (eval : mkEvaluator) (op0 op1 ctOut : Option ckks.Element) (recv : Receiver) :
    Except Panic (Option ckks.Element) :=
  match op0, op1 with
  | none, none => throw Panic.nilDereference
  | _, _ =>
    let (el0, el1, elOut) := eval.GetThreeElementsckksWithNil op0 op1 ctOut
    evaluateInPlace eval el0 el1 elOut recv false eval.ringQ.AddLvl

/-- `AddNew` adds `op0` to `op1` and returns the result in a newly created element. -/
def AddNew (eval : mkEvaluator) (op0 op1 : Option ckks.Element) : Except Panic ckks.Element := do
  let ctOut ← newCiphertextBinary eval op0 op1
  let res ← AddWithNil eval op0 op1 (some ctOut) Receiver.other
  pure (res.getD ctOut)

/-- `Add` pads the two ciphertexts and adds them part by part. -/
def Add (eval : mkEvaluator) (c0 c1 : MKCiphertext) : Except Panic MKCiphertext := do
  let (padded1, padded2) := eval.PadCiphers c0 c1
  let level ← levelOf eval padded1.Ciphertexts
  let out := eval.NewMKCiphertext padded1.PeerID level c0.Ciphertexts.scale
  let ct ← AddNew eval (some padded1.Ciphertexts) (some padded2.Ciphertexts)
  pure { out with Ciphertexts := ct }

/-- The loop `for i := el0.Degree() + 1; i < el1.Degree()+1; i++` of `SubWithNil`, which negates
the parts of the receiver in place, with `n` iterations left. -/
def SubWithNil.negTail (ringQ : ring.Ring) (level : Nat) :
    Nat → Nat → ckks.Element → Except Panic ckks.Element
  | 0, _, elOut => pure elOut
  | n + 1, i, elOut =>
    readPart elOut i >>= fun old =>
    (match old with
      | some po => writePart elOut i (some (ringQ.NegLvl level po po))
      | none => throw Panic.nilDereference) >>= fun elOut =>
    SubWithNil.negTail ringQ level n (i + 1) elOut

/-- `SubWithNil` subtracts `op1` from `op0` into the receiver `ctOut`; the result is the state of
the receiver after the call. -/
def SubWithNil (eval : mkEvaluator) (op0 op1 ctOut : Option ckks.Element) (recv : Receiver) :
    Except Panic (Option ckks.Element) :=
  match op0, op1 with
  | some _, some _ => do
    let (el0, el1, elOut) := eval.GetThreeElementsckksWithNil op0 op1 ctOut
    let res ← evaluateInPlace eval el0 el1 elOut recv true eval.ringQ.SubLvl
    match el0, el1, res with
    | some e0, some e1, some eo =>
      let cur0 := (recv.src0 e0).read eo
      let cur1 := (recv.src1 e1).read eo
      let l0 ← levelOf eval cur0
      let l1 ← levelOf eval cur1
      let lOut ← levelOf eval eo
      let level := min (min l0 l1) lOut
      if cur0.Degree < cur1.Degree then
        let first := (cur0.Degree + 1) % 2 ^ 64
        let last := (cur1.Degree + 1) % 2 ^ 64
        let eo ← SubWithNil.negTail eval.ringQ level (last - first) first eo
        pure (some eo)
      else pure (some eo)
    | _, _, _ =>
      match eval.MinLevelWithNil el0 el1 res with
      | some _ => pure res
      | none => throw Panic.collaborator
  | _, _ => throw Panic.nilDereference

/-- `SubNew` subtracts `op1` from `op0` and returns the result in a newly created element. -/
def SubNew (eval : mkEvaluator) (op0 op1 : Option ckks.Element) : Except Panic ckks.Element := do
  let ctOut ← newCiphertextBinary eval op0 op1
  let res ← SubWithNil eval op0 op1 (some ctOut) Receiver.other
  pure (res.getD ctOut)

/-- `Sub` pads the two ciphertexts and subtracts them part by part. -/
def Sub (eval : mkEvaluator) (c0 c1 : MKCiphertext) : Except Panic MKCiphertext := do
  let (padded1, padded2) := eval.PadCiphers c0 c1
  let level ← levelOf eval padded1.Ciphertexts
  let out := eval.NewMKCiphertext padded1.PeerID level padded1.Ciphertexts.scale
  let ct ← SubNew eval (some padded1.Ciphertexts) (some padded2.Ciphertexts)
  pure { out with Ciphertexts := ct }

/-- The loop `for i, c := range ct` of `ConvertToMKCiphertext`; `i` is the index of the head of
the remaining ciphertexts. -/
def ConvertToMKCiphertext.loop (ids : List Nat) :
    List ckks.Element → Nat → Except Panic (List MKCiphertext)
  | [], _ => pure []
  | c :: rest, i =>
    if c.Degree ≠ 1 then throw Panic.degreeNotOne
    else
      match ids[i]? with
      | none => throw Panic.indexOutOfRange
      | some id =>
        ConvertToMKCiphertext.loop ids rest (i + 1) >>= fun res =>
        pure ({ Ciphertexts := c, PeerID := [id] } :: res)

/-- `ConvertToMKCiphertext` takes `ckks` ciphertexts and their identifiers and converts them to
multi-key ciphertexts. -/
def ConvertToMKCiphertext (ct : List ckks.Element) (ids : List Nat) :
    Except Panic (List MKCiphertext) :=
  if ids.length ≠ ct.length then throw Panic.idsLength
  else ConvertToMKCiphertext.loop ids ct 0

/-- The loop `for i := range ct0.Value` of `NegWithNil`; `i` is the index of the head of the
remaining parts of `ct0`. -/
def NegWithNil.loop (ringQ : ring.Ring) (level : Nat) :
    List (Option ring.Poly) → Nat → ckks.Element → Except Panic ckks.Element
  | [], _, ctOut => pure ctOut
  | v :: rest, i, ctOut =>
    readPart ctOut i >>= fun old =>
    match v, old with
    | some p, some po =>
      writePart ctOut i (some (ringQ.NegLvl level p po)) >>= fun ctOut =>
      NegWithNil.loop ringQ level rest (i + 1) ctOut
    | _, _ => throw Panic.nilDereference

/-- `NegWithNil` negates the value of `ct0` into the receiver `ctOut`; the result is the state of
the receiver after the call. -/
def NegWithNil (eval : mkEvaluator) (ct0 ctOut : ckks.Element) : Except Panic ckks.Element :=
  levelOf eval ct0 >>= fun l0 =>
  levelOf eval ctOut >>= fun lOut =>
  if ct0.Degree ≠ ctOut.Degree then throw Panic.negateDegree
  else NegWithNil.loop eval.ringQ (min l0 lOut) ct0.Value 0 ctOut

/-- `NegNew` negates `ct0` and returns the result in a newly created element (`nil` for `nil`). -/
def NegNew (eval : mkEvaluator) (ct0 : Option ckks.Element) :
    Except Panic (Option ckks.Element) :=
  match ct0 with
  | none => pure none
  | some el =>
    levelOf eval el >>= fun level =>
    NegWithNil eval el (eval.NewCiphertext el.Degree level el.scale) >>= fun ctOut =>
    pure (some ctOut)

/-- `Neg` returns the additive inverse of a ciphertext. -/
def Neg (eval : mkEvaluator) (c : MKCiphertext) : Except Panic MKCiphertext :=
  levelOf eval c.Ciphertexts >>= fun level =>
  let out := eval.NewMKCiphertext c.PeerID level c.Ciphertexts.scale
  NegNew eval (some c.Ciphertexts) >>= fun ct =>
  match ct with
  | some el => pure { out with Ciphertexts := el }
  | none => throw Panic.nilDereference

/-- The loop `for i, id := range peerID` shared by `checkParticipantsEvalKey`,
`checkParticipantsPubKey` and `checkParticipantsGalKey`: `keys` are the identifiers
`keys[i].PeerID`, `mismatch` is the panic of the function and `i` the index of the head of the
remaining identifiers. -/
def checkParticipants (mismatch : Panic) (keys : List Nat) : List Nat → Nat → Except Panic Unit
  | [], _ => pure ()
  | id :: rest, i =>
    match keys[i]? with
    | none => throw Panic.indexOutOfRange
    | some key => if id ≠ key then throw mismatch else checkParticipants mismatch keys rest (i + 1)

/-- `checkParticipantsEvalKey`. -/
def checkParticipantsEvalKey (peerID : List Nat) (evalKeys : List mkrlwe.MKEvaluationKey) :
    Except Panic Unit :=
  checkParticipants Panic.incorrectEvalKeys (evalKeys.map (·.PeerID)) peerID 0

/-- `checkParticipantsPubKey`. -/
def checkParticipantsPubKey (peerID : List Nat) (pubKeys : List mkrlwe.MKPublicKey) :
    Except Panic Unit :=
  checkParticipants Panic.incorrectPubKeys (pubKeys.map (·.PeerID)) peerID 0

/-- `checkParticipantsGalKey`. -/
def checkParticipantsGalKey (peerID : List Nat) (galKeys : List mkrlwe.MKEvalGalKey) :
    Except Panic Unit :=
  checkParticipants Panic.incorrectGalKeys (galKeys.map (·.PeerID)) peerID 0

/-- The call `sort.Slice(keys, func(i, j int) bool { return keys[i].PeerID < keys[j].PeerID })`: it
leaves in the slice a permutation of its elements sorted by identifier (the Go sort is not stable;
the permutation is computed by insertion, and is the only one when the identifiers are
distinct). -/
def sortByPeerID {α : Type} (peerID : α → Nat) (keys : List α) : List α :=
  keys.insertionSort (fun a b => peerID a ≤ peerID b)

/-- What a caller of `RelinInPlace` observes after the call: the content of the two key slices it
passed, and the ciphertext (or the panic). -/
structure RelinOutcome where
  evalKeys : List mkrlwe.MKEvaluationKey
  publicKeys : List mkrlwe.MKPublicKey
  result : Except Panic MKCiphertext

/-- `RelinInPlace` relinearizes a ciphertext after a multiplication. -/
def RelinInPlace (eval : mkEvaluator) (ct : MKCiphertext)
    (evalKeys : List mkrlwe.MKEvaluationKey) (publicKeys : List mkrlwe.MKPublicKey) :
    RelinOutcome :=
  let evalKeys := sortByPeerID (·.PeerID) evalKeys
  let publicKeys := sortByPeerID (·.PeerID) publicKeys
  { evalKeys := evalKeys
    publicKeys := publicKeys
    result :=
      checkParticipantsEvalKey ct.PeerID evalKeys >>= fun _ =>
      checkParticipantsPubKey ct.PeerID publicKeys >>= fun _ =>
      levelOf eval ct.Ciphertexts >>= fun level =>
      pure { ct with
        Ciphertexts := { ct.Ciphertexts with
          Value := eval.Relinearization evalKeys publicKeys ct.Ciphertexts.Value level } } }

/-- The loop `for i, v := range c.Ciphertexts.Value` of `MultPlaintext`; `i` is the index of the
head of the remaining parts and `tmp` the Montgomery form of the plaintext. -/
def MultPlaintext.loop (ringQ : ring.Ring) (level : Nat) (tmp : ring.Poly) :
    List (Option ring.Poly) → Nat → List (Option ring.Poly) →
    Except Panic (List (Option ring.Poly))
  | [], _, val => pure val
  | v :: rest, i, val =>
    setIndex val i (some ringQ.NewPoly) >>= fun val =>
    (match v with
      | none => setIndex val i (some tmp)
      | some p =>
        setIndex val i (some (ringQ.MulCoeffsMontgomeryLvl level tmp p ringQ.NewPoly)))
      >>= fun val =>
    MultPlaintext.loop ringQ level tmp rest (i + 1) val

/-- `MultPlaintext` multiplies a plaintext and a ciphertext. -/
def MultPlaintext (eval : mkEvaluator) (pt : ckks.Element) (c : MKCiphertext) :
    Except Panic MKCiphertext :=
  levelOf eval c.Ciphertexts >>= fun lc =>
  let out := eval.NewMKCiphertext c.PeerID lc c.Ciphertexts.scale
  let val : List (Option ring.Poly) := List.replicate (c.PeerID.length + 1) none
  levelOf eval c.Ciphertexts >>= fun lc =>
  levelOf eval pt >>= fun lpt =>
  let level := min lc lpt
  readPart pt 0 >>= fun pt0 =>
  match pt0 with
  | none => throw Panic.nilDereference
  | some p0 =>
    let tmp := eval.ringQ.MFormLvl level p0 eval.ringQ.NewPoly
    MultPlaintext.loop eval.ringQ level tmp c.Ciphertexts.Value 0 val >>= fun val =>
    pure { out with
      Ciphertexts := { out.Ciphertexts with
        Value := val, scale := pt.scale * c.Ciphertexts.scale } }

/-- `AddPlaintext` adds the plaintext to the ciphertext. -/
def AddPlaintext (eval : mkEvaluator) (pt : ckks.Element) (c : MKCiphertext) :
    Except Panic MKCiphertext :=
  levelOf eval c.Ciphertexts >>= fun level =>
  let out := eval.NewMKCiphertext c.PeerID level c.Ciphertexts.scale
  AddNew eval (some c.Ciphertexts) (some pt) >>= fun ct =>
  pure { out with Ciphertexts := ct }

/-- `SubPlaintext` subtracts the plaintext from the ciphertext. -/
def SubPlaintext (eval : mkEvaluator) (pt : ckks.Element) (c : MKCiphertext) :
    Except Panic MKCiphertext :=
  levelOf eval c.Ciphertexts >>= fun level =>
  let out := eval.NewMKCiphertext c.PeerID level c.Ciphertexts.scale
  SubNew eval (some c.Ciphertexts) (some pt) >>= fun ct =>
  pure { out with Ciphertexts := ct }

/-- The four decomposed polynomials `gal0Q`, `gal0P`, `gal1Q`, `gal1P` of `Rotate`. -/
structure GaloisBuffers where
  gal0Q : mkrlwe.MKDecomposedPoly
  gal0P : mkrlwe.MKDecomposedPoly
  gal1Q : mkrlwe.MKDecomposedPoly
  gal1P : mkrlwe.MKDecomposedPoly

/-- The slice expression `coeffs[:n]`. -/
def sliceTo (coeffs : ring.Poly) (n : Nat) : Except Panic ring.Poly :=
  if n ≤ coeffs.length then pure (coeffs.take n) else throw Panic.sliceBounds

/-- The slice expression `coeffs[n:]`. -/
def sliceFrom (coeffs : ring.Poly) (n : Nat) : Except Panic ring.Poly :=
  if n ≤ coeffs.length then pure (coeffs.drop n) else throw Panic.sliceBounds

/-- The assignment `d.Poly[u].Coeffs = coeffs`. -/
def setCoeffs (d : mkrlwe.MKDecomposedPoly) (u : Nat) (coeffs : ring.Poly) :
    Except Panic mkrlwe.MKDecomposedPoly :=
  if u < d.Poly.length then pure { Poly := d.Poly.set u coeffs }
  else throw Panic.indexOutOfRange

/-- The read `d.Poly[u]`. -/
def getDigit (d : mkrlwe.MKDecomposedPoly) (u : Nat) : Except Panic ring.Poly :=
  match d.Poly[u]? with
  | some p => pure p
  | none => throw Panic.indexOutOfRange

/-- The loop `for u := uint64(0); u < beta; u++` of `prepareGaloisEvaluationKey`, with `n`
iterations left. -/
def prepareGaloisEvaluationKey.loop (level modulus : Nat) (key : mkrlwe.MKEvalGalKey) :
    Nat → Nat → GaloisBuffers → Except Panic GaloisBuffers
  | 0, _, g => pure g
  | n + 1, u, g =>
    getDigit key.Key.1 u >>= fun k0 =>
    sliceTo k0 (level + 1) >>= fun s =>
    setCoeffs g.gal0Q u s >>= fun gal0Q =>
    getDigit key.Key.1 u >>= fun k0 =>
    sliceFrom k0 modulus >>= fun s =>
    setCoeffs g.gal0P u s >>= fun gal0P =>
    getDigit key.Key.2 u >>= fun k1 =>
    sliceTo k1 (level + 1) >>= fun s =>
    setCoeffs g.gal1Q u s >>= fun gal1Q =>
    getDigit key.Key.2 u >>= fun k1 =>
    sliceFrom k1 modulus >>= fun s =>
    setCoeffs g.gal1P u s >>= fun gal1P =>
    prepareGaloisEvaluationKey.loop level modulus key n (u + 1)
      { gal0Q := gal0Q, gal0P := gal0P, gal1Q := gal1Q, gal1P := gal1P }

/-- `prepareGaloisEvaluationKey` prepares the Galois evaluation key of participant `j` for
operations in the split basis. -/
def prepareGaloisEvaluationKey (j level modulus beta : Nat)
    (galKeys : List mkrlwe.MKEvalGalKey) (g : GaloisBuffers) : Except Panic GaloisBuffers :=
  if beta = 0 then pure g
  else
    match galKeys[(j : Int).toNat - 1]?, decide (1 ≤ j) with
    | some key, true => prepareGaloisEvaluationKey.loop level modulus key beta 0 g
    | _, _ => throw Panic.indexOutOfRange

/-- The accumulators of `Rotate`: the buffers of the key and the slices `restmpQ`, `restmpP`. -/
structure Rotate.State where
  gal : GaloisBuffers
  restmpQ : List (Option ring.Poly)
  restmpP : List (Option ring.Poly)

/-- A polynomial pointer that a ring operation dereferences. -/
def deref (p : Option ring.Poly) : Except Panic ring.Poly :=
  match p with
  | some q => pure q
  | none => throw Panic.nilDereference

/-- The result of `Dot` or `DotLvl` inside the evaluator. -/
def liftDot (r : Except mkrlwe.Panic ring.Poly) : Except Panic ring.Poly :=
  match r with
  | .ok p => pure p
  | .error mkrlwe.Panic.sizeMismatch => throw Panic.dotSize
  | .error mkrlwe.Panic.indexOutOfRange => throw Panic.indexOutOfRange

/-- The read `s[i]` of a slice of polynomial pointers. -/
def getIndex (s : List (Option ring.Poly)) (i : Nat) : Except Panic (Option ring.Poly) :=
  match s[i]? with
  | some v => pure v
  | none => throw Panic.indexOutOfRange

/-- Body of the first loop `for i := uint64(1); i <= k; i++` of `Rotate`. -/
def Rotate.step (eval : mkEvaluator) (c : MKCiphertext) (keys : List mkrlwe.MKEvalGalKey)
    (galEl level : Nat) (i : Nat) (st : Rotate.State) : Except Panic Rotate.State :=
  prepareGaloisEvaluationKey i level eval.ringQ.Modulus.length eval.Beta keys st.gal >>= fun gal =>
  let index := eval.PermuteNTTIndex galEl eval.ringQPN
  readPart c.Ciphertexts i >>= fun ci =>
  deref ci >>= fun ci =>
  let permutedCipher := eval.PermuteNTTWithIndexLvl level ci index eval.ringQ.NewPoly
  let dec := eval.GInverse permutedCipher level
  liftDot (mkrlwe.Dot dec.2 gal.gal0P eval.ringP) >>= fun res0P =>
  liftDot (mkrlwe.DotLvl level dec.1 gal.gal0Q eval.ringQ) >>= fun res0Q =>
  getIndex st.restmpP 0 >>= fun p0 =>
  deref p0 >>= fun p0 =>
  setIndex st.restmpP 0 (some (eval.ringP.Add p0 res0P p0)) >>= fun restmpP =>
  getIndex st.restmpQ 0 >>= fun q0 =>
  deref q0 >>= fun q0 =>
  setIndex st.restmpQ 0 (some (eval.ringQ.AddLvl level q0 res0Q q0)) >>= fun restmpQ =>
  liftDot (mkrlwe.Dot dec.2 gal.gal1P eval.ringP) >>= fun r1P =>
  setIndex restmpP i (some r1P) >>= fun restmpP =>
  liftDot (mkrlwe.DotLvl level dec.1 gal.gal1Q eval.ringQ) >>= fun r1Q =>
  setIndex restmpQ i (some r1Q) >>= fun restmpQ =>
  pure { gal := gal, restmpQ := restmpQ, restmpP := restmpP }

/-- The first loop `for i := uint64(1); i <= k; i++` of `Rotate`, with `n` iterations left. -/
def Rotate.loop (eval : mkEvaluator) (c : MKCiphertext) (keys : List mkrlwe.MKEvalGalKey)
    (galEl level : Nat) : Nat → Nat → Rotate.State → Except Panic Rotate.State
  | 0, _, st => pure st
  | n + 1, i, st =>
    Rotate.step eval c keys galEl level i st >>= fun st =>
    Rotate.loop eval c keys galEl level n (i + 1) st

/-- The last loop `for i := uint64(1); i <= k; i++` of `Rotate`, with `n` iterations left;
`tmpModDown` is the buffer of the mod-down. -/
def Rotate.finish (eval : mkEvaluator) (level : Nat) (st : Rotate.State) :
    Nat → Nat → ring.Poly → List (Option ring.Poly) → Except Panic (List (Option ring.Poly))
  | 0, _, _, res => pure res
  | n + 1, i, tmpModDown, res =>
    getIndex st.restmpQ i >>= fun q =>
    getIndex st.restmpP i >>= fun p =>
    deref q >>= fun q =>
    deref p >>= fun p =>
    let tmpModDown := eval.ModDownSplitNTTPQ level q p tmpModDown
    getIndex res i >>= fun r =>
    deref r >>= fun r =>
    setIndex res i (some (eval.ringQ.CopyLvl level tmpModDown r)) >>= fun res =>
    Rotate.finish eval level st n (i + 1) tmpModDown res

/-- What a caller of `Rotate` observes after the call: the content of the key slice it passed, and
the new ciphertext (or the panic). -/
structure RotateOutcome where
  keys : List mkrlwe.MKEvalGalKey
  result : Except Panic MKCiphertext

/-- `Rotate` rotates the columns of the ciphertext by `n` to the left and returns the result in a
new ciphertext. -/
def Rotate (eval : mkEvaluator) (c : MKCiphertext) (n : Int)
    (keys : List mkrlwe.MKEvalGalKey) : RotateOutcome :=
  let keys := sortByPeerID (·.PeerID) keys
  { keys := keys
    result :=
      checkParticipantsGalKey c.PeerID keys >>= fun _ =>
      levelOf eval c.Ciphertexts >>= fun lc =>
      let out := eval.NewMKCiphertext c.PeerID lc c.Ciphertexts.scale
      let galEl := eval.GaloisElementForColumnRotationBy n
      levelOf eval c.Ciphertexts >>= fun level =>
      let k := c.PeerID.length
      let res : List (Option ring.Poly) := List.replicate (k + 1) (some eval.ringQ.NewPoly)
      let restmpQ : List (Option ring.Poly) :=
        (List.replicate (k + 1) none).set 0 (some eval.ringQ.NewPoly)
      let restmpP : List (Option ring.Poly) :=
        (List.replicate (k + 1) none).set 0 (some eval.ringP.NewPoly)
      let gal : GaloisBuffers :=
        { gal0Q := eval.NewDecomposedPoly eval.ringQ eval.Beta
          gal0P := eval.NewDecomposedPoly eval.ringP eval.Beta
          gal1Q := eval.NewDecomposedPoly eval.ringQ eval.Beta
          gal1P := eval.NewDecomposedPoly eval.ringP eval.Beta }
      Rotate.loop eval c keys galEl level k 1
        { gal := gal, restmpQ := restmpQ, restmpP := restmpP } >>= fun st =>
      let index := eval.PermuteNTTIndex galEl eval.ringQPN
      readPart c.Ciphertexts 0 >>= fun c0 =>
      deref c0 >>= fun c0 =>
      getIndex res 0 >>= fun r0 =>
      deref r0 >>= fun r0 =>
      let res0 := eval.PermuteNTTWithIndexLvl level c0 index r0
      let tmpModDown := eval.ringQ.NewPoly
      getIndex st.restmpQ 0 >>= fun q0 =>
      getIndex st.restmpP 0 >>= fun p0 =>
      deref q0 >>= fun q0 =>
      deref p0 >>= fun p0 =>
      let tmpModDown := eval.ModDownSplitNTTPQ level q0 p0 tmpModDown
      setIndex res 0 (some (eval.ringQ.AddLvl level res0 tmpModDown res0)) >>= fun res =>
      Rotate.finish eval level st k 1 tmpModDown res >>= fun res =>
      pure { out with Ciphertexts := { out.Ciphertexts with Value := res } } }

/-- The four buffers of `Rotate` when `prepareGaloisEvaluationKey` has run for the key `key`: of
each of the first `beta` digits of `Key[0]` and of `Key[1]`, the rows `[:level+1]` and the rows
`[modulus:]`. -/
def preparedKey (level modulus beta : Nat) (key : mkrlwe.MKEvalGalKey) : GaloisBuffers where
  gal0Q := ⟨(key.Key.1.Poly.take beta).map fun p => p.take (level + 1)⟩
  gal0P := ⟨(key.Key.1.Poly.take beta).map fun p => p.drop modulus⟩
  gal1Q := ⟨(key.Key.2.Poly.take beta).map fun p => p.take (level + 1)⟩
  gal1P := ⟨(key.Key.2.Poly.take beta).map fun p => p.drop modulus⟩

/-- Modelled from the spec: `perm`, the NTT permutation of the Galois element of `n` applied up to
`level`, written into a new polynomial of the ring of Q. -/
def Rotate.perm (eval : mkEvaluator) (n : Int) (level : Nat) (p : ring.Poly) : ring.Poly :=
  eval.PermuteNTTWithIndexLvl level p
    (eval.PermuteNTTIndex (eval.GaloisElementForColumnRotationBy n) eval.ringQPN) eval.ringQ.NewPoly

/-- Modelled from the spec: the dot product `<G^-1(perm(ci)), d>` over the `beta` digits in the
extended basis, as the pair of its value in the ring of Q up to `level` and its value in the ring of
P; of each digit of the key `d` the rows of Q up to `level` and the rows of P are taken. -/
def Rotate.inner (eval : mkEvaluator) (n : Int) (level : Nat) (ci : ring.Poly)
    (d : mkrlwe.MKDecomposedPoly) : ring.Poly × ring.Poly :=
  let dec := eval.GInverse (Rotate.perm eval n level ci) level
  (mkrlwe.dotProduct (eval.ringQ.MulCoeffsMontgomeryAndAddLvl level) eval.ringQ.NewPoly
      dec.1.Poly ((d.Poly.take eval.Beta).map fun p => p.take (level + 1)),
    mkrlwe.dotProduct eval.ringP.MulCoeffsMontgomeryAndAdd eval.ringP.NewPoly
      dec.2.Poly ((d.Poly.take eval.Beta).map fun p => p.drop eval.ringQ.Modulus.length))

/-- Modelled from the spec: the sum over the participants `i = 1..k` of
`<G^-1(perm(c[i])), galKey_i[0]>`, formed in the extended basis from the zero polynomials; `cs` are
the parts `c[1..k]` and `ks` the keys, in the order of the participants. -/
def Rotate.sum (eval : mkEvaluator) (n : Int) (level : Nat) (cs : List ring.Poly)
    (ks : List mkrlwe.MKEvalGalKey) (init : ring.Poly × ring.Poly) : ring.Poly × ring.Poly :=
  (List.zip cs ks).foldl
    (fun acc ck =>
      (eval.ringQ.AddLvl level acc.1 (Rotate.inner eval n level ck.1 ck.2.Key.1).1 acc.1,
        eval.ringP.Add acc.2 (Rotate.inner eval n level ck.1 ck.2.Key.1).2 acc.2))
    init

/-- Modelled from the spec: the mod-down of each element of a list of values in the extended
basis, one after the other into the buffer `tmp`. -/
def Rotate.modDowns (eval : mkEvaluator) (level : Nat) :
    ring.Poly → List (ring.Poly × ring.Poly) → List ring.Poly
  | _, [] => []
  | tmp, qp :: rest =>
    eval.ModDownSplitNTTPQ level qp.1 qp.2 tmp ::
      Rotate.modDowns eval level (eval.ModDownSplitNTTPQ level qp.1 qp.2 tmp) rest

/-- Modelled from the spec: the parts of the output of `Rotate` for the ciphertext of parts
`c0 :: cs` and the keys `ks` in the order of the participants: part 0 is
`perm(c[0]) + ModDown(sum_i <G^-1(perm(c[i])), galKey_i[0]>)`, part `i` is
`ModDown(<G^-1(perm(c[i])), galKey_i[1]>)`, copied up to `level` into a new polynomial. -/
def Rotate.formula (eval : mkEvaluator) (n : Int) (level : Nat) (c0 : ring.Poly)
    (cs : List ring.Poly) (ks : List mkrlwe.MKEvalGalKey) : List (Option ring.Poly) :=
  let sum := Rotate.sum eval n level cs ks (eval.ringQ.NewPoly, eval.ringP.NewPoly)
  let m0 := eval.ModDownSplitNTTPQ level sum.1 sum.2 eval.ringQ.NewPoly
  let p0 := Rotate.perm eval n level c0
  some (eval.ringQ.AddLvl level p0 m0 p0) ::
    (Rotate.modDowns eval level m0
      ((List.zip cs ks).map fun ck => Rotate.inner eval n level ck.1 ck.2.Key.2)).map
      fun t => some (eval.ringQ.CopyLvl level t eval.ringQ.NewPoly)

/-- The loop `for i, v := range mkCT.Ciphertexts.Value` of `ConvertToCKKSCiphertext`; `i` is the
index of the head of the remaining parts, `c0` the part 0 and `res` the result slice. -/
def ConvertToCKKSCiphertext.loop (c0 : Option ring.Poly) (scale : ℚ) :
    List (Option ring.Poly) → Nat → List (Option ckks.Element) →
    Except Panic (List (Option ckks.Element))
  | [], _, res => pure res
  | v :: rest, i, res =>
    if i ≠ 0 then
      let newCipher : ckks.Element := { Value := [c0, v], scale := scale, IsNTT := true }
      (if i - 1 < res.length then pure (res.set (i - 1) (some newCipher))
        else throw Panic.indexOutOfRange) >>= fun res =>
      ConvertToCKKSCiphertext.loop c0 scale rest (i + 1) res
    else ConvertToCKKSCiphertext.loop c0 scale rest (i + 1) res

/-- `ConvertToCKKSCiphertext` transforms a multi-key ciphertext into `ckks` ciphertexts that hold
the part 0 and one participant part each; an entry of the result is `none` while it is `nil`. -/
def ConvertToCKKSCiphertext (mkCT : MKCiphertext) : Except Panic (List (Option ckks.Element)) :=
  let res : List (Option ckks.Element) := List.replicate mkCT.PeerID.length none
  readPart mkCT.Ciphertexts 0 >>= fun c0 =>
  ConvertToCKKSCiphertext.loop c0 mkCT.Ciphertexts.scale mkCT.Ciphertexts.Value 0 res

/-- What `newCiphertextBinary` expects of the collaborators on the receiver `fresh` that
`ckks.NewCiphertext` allocates for `k+1` parts at level `level`: all its parts are present, it has
the requested level, resizing it to its own degree and dropping zero levels leave it unchanged. -/
structure FreshReceiver (eval : mkEvaluator) (fresh : ckks.Element) (k level : Nat) : Prop where
  length : fresh.Value.length = k + 1
  level : eval.Level fresh = some level
  resize : eval.Resize fresh k = fresh
  drop : eval.DropLevel fresh 0 = fresh
  present : ∀ j : Nat, j ≤ k → ∃ po : ring.Poly, fresh.Value[j]? = some (some po)

/-- The part that one pass of the inner loop body of `Mul` leaves at its index: absent when a
factor is absent, otherwise the Montgomery product of the buffer `tmp1` and the second factor,
written into a fresh polynomial. -/
def Mul.part (ringQ : ring.Ring) (level : Nat) (tmp1 : ring.Poly) (v1 v2 : Option ring.Poly) :
    Option ring.Poly :=
  match v1, v2 with
  | some _, some p2 => some (ringQ.MulCoeffsMontgomeryLvl level tmp1 p2 ringQ.NewPoly)
  | _, _ => none

/-- The buffer `tmp1` of `Mul` once the outer loop has passed the parts `0..i` of the first
operand, starting from the buffer `tmp1`. -/
def Mul.tmpAt (ringQ : ring.Ring) (level : Nat) : List (Option ring.Poly) → Nat → ring.Poly →
    ring.Poly
  | [], _, tmp1 => tmp1
  | v1 :: _, 0, tmp1 => Mul.mform ringQ level v1 tmp1
  | v1 :: rest, i + 1, tmp1 => Mul.tmpAt ringQ level rest i (Mul.mform ringQ level v1 tmp1)

/-- The level accessor on elements whose part 0 is present: its number of rows minus one. -/
def rowLevel (el : ckks.Element) : Option Nat :=
  (el.rows? 0).map (· - 1)

/-- The zero polynomial with `level+1` rows of `N` coefficients. -/
def zeroPolyLvl (N level : Nat) : ring.Poly :=
  List.replicate (level + 1) (List.replicate N 0)

/-- A ciphertext of the given degree whose parts are zero polynomials at the given level. -/
def exactNewCiphertext (N : Nat) (degree level : Nat) (scale : ℚ) : ckks.Element :=
  { Value := List.replicate (degree + 1) (some (zeroPolyLvl N level)), scale := scale,
    IsNTT := true }

/-- An evaluator over the exact ring, for operands that are already padded: the level of an element
is read on its part 0, new ciphertexts hold zero polynomials, resizing truncates or appends zero
polynomials, dropping levels removes the last rows. Multiplying by a constant reads the levels of
its operand and of its receiver, so that it aborts when one of them has no part 0 (as on the
receiver `new(ckks.Element)`), and writes the exact products into the parts of the receiver up to
the smaller level. -/
def exactEvaluator (N : Nat) (moduli : List Nat) : mkEvaluator where
  ringQ := ring.exactRing N moduli
  Level := rowLevel
  PadCiphers := fun c1 c2 => (c1, c2)
  NewMKCiphertext := fun ids level scale =>
    { Ciphertexts := exactNewCiphertext N ids.length level scale, PeerID := ids }
  NewCiphertext := exactNewCiphertext N
  GetThreeElementsckksWithNil := fun op0 op1 opOut => (op0, op1, opOut)
  MinLevelWithNil := fun el0 el1 elOut =>
    some (([el0, el1, elOut].filterMap (fun el => el.bind rowLevel)).foldl min (moduli.length - 1))
  Resize := fun el degree =>
    { el with
      Value := el.Value.take (degree + 1) ++
        List.replicate (degree + 1 - el.Value.length)
          (some (zeroPolyLvl N ((rowLevel el).getD 0))) }
  DropLevel := fun el levels =>
    { el with Value := el.Value.map (Option.map fun p => p.take (p.length - levels)) }
  MultByConst := fun el c out =>
    match rowLevel el, rowLevel out with
    | some l0, some lOut =>
      if (List.range out.Value.length).all fun u =>
          (el.Value.getD u none).isSome && (out.Value.getD u none).isSome then
        some { out with
          Value := (List.range out.Value.length).map fun u =>
            some (ring.exactLvl N moduli (fun q x _ => (x * (c % q)) % q) (min l0 lOut)
              ((el.Value.getD u none).getD []) ((el.Value.getD u none).getD [])
              ((out.Value.getD u none).getD []))
          scale := el.scale }
      else none
    | _, _ => none
  ringP := ring.exactRing N [13]
  Relinearization := fun _ _ value _ => value
  Beta := 1
  GaloisElementForColumnRotationBy := fun n => (5 ^ n.toNat) % (2 * N)
  ringQPN := N
  PermuteNTTIndex := fun _ n => List.range n
  PermuteNTTWithIndexLvl := fun level p _ out => (ring.exactRing N moduli).CopyLvl level p out
  NewDecomposedPoly := fun r beta => { Poly := List.replicate beta r.NewPoly }
  GInverse := fun p _ => ({ Poly := [p] }, { Poly := [[List.replicate N 0]] })
  ModDownSplitNTTPQ := fun level pQ _ out => (ring.exactRing N moduli).CopyLvl level pQ out

/-- A two-part operand at level 0 (one modulus row) whose participant part is absent. -/
def sampleA : MKCiphertext :=
  { Ciphertexts := { Value := [some [[3, 4]], none], scale := 2, IsNTT := true }, PeerID := [2] }

/-- A two-part operand at level 0 (one modulus row) with both parts present. -/
def sampleB : MKCiphertext :=
  { Ciphertexts := { Value := [some [[5, 6]], some [[1, 2]]], scale := 3, IsNTT := true },
    PeerID := [2] }

/-- The operand `sampleB` flagged as being in the coefficient domain. -/
def sampleCoeffDomain : MKCiphertext :=
  { sampleB with Ciphertexts := { sampleB.Ciphertexts with IsNTT := false } }

/-- A Galois key for participant `id` with one digit, whose polynomials have one row modulo Q
followed by one row modulo P (an evaluator with a single modulus of Q). -/
def sampleGalKey (id : Nat) : mkrlwe.MKEvalGalKey :=
  { PeerID := id, Key := ({ Poly := [[[1, 2], [3, 4]]] }, { Poly := [[[5, 6], [7, 8]]] }) }

/-- A plaintext at level 0 and scale 2. -/
def samplePlaintext : ckks.Element :=
  { Value := [some [[1, 1]]], scale := 2, IsNTT := true }

/-- A plaintext at level 0 and scale 4. -/
def samplePlaintextScale4 : ckks.Element :=
  { Value := [some [[1, 1]]], scale := 4, IsNTT := true }

/-- A Galois key for participant `id` with one digit, whose polynomials have two rows modulo Q
followed by one row modulo P (an evaluator with two moduli of Q); the rows modulo 7 hold `[1, 2]`
and `[5, 6]` in Montgomery form (`2^64 mod 7 = 2`). -/
def sampleGalKeyTwoModuli (id : Nat) : mkrlwe.MKEvalGalKey :=
  { PeerID := id
    Key := ({ Poly := [[[2, 4], [3, 4], [5, 6]]] }, { Poly := [[[3, 5], [7, 8], [9, 10]]] }) }

/-- The evaluator `exactEvaluator` over the ring with the Montgomery radix `2^64`. -/
def montgomeryEvaluator (N : Nat) (moduli : List Nat) : mkEvaluator :=
  { exactEvaluator N moduli with ringQ := ring.montgomeryRing N moduli }

/-- A two-part operand at level 0 and scale 2 with both parts present. -/
def sampleE : MKCiphertext :=
  { Ciphertexts := { Value := [some [[5, 6]], some [[1, 2]]], scale := 2, IsNTT := true },
    PeerID := [2] }

/-- An evaluation key without key material, for participant `id`. -/
def sampleEvalKey (id : Nat) : mkrlwe.MKEvaluationKey :=
  { PeerID := id, Key := [] }

/-- A public key without key material, for participant `id`. -/
def samplePubKey (id : Nat) : mkrlwe.MKPublicKey :=
  { PeerID := id, Key := [] }

/-- A four-part operand at level 0 whose parts 1 and 3 are absent. -/
def sampleC : MKCiphertext :=
  { Ciphertexts := { Value := [some [[3, 4]], none, some [[1, 1]], none], scale := 2,
                     IsNTT := true },
    PeerID := [2, 5, 9] }

/-- A four-part operand at level 0 whose parts 2 and 3 are absent. -/
def sampleD : MKCiphertext :=
  { Ciphertexts := { Value := [some [[5, 6]], some [[1, 2]], none, none], scale := 2,
                     IsNTT := true },
    PeerID := [2, 5, 9] }

end mkckks

namespace rlwe

/-- The ways in which the embedded gadget product aborts. -/
inductive Panic where
  /-- Integer division by zero (`reduce % QiOverF` with a zero margin). -/
  | divideByZero
  /-- A slice is indexed outside its bounds. -/
  | indexOutOfRange
  /-- A shift by a negative count. -/
  | negativeShift
  deriving DecidableEq, Repr

/-- A `ringqp.Poly`: a polynomial in the extended basis, its part modulo Q and its part modulo P. -/
structure PolyQP where
  Q : ring.Poly
  P : ring.Poly

/-- A `CiphertextQP`: the two polynomials `Value[0]` and `Value[1]` and the domain flag. -/
structure CiphertextQP where
  Value : PolyQP × PolyQP
  IsNTT : Bool

/-- A `GadgetCiphertext`: the table `Value[decompRNS][decompPw2]` and its level bounds (the results
of `LevelQ()` and `LevelP()`). -/
structure GadgetCiphertext where
  Value : List (List CiphertextQP)
  LevelQ : Int
  LevelP : Int

/-- The capability of a `ring.Ring` (package `ring`, version 4, whose code is not among the
sources) taken at a level: its active moduli and the operations used by the gadget product. An
operation takes the old value of its receiver as last argument and returns the new one. -/
structure Ring where
  N : Nat
  Modulus : List Nat
  /-- `NTT(p1, p2)`. -/
  NTT : ring.Poly → ring.Poly → ring.Poly
  /-- `InvNTT(p1, p2)`. -/
  InvNTT : ring.Poly → ring.Poly → ring.Poly
  /-- `Reduce(p1, p2)`. -/
  Reduce : ring.Poly → ring.Poly → ring.Poly
  /-- `InvNTTLazy(p1, p2)`. -/
  InvNTTLazy : ring.Poly → ring.Poly → ring.Poly
  /-- `NTTSingleLazy(Tables[u], p1, p2)`, on the vectors of one row. -/
  NTTSingleLazy : Nat → List Nat → List Nat → List Nat
  /-- `ring.MulCoeffsMontgomeryConstantVec(p1, p2, p3, Tables[u].Modulus, Tables[u].MRedParams)`. -/
  MulCoeffsMontgomeryConstantVec : Nat → List Nat → List Nat → List Nat → List Nat
  /-- `ring.MulCoeffsMontgomeryConstantAndAddNoModVec(p1, p2, p3, Tables[u].Modulus,
  Tables[u].MRedParams)`. -/
  MulCoeffsMontgomeryConstantAndAddNoModVec : Nat → List Nat → List Nat → List Nat → List Nat

/-- The `u`-th active modulus. -/
def Ring.modulus (r : Ring) (u : Nat) : Nat :=
  r.Modulus.getD u 1

/-- The capability of a `ringqp.Ring` taken at a pair of levels. -/
structure RingQP where
  RingQ : Ring
  RingP : Ring
  /-- The test `ringP != nil`: there is a ring of the moduli of P at this level. -/
  hasRingP : Bool
  /-- `MulCoeffsMontgomeryConstant(p1, p2, p3)`. -/
  MulCoeffsMontgomeryConstant : PolyQP → PolyQP → PolyQP → PolyQP
  /-- `MulCoeffsMontgomeryConstantAndAddNoMod(p1, p2, p3)`. -/
  MulCoeffsMontgomeryConstantAndAddNoMod : PolyQP → PolyQP → PolyQP → PolyQP

/-- The accessors of `rlwe.Parameters` used by the gadget product. -/
structure Parameters where
  /-- `RingQP().AtLevel(levelQ, levelP)`. -/
  RingQPAtLevel : Int → Int → RingQP
  /-- `DecompRNS(levelQ, levelP)`. -/
  DecompRNS : Int → Int → Int
  /-- `QiOverflowMargin(levelQ)`. -/
  QiOverflowMargin : Int → Int
  /-- `PiOverflowMargin(levelP)`. -/
  PiOverflowMargin : Int → Int
  /-- `DecompPw2(levelQ, levelP)`. -/
  DecompPw2 : Int → Int → Int
  /-- The field `pow2Base`. -/
  pow2Base : Int
  /-- `RingQ().AtLevel(levelQ)`. -/
  RingQAtLevel : Int → Ring
  /-- `RingP().AtLevel(levelP)`. -/
  RingPAtLevel : Int → Ring

/-- The evaluator: its parameters, the buffers `BuffQP[0]`, `BuffQP[1].P`, `BuffQP[2].P`,
`BuffInvNTT` and `BuffBitDecomp`, the method
`DecomposeSingleNTT(levelQ, levelP, nbPi, decompRNS, c2NTT, c2InvNTT, c2QiQ, c2QiP)` and the two
mod-down methods of its `BasisExtender`, whose code is not among the sources; they return the new
values of their receivers. -/
structure Evaluator where
  params : Parameters
  BuffQP0 : PolyQP
  BuffInvNTT : ring.Poly
  DecomposeSingleNTT : Int → Int → Int → Int → ring.Poly → ring.Poly → ring.Poly → ring.Poly →
    ring.Poly × ring.Poly
  BuffQP1P : ring.Poly
  BuffQP2P : ring.Poly
  BuffBitDecomp : List Nat
  /-- `BasisExtender.ModDownQPtoQNTT(levelQ, levelP, p1Q, p1P, p2Q)`. -/
  ModDownQPtoQNTT : Int → Int → ring.Poly → ring.Poly → ring.Poly → ring.Poly
  /-- `BasisExtender.ModDownQPtoQ(levelQ, levelP, p1Q, p1P, p2Q)`. -/
  ModDownQPtoQ : Int → Int → ring.Poly → ring.Poly → ring.Poly → ring.Poly

/-- The cell `el[i][j]` of the gadget table. -/
def GadgetCiphertext.cell? (g : GadgetCiphertext) (i j : Nat) : Option CiphertextQP :=
  (g.Value.getD i [])[j]?

/-- The polynomials `cxNTT` and `cxInvNTT` at the start of `GadgetProductNoModDown`. -/
def GadgetProductNoModDown.inputs (eval : Evaluator) (ringQ : Ring) (isNTT : Bool)
    (cx : ring.Poly) : ring.Poly × ring.Poly :=
  if isNTT then (cx, ringQ.InvNTT cx eval.BuffInvNTT)
  else (ringQ.NTT cx eval.BuffInvNTT, cx)

/-- The buffer `c2QP` after the call of `DecomposeSingleNTT` of iteration `i`. -/
def GadgetProductNoModDown.decompose (eval : Evaluator) (levelQ levelP : Int)
    (cxNTT cxInvNTT : ring.Poly) (i : Nat) (c2QP : PolyQP) : PolyQP :=
  let r := eval.DecomposeSingleNTT levelQ levelP (levelP + 1) i cxNTT cxInvNTT c2QP.Q c2QP.P
  { Q := r.1, P := r.2 }

/-- The `i`-th digit produced by `DecomposeSingleNTT`: the pair of polynomials that the call
`DecomposeSingleNTT(levelQ, levelP, levelP+1, i, cxNTT, cxInvNTT, c2Q, c2P)` leaves in its two
receivers, which hold the digit `i-1` before the call (the buffer `BuffQP[0]` before the call of
the digit 0). -/
def GadgetProductNoModDown.digit (eval : Evaluator) (levelQ levelP : Int)
    (cxNTT cxInvNTT : ring.Poly) : Nat → PolyQP
  | 0 =>
    { Q := (eval.DecomposeSingleNTT levelQ levelP (levelP + 1) ((0 : Nat) : Int) cxNTT cxInvNTT
        eval.BuffQP0.Q eval.BuffQP0.P).1
      P := (eval.DecomposeSingleNTT levelQ levelP (levelP + 1) ((0 : Nat) : Int) cxNTT cxInvNTT
        eval.BuffQP0.Q eval.BuffQP0.P).2 }
  | i + 1 =>
    { Q := (eval.DecomposeSingleNTT levelQ levelP (levelP + 1) ((i + 1 : Nat) : Int) cxNTT
        cxInvNTT (GadgetProductNoModDown.digit eval levelQ levelP cxNTT cxInvNTT i).Q
        (GadgetProductNoModDown.digit eval levelQ levelP cxNTT cxInvNTT i).P).1
      P := (eval.DecomposeSingleNTT levelQ levelP (levelP + 1) ((i + 1 : Nat) : Int) cxNTT
        cxInvNTT (GadgetProductNoModDown.digit eval levelQ levelP cxNTT cxInvNTT i).Q
        (GadgetProductNoModDown.digit eval levelQ levelP cxNTT cxInvNTT i).P).2 }

/-- The multiply-accumulate statement of iteration `i`. -/
def GadgetProductNoModDown.accumulate (ringQP : RingQP) (i : Nat) (cell : CiphertextQP)
    (c2QP : PolyQP) (ct : CiphertextQP) : CiphertextQP :=
  if i = 0 then
    { ct with Value := (ringQP.MulCoeffsMontgomeryConstant cell.Value.1 c2QP ct.Value.1,
                        ringQP.MulCoeffsMontgomeryConstant cell.Value.2 c2QP ct.Value.2) }
  else
    { ct with Value := (ringQP.MulCoeffsMontgomeryConstantAndAddNoMod cell.Value.1 c2QP ct.Value.1,
                        ringQP.MulCoeffsMontgomeryConstantAndAddNoMod cell.Value.2 c2QP
                          ct.Value.2) }

/-- The two calls `ringQ.Reduce(ct.Value[b].Q, ct.Value[b].Q)`. -/
def GadgetProductNoModDown.reduceQ (ringQP : RingQP) (ct : CiphertextQP) : CiphertextQP :=
  { ct with Value := ({ ct.Value.1 with Q := ringQP.RingQ.Reduce ct.Value.1.Q ct.Value.1.Q },
                      { ct.Value.2 with Q := ringQP.RingQ.Reduce ct.Value.2.Q ct.Value.2.Q }) }

/-- The two calls `ringP.Reduce(ct.Value[b].P, ct.Value[b].P)`. -/
def GadgetProductNoModDown.reduceP (ringQP : RingQP) (ct : CiphertextQP) : CiphertextQP :=
  { ct with Value := ({ ct.Value.1 with P := ringQP.RingP.Reduce ct.Value.1.P ct.Value.1.P },
                      { ct.Value.2 with P := ringQP.RingP.Reduce ct.Value.2.P ct.Value.2.P }) }

/-- A statement `if reduce%OverF == OverF-1 { ... }` of the loop, `red` being its body. -/
def GadgetProductNoModDown.periodic (OverF : Int) (reduce : Nat) (red : CiphertextQP → CiphertextQP)
    (ct : CiphertextQP) : Except Panic CiphertextQP :=
  if OverF = 0 then throw Panic.divideByZero
  else if (reduce : Int) % OverF = OverF - 1 then pure (red ct) else pure ct

/-- A statement `if reduce%OverF != 0 { ... }` after the loop, `red` being its body. -/
def GadgetProductNoModDown.last (OverF : Int) (reduce : Nat) (red : CiphertextQP → CiphertextQP)
    (ct : CiphertextQP) : Except Panic CiphertextQP :=
  if OverF = 0 then throw Panic.divideByZero
  else if (reduce : Int) % OverF ≠ 0 then pure (red ct) else pure ct

/-- The loop `for i := 0; i < decompRNS; i++`, with `n` iterations left; `reduce` is the counter
of the source, `c2QP` and `ct` are the buffer and the accumulators. It returns the final counter
and accumulators. -/
def GadgetProductNoModDown.loop (eval : Evaluator) (ringQP : RingQP) (levelQ levelP : Int)
    (cxNTT cxInvNTT : ring.Poly) (gadgetCt : GadgetCiphertext) (QiOverF PiOverF : Int) :
    Nat → Nat → Nat → PolyQP → CiphertextQP → Except Panic (Nat × CiphertextQP)
  | 0, _, reduce, _, ct => pure (reduce, ct)
  | n + 1, i, reduce, c2QP, ct =>
    let c2QP := GadgetProductNoModDown.decompose eval levelQ levelP cxNTT cxInvNTT i c2QP
    match gadgetCt.cell? i 0 with
    | none => throw Panic.indexOutOfRange
    | some cell =>
      let ct := GadgetProductNoModDown.accumulate ringQP i cell c2QP ct
      GadgetProductNoModDown.periodic QiOverF reduce (GadgetProductNoModDown.reduceQ ringQP) ct
        >>= fun ct =>
      GadgetProductNoModDown.periodic PiOverF reduce (GadgetProductNoModDown.reduceP ringQP) ct
        >>= fun ct =>
      GadgetProductNoModDown.loop eval ringQP levelQ levelP cxNTT cxInvNTT gadgetCt QiOverF PiOverF
        n (i + 1) (reduce + 1) c2QP ct

/-- `GadgetProductNoModDown` applies the gadget product to `cx`; the result is the final value of
the accumulators `ct`. -/
def GadgetProductNoModDown (eval : Evaluator) (levelQ : Int) (cx : ring.Poly)
    (gadgetCt : GadgetCiphertext) (ct : CiphertextQP) : Except Panic CiphertextQP :=
  let levelP := gadgetCt.LevelP
  let ringQP := eval.params.RingQPAtLevel levelQ levelP
  let cxs := GadgetProductNoModDown.inputs eval ringQP.RingQ ct.IsNTT cx
  let decompRNS := eval.params.DecompRNS levelQ levelP
  let QiOverF := eval.params.QiOverflowMargin levelQ / 2
  let PiOverF := eval.params.PiOverflowMargin levelP / 2
  GadgetProductNoModDown.loop eval ringQP levelQ levelP cxs.1 cxs.2 gadgetCt QiOverF PiOverF
    decompRNS.toNat 0 0 eval.BuffQP0 ct >>= fun r =>
  GadgetProductNoModDown.last QiOverF r.1 (GadgetProductNoModDown.reduceQ ringQP) r.2
    >>= fun ct =>
  GadgetProductNoModDown.last PiOverF r.1 (GadgetProductNoModDown.reduceP ringQP) ct

/-- Modelled from the spec: `ring.MaskVec(p1, p2, w, mask)`, whose code is not among the sources,
stores in `p2` the window `(c >> w) & mask` of every coefficient `c` of `p1`; the result is the new
value of `p2`, a vector of the length of `p1`. -/
def MaskVec (p1 : List Nat) (w : Nat) (mask : Nat) : List Nat :=
  p1.map fun c => (c >>> w) &&& mask

/-- The mask of `GadgetProductSinglePAndBitDecompNoModDown`: `uint64((1 << pw2) - 1)`, replaced by
`0xFFFFFFFFFFFFFFFF` when it is zero. -/
def GadgetProductSinglePAndBitDecompNoModDown.mask (pw2 : Nat) : Nat :=
  let mask := ((1 <<< pw2) % 2 ^ 64 + (2 ^ 64 - 1)) % 2 ^ 64
  if mask = 0 then 2 ^ 64 - 1 else mask

/-- The variables that the loops of `GadgetProductSinglePAndBitDecompNoModDown` update: the
counter `reduce`, the buffer `cwNTT` and the accumulators `ct`. -/
structure GadgetProductSinglePAndBitDecompNoModDown.State where
  reduce : Nat
  cwNTT : List Nat
  ct : CiphertextQP

/-- A loop `for u := 0; u < level+1; u++` over the rows of one ring, with `n` iterations left:
the window `cw` is transformed with the table of row `u` and multiplied into row `u` of the two
accumulators `ct0`, `ct1` (overwriting them when `first`, adding without reduction otherwise);
`cell` holds the polynomials of `el[i][j].Value[0]` and `el[i][j].Value[1]` in this ring. -/
def GadgetProductSinglePAndBitDecompNoModDown.rows (r : Ring) (first : Bool) (cw : List Nat)
    (cell : Option (ring.Poly × ring.Poly)) :
    Nat → Nat → List Nat → ring.Poly → ring.Poly →
    Except Panic (List Nat × ring.Poly × ring.Poly)
  | 0, _, cwNTT, ct0, ct1 => pure (cwNTT, ct0, ct1)
  | n + 1, u, cwNTT, ct0, ct1 =>
    if u < r.Modulus.length then
      let cwNTT := r.NTTSingleLazy u cw cwNTT
      let op := if first then r.MulCoeffsMontgomeryConstantVec u
        else r.MulCoeffsMontgomeryConstantAndAddNoModVec u
      match cell with
      | none => throw Panic.indexOutOfRange
      | some (el0, el1) =>
        match el0[u]?, ct0[u]?, el1[u]?, ct1[u]? with
        | some a0, some c0, some a1, some c1 =>
          GadgetProductSinglePAndBitDecompNoModDown.rows r first cw cell n (u + 1) cwNTT
            (ct0.set u (op a0 cwNTT c0)) (ct1.set u (op a1 cwNTT c1))
        | _, _, _, _ => throw Panic.indexOutOfRange
    else throw Panic.indexOutOfRange

/-- Body of the loop `for j := 0; j < decompPw2; j++`, for the digit `i` and the window `j`. -/
def GadgetProductSinglePAndBitDecompNoModDown.body (ringQP : RingQP) (levelQ levelP : Int)
    (cxInvNTT : ring.Poly) (gadgetCt : GadgetCiphertext) (QiOverF PiOverF : Int)
    (pw2 mask : Nat) (i j : Nat) (st : GadgetProductSinglePAndBitDecompNoModDown.State) :
    Except Panic GadgetProductSinglePAndBitDecompNoModDown.State :=
  match cxInvNTT[i]? with
  | none => throw Panic.indexOutOfRange
  | some row =>
    let cw := MaskVec row (j * pw2) mask
    let first := decide (i = 0 ∧ j = 0)
    let cell := gadgetCt.cell? i j
    GadgetProductSinglePAndBitDecompNoModDown.rows ringQP.RingQ first cw
      (cell.map fun c => (c.Value.1.Q, c.Value.2.Q)) (levelQ + 1).toNat 0 st.cwNTT
      st.ct.Value.1.Q st.ct.Value.2.Q >>= fun rq =>
    (if ringQP.hasRingP then
      GadgetProductSinglePAndBitDecompNoModDown.rows ringQP.RingP first cw
        (cell.map fun c => (c.Value.1.P, c.Value.2.P)) (levelP + 1).toNat 0 rq.1
        st.ct.Value.1.P st.ct.Value.2.P
    else pure (rq.1, st.ct.Value.1.P, st.ct.Value.2.P)) >>= fun rp =>
    let ct : CiphertextQP :=
      { st.ct with Value := ({ Q := rq.2.1, P := rp.2.1 }, { Q := rq.2.2, P := rp.2.2 }) }
    GadgetProductNoModDown.periodic QiOverF st.reduce (GadgetProductNoModDown.reduceQ ringQP) ct
      >>= fun ct =>
    GadgetProductNoModDown.periodic PiOverF st.reduce (GadgetProductNoModDown.reduceP ringQP) ct
      >>= fun ct =>
    pure { reduce := st.reduce + 1, cwNTT := rp.1, ct := ct }

/-- The loop `for j := 0; j < decompPw2; j++` for the digit `i`, with `n` iterations left. -/
def GadgetProductSinglePAndBitDecompNoModDown.inner (ringQP : RingQP) (levelQ levelP : Int)
    (cxInvNTT : ring.Poly) (gadgetCt : GadgetCiphertext) (QiOverF PiOverF : Int)
    (pw2 mask : Nat) (i : Nat) :
    Nat → Nat → GadgetProductSinglePAndBitDecompNoModDown.State →
    Except Panic GadgetProductSinglePAndBitDecompNoModDown.State
  | 0, _, st => pure st
  | n + 1, j, st =>
    GadgetProductSinglePAndBitDecompNoModDown.body ringQP levelQ levelP cxInvNTT gadgetCt QiOverF
      PiOverF pw2 mask i j st >>= fun st =>
    GadgetProductSinglePAndBitDecompNoModDown.inner ringQP levelQ levelP cxInvNTT gadgetCt QiOverF
      PiOverF pw2 mask i n (j + 1) st

/-- The loop `for i := 0; i < decompRNS; i++`, with `n` iterations left. -/
def GadgetProductSinglePAndBitDecompNoModDown.outer (ringQP : RingQP) (levelQ levelP : Int)
    (cxInvNTT : ring.Poly) (gadgetCt : GadgetCiphertext) (QiOverF PiOverF : Int)
    (pw2 mask : Nat) (decompPw2 : Nat) :
    Nat → Nat → GadgetProductSinglePAndBitDecompNoModDown.State →
    Except Panic GadgetProductSinglePAndBitDecompNoModDown.State
  | 0, _, st => pure st
  | n + 1, i, st =>
    GadgetProductSinglePAndBitDecompNoModDown.inner ringQP levelQ levelP cxInvNTT gadgetCt QiOverF
      PiOverF pw2 mask i decompPw2 0 st >>= fun st =>
    GadgetProductSinglePAndBitDecompNoModDown.outer ringQP levelQ levelP cxInvNTT gadgetCt QiOverF
      PiOverF pw2 mask decompPw2 n (i + 1) st

/-- `GadgetProductSinglePAndBitDecompNoModDown` applies the key-switch to `cx` with the windows
of `pow2Base` bits of each digit; the result is the final value of the accumulators `ct`. -/
def GadgetProductSinglePAndBitDecompNoModDown (eval : Evaluator) (levelQ : Int) (cx : ring.Poly)
    (gadgetCt : GadgetCiphertext) (ct : CiphertextQP) : Except Panic CiphertextQP :=
  let levelP := gadgetCt.LevelP
  let ringQP := eval.params.RingQPAtLevel levelQ levelP
  let cxInvNTT := if ct.IsNTT then ringQP.RingQ.InvNTT cx eval.BuffInvNTT else cx
  let decompRNS := eval.params.DecompRNS levelQ levelP
  let decompPw2 := eval.params.DecompPw2 levelQ levelP
  let pw2 := eval.params.pow2Base
  if pw2 < 0 then throw Panic.negativeShift
  else
    let mask := GadgetProductSinglePAndBitDecompNoModDown.mask pw2.toNat
    match eval.BuffQP0.Q[0]? with
    | none => throw Panic.indexOutOfRange
    | some _ =>
      let QiOverF := eval.params.QiOverflowMargin levelQ / 2
      let PiOverF := eval.params.PiOverflowMargin levelP / 2
      GadgetProductSinglePAndBitDecompNoModDown.outer ringQP levelQ levelP cxInvNTT gadgetCt
        QiOverF PiOverF pw2.toNat mask decompPw2.toNat decompRNS.toNat 0
        { reduce := 0, cwNTT := eval.BuffBitDecomp, ct := ct } >>= fun st =>
      GadgetProductNoModDown.last QiOverF st.reduce (GadgetProductNoModDown.reduceQ ringQP) st.ct
        >>= fun ct =>
      if ringQP.hasRingP then
        GadgetProductNoModDown.last PiOverF st.reduce (GadgetProductNoModDown.reduceP ringQP) ct
      else pure ct

/-- An `rlwe.Ciphertext`: its polynomials and its domain flag. -/
structure Ciphertext where
  Value : List ring.Poly
  IsNTT : Bool

/-- The temporary `ctTmp` of `GadgetProduct`: it shares the polynomials `v0 = ct.Value[0]` and
`v1 = ct.Value[1]` with `ct` and takes its parts modulo P in the buffers of the evaluator. -/
def GadgetProduct.ctTmp (eval : Evaluator) (ct : Ciphertext) (v0 v1 : ring.Poly) : CiphertextQP :=
  { Value := ({ Q := v0, P := eval.BuffQP1P }, { Q := v1, P := eval.BuffQP2P }),
    IsNTT := ct.IsNTT }

/-- The accumulation that `GadgetProduct` runs on `ctTmp`. -/
def GadgetProduct.accumulation (eval : Evaluator) (levelQ levelP : Int) (cx : ring.Poly)
    (gadgetCt : GadgetCiphertext) (ctTmp : CiphertextQP) : Except Panic CiphertextQP :=
  if levelP > 0 then GadgetProductNoModDown eval levelQ cx gadgetCt ctTmp
  else GadgetProductSinglePAndBitDecompNoModDown eval levelQ cx gadgetCt ctTmp

/-- The end of `GadgetProduct` (the statement `if ct.IsNTT && levelP != -1 ... else if !ct.IsNTT`):
`acc` holds the accumulators left in `ctTmp`, whose parts modulo Q are the polynomials of `ct`; the
result is the pair of the new values of `ct.Value[0]` and `ct.Value[1]`. -/
def GadgetProduct.finish (eval : Evaluator) (levelQ levelP : Int) (isNTT : Bool)
    (acc : CiphertextQP) : ring.Poly × ring.Poly :=
  if isNTT && decide (levelP ≠ -1) then
    (eval.ModDownQPtoQNTT levelQ levelP acc.Value.1.Q acc.Value.1.P acc.Value.1.Q,
      eval.ModDownQPtoQNTT levelQ levelP acc.Value.2.Q acc.Value.2.P acc.Value.2.Q)
  else if !isNTT then
    let ringQ := eval.params.RingQAtLevel levelQ
    if levelP ≠ -1 then
      let q0 := ringQ.InvNTTLazy acc.Value.1.Q acc.Value.1.Q
      let q1 := ringQ.InvNTTLazy acc.Value.2.Q acc.Value.2.Q
      let ringP := eval.params.RingPAtLevel levelP
      let p0 := ringP.InvNTTLazy acc.Value.1.P acc.Value.1.P
      let p1 := ringP.InvNTTLazy acc.Value.2.P acc.Value.2.P
      (eval.ModDownQPtoQ levelQ levelP q0 p0 q0, eval.ModDownQPtoQ levelQ levelP q1 p1 q1)
    else
      (ringQ.InvNTT acc.Value.1.Q acc.Value.1.Q, ringQ.InvNTT acc.Value.2.Q acc.Value.2.Q)
  else (acc.Value.1.Q, acc.Value.2.Q)

/-- `GadgetProduct` evaluates poly x gadget -> RLWE; the result is the state of `ct` after the
call. -/
def GadgetProduct (eval : Evaluator) (levelQ : Int) (cx : ring.Poly)
    (gadgetCt : GadgetCiphertext) (ct : Ciphertext) : Except Panic Ciphertext :=
  let levelQ := min levelQ gadgetCt.LevelQ
  let levelP := gadgetCt.LevelP
  match ct.Value[0]?, ct.Value[1]? with
  | some v0, some v1 =>
    GadgetProduct.accumulation eval levelQ levelP cx gadgetCt (GadgetProduct.ctTmp eval ct v0 v1)
      >>= fun acc =>
    let res := GadgetProduct.finish eval levelQ levelP ct.IsNTT acc
    pure { ct with Value := (ct.Value.set 0 res.1).set 1 res.2 }
  | _, _ => throw Panic.indexOutOfRange

/-- The part modulo P (`isP = true`) or modulo Q of a polynomial of the extended basis. -/
def PolyQP.part (x : PolyQP) (isP : Bool) : ring.Poly :=
  match isP with
  | true => x.P
  | false => x.Q

/-- The ring of the moduli of P (`isP = true`) or of Q. -/
def RingQP.ring (r : RingQP) (isP : Bool) : Ring :=
  match isP with
  | true => r.RingP
  | false => r.RingQ

/-- The polynomial `Value[1]` (`b = true`) or `Value[0]` of a ciphertext. -/
def CiphertextQP.value (ct : CiphertextQP) (b : Bool) : PolyQP :=
  match b with
  | true => ct.Value.2
  | false => ct.Value.1

/-- Montgomery multiplication, lazy accumulation and `Reduce` as exact ring operations modulo each
active modulus: coefficient by coefficient, the product is congruent to the product, the
accumulation to the receiver plus the product, and the reduction to its argument. -/
structure RingQP.Exact (r : RingQP) : Prop where
  mul : ∀ (a b out : PolyQP) (isP : Bool) (u k : Nat), u < (r.ring isP).Modulus.length →
    k < (r.ring isP).N →
    ((r.MulCoeffsMontgomeryConstant a b out).part isP).coeff u k ≡
      (a.part isP).coeff u k * (b.part isP).coeff u k [MOD (r.ring isP).modulus u]
  mulAdd : ∀ (a b out : PolyQP) (isP : Bool) (u k : Nat), u < (r.ring isP).Modulus.length →
    k < (r.ring isP).N →
    ((r.MulCoeffsMontgomeryConstantAndAddNoMod a b out).part isP).coeff u k ≡
      (out.part isP).coeff u k + (a.part isP).coeff u k * (b.part isP).coeff u k
        [MOD (r.ring isP).modulus u]
  reduce : ∀ (p out : ring.Poly) (isP : Bool) (u k : Nat), u < (r.ring isP).Modulus.length →
    k < (r.ring isP).N →
    ((r.ring isP).Reduce p out).coeff u k ≡ p.coeff u k [MOD (r.ring isP).modulus u]

/-- The sum over the digits `i < n` of `gadget[i][0].Value[b] * d_i`, at coefficient `k` of row
`u` of the part modulo Q or P. An absent cell counts as zero. -/
def GadgetProductNoModDown.dot (eval : Evaluator) (levelQ levelP : Int)
    (cxNTT cxInvNTT : ring.Poly) (gadgetCt : GadgetCiphertext) (n : Nat) (b isP : Bool)
    (u k : Nat) : Nat :=
  ((List.range n).map fun i =>
    match gadgetCt.cell? i 0 with
    | some cell =>
      ((cell.value b).part isP).coeff u k *
        ((GadgetProductNoModDown.digit eval levelQ levelP cxNTT cxInvNTT i).part isP).coeff u k
    | none => 0).sum

/-- Every coefficient of both accumulators of `ct` is congruent to `S`, modulo every active
modulus of Q and of P. -/
def GadgetProductNoModDown.Congruent (r : RingQP) (ct : CiphertextQP)
    (S : Bool → Bool → Nat → Nat → Nat) : Prop :=
  ∀ (b isP : Bool) (u k : Nat), u < (r.ring isP).Modulus.length → k < (r.ring isP).N →
    ((ct.value b).part isP).coeff u k ≡ S b isP u k [MOD (r.ring isP).modulus u]

/-- The buffer `c2QP` at the start of iteration `i`. -/
def GadgetProductNoModDown.bufferAt (eval : Evaluator) (levelQ levelP : Int)
    (cxNTT cxInvNTT : ring.Poly) (i : Nat) : PolyQP :=
  match i with
  | 0 => eval.BuffQP0
  | j + 1 => GadgetProductNoModDown.digit eval levelQ levelP cxNTT cxInvNTT j

/-- A ring over the given moduli with exact coefficient-wise operations; the transforms are the
identity. -/
def exactRing (N : Nat) (moduli : List Nat) : Ring where
  N := N
  Modulus := moduli
  NTT := fun p _ => p
  InvNTT := fun p _ => p
  Reduce := fun p out => ring.exactLvl N moduli (fun q a _ => a % q) (moduli.length - 1) p p out
  InvNTTLazy := fun p _ => p
  NTTSingleLazy := fun _ p _ => p
  MulCoeffsMontgomeryConstantVec := fun u p1 p2 _ =>
    (List.range N).map fun k => (p1.getD k 0 * p2.getD k 0) % moduli.getD u 1
  MulCoeffsMontgomeryConstantAndAddNoModVec := fun u p1 p2 p3 =>
    (List.range N).map fun k => p3.getD k 0 + (p1.getD k 0 * p2.getD k 0) % moduli.getD u 1

/-- The extended ring over the moduli of Q and of P, with exact operations. -/
def exactRingQP (N : Nat) (moduliQ moduliP : List Nat) : RingQP where
  RingQ := exactRing N moduliQ
  RingP := exactRing N moduliP
  hasRingP := !moduliP.isEmpty
  MulCoeffsMontgomeryConstant := fun a b out =>
    { Q := ring.exactLvl N moduliQ (fun q x y => (x * y) % q) (moduliQ.length - 1) a.Q b.Q out.Q,
      P := ring.exactLvl N moduliP (fun q x y => (x * y) % q) (moduliP.length - 1) a.P b.P out.P }
  MulCoeffsMontgomeryConstantAndAddNoMod := fun a b out =>
    { Q := (List.range moduliQ.length).map fun u => (List.range N).map fun k =>
        out.Q.coeff u k + (a.Q.coeff u k * b.Q.coeff u k) % moduliQ.getD u 1,
      P := (List.range moduliP.length).map fun u => (List.range N).map fun k =>
        out.P.coeff u k + (a.P.coeff u k * b.P.coeff u k) % moduliP.getD u 1 }

/-- An evaluator over two moduli of Q and two moduli of P whose `i`-th digit is the residue row
`i` of the input, reduced modulo every modulus; two digits, overflow margins 4 and 6. -/
def sampleEvaluator : Evaluator where
  params :=
    { RingQPAtLevel := fun _ _ => exactRingQP 2 [7, 11] [13, 17]
      DecompRNS := fun _ _ => 2
      QiOverflowMargin := fun _ => 4
      PiOverflowMargin := fun _ => 6
      DecompPw2 := fun _ _ => 1
      pow2Base := 0
      RingQAtLevel := fun _ => exactRing 2 [7, 11]
      RingPAtLevel := fun _ => exactRing 2 [13, 17] }
  BuffQP0 := { Q := [[0, 0], [0, 0]], P := [[0, 0], [0, 0]] }
  BuffInvNTT := [[0, 0], [0, 0]]
  DecomposeSingleNTT := fun _ _ _ i _ cxInvNTT _ _ =>
    ([7, 11].map (fun q => (cxInvNTT.getD i.toNat []).map (· % q)),
     [13, 17].map (fun q => (cxInvNTT.getD i.toNat []).map (· % q)))
  BuffQP1P := [[0, 0], [0, 0]]
  BuffQP2P := [[0, 0], [0, 0]]
  BuffBitDecomp := [0, 0]
  ModDownQPtoQNTT := fun _ _ p1Q _ _ => p1Q
  ModDownQPtoQ := fun _ _ p1Q _ _ => p1Q

/-- A gadget ciphertext with two digits and one power-of-two window. -/
def sampleGadget : GadgetCiphertext where
  Value :=
    [[{ Value := ({ Q := [[1, 2], [3, 4]], P := [[5, 6], [7, 8]] },
                  { Q := [[2, 2], [3, 3]], P := [[4, 4], [5, 5]] }), IsNTT := true }],
     [{ Value := ({ Q := [[6, 5], [4, 3]], P := [[2, 1], [9, 8]] },
                  { Q := [[1, 0], [0, 1]], P := [[12, 0], [0, 16]] }), IsNTT := true }]]
  LevelQ := 1
  LevelP := 1

/-- Accumulators holding arbitrary values before the call. -/
def sampleAccumulators : CiphertextQP where
  Value := ({ Q := [[9, 9], [9, 9]], P := [[9, 9], [9, 9]] },
            { Q := [[8, 8], [8, 8]], P := [[8, 8], [8, 8]] })
  IsNTT := true

/-- One coefficient of an accumulator `ct.Value[j].Q` (or `.P`) followed through the loop of
`GadgetProductNoModDown`, as an exact integer: `products` holds the values of the lazy Montgomery
products of the successive digits at this coefficient, `reduce` is what `Reduce` does to a
coefficient and `OverF` is the shifted overflow margin `QiOverF` (resp. `PiOverF`), which the
source divides by. At `i = 0` the product overwrites the accumulator, afterwards it is added
without reduction, and the accumulator is reduced when `reduce%OverF == OverF-1`. The result
lists the value that the accumulator holds after the accumulation of each digit, before its
reduction; `i` is the counter `reduce` and `acc` the current value. -/
def GadgetProductNoModDown.coefficients (OverF : Nat) (reduce : Nat → Nat) :
    List Nat → Nat → Nat → List Nat
  | [], _, _ => []
  | p :: rest, i, acc =>
    let acc := if i = 0 then p else acc + p
    acc :: GadgetProductNoModDown.coefficients OverF reduce rest (i + 1)
      (if i % OverF = OverF - 1 then reduce acc else acc)

/-- The gadget ciphertext `sampleGadget` without auxiliary modulus chain. -/
def sampleGadgetNoP : GadgetCiphertext :=
  { sampleGadget with LevelP := -1 }

/-- A ciphertext of two polynomials in the transform domain. -/
def sampleCiphertext : Ciphertext where
  Value := [[[9, 9], [9, 9]], [[8, 8], [8, 8]]]
  IsNTT := true

/-- The accumulators that the gadget product of `[[3, 5], [4, 6]]` by `sampleGadget` leaves in
the temporary of `sampleCiphertext`. -/
def sampleAccumulated : CiphertextQP where
  Value := ({ Q := [[6, 5], [3, 5]], P := [[10, 10], [6, 3]] },
            { Q := [[3, 3], [9, 10]], P := [[8, 7], [15, 2]] })
  IsNTT := true

/-- A 61-bit prime of the default modulus chains, `0x1fffffffffe00001`. -/
def sampleModulus : Nat := 2305843009211596801

/-- Eight lazy products of the largest value `2q-1` allowed modulo `sampleModulus`. -/
def sampleProducts : List Nat := List.replicate 8 (2 * sampleModulus - 1)

end rlwe

namespace buffer

/-- The errors that the functions of package `buffer` return. -/
inductive Error where
  /-- An error returned by a method of the writer. -/
  | writer (code : Nat)
  /-- The error `fmt.Errorf("cannot Write...: available buffer ... is zero even after flush")`. -/
  | noSpace
  deriving DecidableEq, Repr

/-- The ways in which the embedded functions of package `buffer` abort. -/
inductive Panic where
  /-- A slice expression outside the capacity of the slice, or with a negative bound. -/
  | sliceBounds
  deriving DecidableEq, Repr

/-- The interface `Writer` of package `buffer`, whose declaration is not among the sources: a
writer in state `σ` answers `Available()`, hands out the buffer `AvailableBuffer()` (an empty slice,
of which the capacity is kept), and `Flush()` and `Write(p)` move it to a new state. Bytes are
natural numbers below 256. -/
structure Writer (σ : Type) where
  Available : σ → Int
  AvailableBuffer : σ → Nat
  Flush : σ → σ × Option Error
  Write : σ → List Nat → σ × Int × Option Error

/-- The call `binary.LittleEndian.PutUintN(buf, c)` of the Go standard library for a value of
`1 << shift` bytes: the bytes of `c`, the least significant first. -/
def putLittleEndian (shift : Nat) (c : Nat) : List Nat :=
  (List.range (1 <<< shift)).map fun i => (c >>> (8 * i)) % 256

/-- The 8-byte little-endian encoding of a value: its eight digits in base 256, the least
significant first. -/
def littleEndian64 (x : Nat) : List Nat :=
  [x % 256, x / 2 ^ 8 % 256, x / 2 ^ 16 % 256, x / 2 ^ 24 % 256, x / 2 ^ 32 % 256,
    x / 2 ^ 40 % 256, x / 2 ^ 48 % 256, x / 2 ^ 56 % 256]

/-- What one activation of a function `WriteUintNSlice` does: it returns `n` and `err`, or it
calls itself on the remaining slice `rest` with `n` bytes written so far. -/
inductive Step (σ : Type) where
  | done (s : σ) (n : Int) (err : Option Error)
  | recurse (s : σ) (n : Int) (rest : List Nat)

/-- The start of a function `WriteUintNSlice`, up to `buf := w.AvailableBuffer()`: the number of
values that fit in the available space (`w.Available() >> shift`), after a `Flush` when there is no
room for one; it gives the state of the writer and that number, or what the function returns. -/
def WriteUintSlice.room {σ : Type} (shift : Nat) (w : Writer σ) (s : σ) :
    (σ × Int × Option Error) ⊕ (σ × Int) :=
  let available := w.Available s >>> shift
  if available = 0 then
    let flushed := w.Flush s
    match flushed.2 with
    | some err => Sum.inl (flushed.1, 0, some err)
    | none =>
      let available := w.Available flushed.1 >>> shift
      if available = 0 then Sum.inl (flushed.1, 0, some Error.noSpace)
      else Sum.inr (flushed.1, available)
  else Sum.inr (s, available)

/-- The body of `WriteUint8Slice` (`shift = 0`), `WriteUint16Slice` (`shift = 1`),
`WriteUint32Slice` (`shift = 2`) and `WriteUint64Slice` (`shift = 3`), which differ by the shift
only, up to the recursive call. -/
def WriteUintSlice.step {σ : Type} (shift : Nat) (w : Writer σ) (s : σ) (c : List Nat) :
    Except Panic (Step σ) :=
  if c.length = 0 then pure (Step.done s 0 none)
  else
    match WriteUintSlice.room shift w s with
    | Sum.inl r => pure (Step.done r.1 r.2.1 r.2.2)
    | Sum.inr (s, available) =>
      let cap := w.AvailableBuffer s
      if (c.length : Int) ≤ available then
        if c.length <<< shift ≤ cap then
          let buf := c.flatMap (putLittleEndian shift)
          let written := w.Write s buf
          pure (Step.done written.1 written.2.1 written.2.2)
        else throw Panic.sliceBounds
      else
        if 0 ≤ available ∧ available.toNat <<< shift ≤ cap then
          let buf := (c.take available.toNat).flatMap (putLittleEndian shift)
          let written := w.Write s buf
          match written.2.2 with
          | some err => pure (Step.done written.1 (0 + written.2.1) (some err))
          | none =>
            let n := 0 + written.2.1
            let flushed := w.Flush written.1
            match flushed.2 with
            | some err => pure (Step.done flushed.1 n (some err))
            | none => pure (Step.recurse flushed.1 n (c.drop available.toNat))
        else throw Panic.sliceBounds

/-- A function `WriteUintNSlice` with at most `fuel` nested calls of itself: the state of the
writer and the values `n` and `err` that it returns, `none` when a further call would be needed. -/
def WriteUintSlice.run {σ : Type} (shift : Nat) (w : Writer σ) :
    Nat → σ → List Nat → Except Panic (Option (σ × Int × Option Error))
  | fuel, s, c =>
    WriteUintSlice.step shift w s c >>= fun st =>
    match st with
    | Step.done s n err => pure (some (s, n, err))
    | Step.recurse s n rest =>
      match fuel with
      | 0 => pure none
      | fuel + 1 =>
        WriteUintSlice.run shift w fuel s rest >>= fun r =>
        pure (r.map fun out => (out.1, n + out.2.1, out.2.2))

/-- `WriteUint8Slice` writes a slice of bytes `c` to `w`. -/
def WriteUint8Slice {σ : Type} (w : Writer σ) (s : σ) (c : List Nat) :
    Except Panic (Option (σ × Int × Option Error)) :=
  WriteUintSlice.run 0 w c.length s c

/-- `WriteUint16Slice` writes a slice of `uint16` `c` to `w`. -/
def WriteUint16Slice {σ : Type} (w : Writer σ) (s : σ) (c : List Nat) :
    Except Panic (Option (σ × Int × Option Error)) :=
  WriteUintSlice.run 1 w c.length s c

/-- `WriteUint32Slice` writes a slice of `uint32` `c` into `w`. -/
def WriteUint32Slice {σ : Type} (w : Writer σ) (s : σ) (c : List Nat) :
    Except Panic (Option (σ × Int × Option Error)) :=
  WriteUintSlice.run 2 w c.length s c

/-- `WriteUint64Slice` writes a slice of `uint64` into `w`. -/
def WriteUint64Slice {σ : Type} (w : Writer σ) (s : σ) (c : List Nat) :
    Except Panic (Option (σ × Int × Option Error)) :=
  WriteUintSlice.run 3 w c.length s c

/-- The state of a buffered writer in the manner of `bufio.Writer`: the capacity of its buffer,
the bytes it holds and the bytes already passed on. -/
structure Buffered where
  cap : Nat
  buf : List Nat
  out : List Nat
  deriving DecidableEq, Repr

/-- The output stream of a buffered writer: the bytes passed on, then those still held. -/
def Buffered.stream (s : Buffered) : List Nat :=
  s.out ++ s.buf

/-- A buffered writer that accepts every write (a write that does not fit passes the buffer and
the data on) and whose flush succeeds. -/
def bufferedWriter : Writer Buffered where
  Available := fun s => (s.cap : Int) - s.buf.length
  AvailableBuffer := fun s => s.cap - s.buf.length
  Flush := fun s => ({ s with buf := [], out := s.out ++ s.buf }, none)
  Write := fun s p =>
    if p.length ≤ s.cap - s.buf.length then ({ s with buf := s.buf ++ p }, (p.length : Int), none)
    else ({ s with buf := [], out := s.out ++ s.buf ++ p }, (p.length : Int), none)

/-- A call of a method of the writer that changes its state. -/
inductive Call where
  | flush
  | write (p : List Nat)
  deriving DecidableEq, Repr

/-- What a call of `WriteUint8`, `WriteUint16`, `WriteUint32` or `WriteUint64` leaves: the state
of the writer, the values `n` and `err` that are returned, and the calls of `Flush` and `Write` that
were made, in order. -/
structure Outcome (σ : Type) where
  state : σ
  n : Int
  err : Option Error
  calls : List Call

/-- The end of `WriteUint16` (`shift = 1`), `WriteUint32` (`shift = 2`) and `WriteUint64`
(`shift = 3`): `buf := w.AvailableBuffer()[:1 << shift]`, the value is put in `buf` in little-endian
order and `buf` is written; `calls` are the calls made before. -/
def WriteUint.write {σ : Type} (shift : Nat) (w : Writer σ) (s : σ) (c : Nat)
    (calls : List Call) : Except Panic (Outcome σ) :=
  if 1 <<< shift ≤ w.AvailableBuffer s then
    let buf := putLittleEndian shift c
    let written := w.Write s buf
    pure { state := written.1, n := written.2.1, err := written.2.2,
           calls := calls ++ [Call.write buf] }
  else throw Panic.sliceBounds

/-- The body of `WriteUint16` (`shift = 1`), `WriteUint32` (`shift = 2`) and `WriteUint64`
(`shift = 3`), which differ by the shift and the width only. -/
def WriteUint.body {σ : Type} (shift : Nat) (w : Writer σ) (s : σ) (c : Nat) :
    Except Panic (Outcome σ) :=
  if w.Available s >>> shift = 0 then
    let flushed := w.Flush s
    match flushed.2 with
    | some err => pure { state := flushed.1, n := 0, err := some err, calls := [Call.flush] }
    | none =>
      if w.Available flushed.1 >>> shift = 0 then
        pure { state := flushed.1, n := 0, err := some Error.noSpace, calls := [Call.flush] }
      else WriteUint.write shift w flushed.1 c [Call.flush]
  else WriteUint.write shift w s c []

end buffer

/-! ## Theorems -/

namespace ring

theorem coeff_exactLvl (N : Nat) (moduli : List Nat) (f : Nat → Nat → Nat → Nat) (level : Nat)
    (p1 p2 p3 : Poly) (u k : Nat) (hu : u ≤ level) (hk : k < N) :
    (exactLvl N moduli f level p1 p2 p3).coeff u k =
      f (moduli.getD u 1) (p1.coeff u k) (p2.coeff u k) := by
  have hu2 : u < max p3.length (level + 1) := by
    have := le_max_right p3.length (level + 1)
    omega
  unfold exactLvl
  generalize hg : (fun u => if u ≤ level then
      (List.range N).map fun k => f (moduli.getD u 1) (p1.coeff u k) (p2.coeff u k)
    else p3.getD u []) = g
  have hgu : g u = (List.range N).map fun k => f (moduli.getD u 1) (p1.coeff u k) (p2.coeff u k) := by
    rw [← hg]
    simp [hu]
  have hrow : ((List.range (max p3.length (level + 1))).map g).getD u [] = g u := by
    rw [List.getD_eq_getElem?_getD, List.getElem?_map, List.getElem?_range hu2]
    rfl
  show (((List.range (max p3.length (level + 1))).map g).getD u []).getD k 0 = _
  rw [hrow, hgu, List.getD_eq_getElem?_getD, List.getElem?_map, List.getElem?_range hk]
  rfl

theorem montgomery_product (q a b : Nat) (h : ((2 ^ 64 % q) * radixInverse q) % q = 1) :
    ((a * (2 ^ 64 % q)) % q * b * radixInverse q) % q = (a * b) % q := by
  have h1 : (a * (2 ^ 64 % q)) % q * b * radixInverse q ≡
      a * (2 ^ 64 % q) * b * radixInverse q [MOD q] :=
    Nat.ModEq.mul_right _ (Nat.ModEq.mul_right _ (Nat.mod_modEq _ _))
  have h2 : a * (2 ^ 64 % q) * b * radixInverse q = (a * b) * ((2 ^ 64 % q) * radixInverse q) := by
    ring
  have h0 : (2 ^ 64 % q) * radixInverse q ≡ 1 [MOD q] := by
    show ((2 ^ 64 % q) * radixInverse q) % q = 1 % q
    rw [← h, Nat.mod_mod]
  have h3 : (a * b) * ((2 ^ 64 % q) * radixInverse q) ≡ (a * b) * 1 [MOD q] :=
    Nat.ModEq.mul_left _ h0
  rw [h2] at h1
  have h4 := h1.trans h3
  rw [Nat.mul_one] at h4
  exact h4

theorem exactRing_isProductLvl (N : Nat) (moduli : List Nat)
    (hodd : ∀ q ∈ moduli, ((2 ^ 64 % q) * radixInverse q) % q = 1)
    (level : Nat) (a b t out : Poly) :
    (exactRing N moduli).IsProductLvl level a b
      ((exactRing N moduli).MulCoeffsMontgomeryLvl level
        ((exactRing N moduli).MFormLvl level a t) b out) := by
  intro u k hu hlen hk
  have hlen2 : u < moduli.length := hlen
  have hq : moduli.getD u 1 ∈ moduli := by
    rw [List.getD_eq_getElem _ _ hlen2]
    exact List.getElem_mem hlen2
  show (exactLvl N moduli (fun q a b => (a * b * radixInverse q) % q) level
    (exactLvl N moduli (fun q a _ => (a * (2 ^ 64 % q)) % q) level a a t) b out).coeff u k = _
  rw [coeff_exactLvl N moduli _ level _ _ _ u k hu hk, coeff_exactLvl N moduli _ level _ _ _ u k hu hk]
  exact montgomery_product _ _ _ (hodd _ hq)

end ring

namespace mkrlwe

theorem Contains.go_neg_iff (e : Nat) (s : List Nat) (i : Nat) :
    Contains.go e s i < 0 ↔ e ∉ s := by
  induction s generalizing i with
  | nil => simp [Contains.go]
  | cons a t ih =>
    unfold Contains.go
    by_cases h : a = e
    · subst h
      simp
    · have h2 : ¬ e = a := fun h3 => h h3.symm
      simp [h, h2, ih]

theorem Contains_neg_iff (s : List Nat) (e : Nat) : Contains s e < 0 ↔ e ∉ s :=
  Contains.go_neg_iff e s 0

theorem MergeSlices.step_eq (s3 : List Nat) (el : Nat) :
    MergeSlices.step s3 el = if el ∈ s3 then s3 else s3 ++ [el] := by
  unfold MergeSlices.step
  by_cases h : el ∈ s3
  · have : ¬ Contains s3 el < 0 := by rw [Contains_neg_iff]; exact fun h2 => h2 h
    simp [h, this]
  · have : Contains s3 el < 0 := (Contains_neg_iff s3 el).2 h
    simp [h, this]

theorem mem_foldl_step (s2 : List Nat) : ∀ (s1 : List Nat) (x : Nat),
    x ∈ s2.foldl MergeSlices.step s1 ↔ x ∈ s1 ∨ x ∈ s2 := by
  induction s2 with
  | nil => intro s1 x; simp
  | cons a t ih =>
    intro s1 x
    rw [List.foldl_cons, ih, MergeSlices.step_eq]
    by_cases h : a ∈ s1
    · simp only [h, if_true, List.mem_cons]
      constructor
      · rintro (h1 | h1)
        · exact Or.inl h1
        · exact Or.inr (Or.inr h1)
      · rintro (h1 | h1 | h1)
        · exact Or.inl h1
        · exact Or.inl (h1 ▸ h)
        · exact Or.inr h1
    · simp only [h, if_false, List.mem_append, List.mem_singleton, List.mem_cons]
      tauto

theorem nodup_foldl_step (s2 : List Nat) : ∀ (s1 : List Nat),
    s1.Nodup → (s2.foldl MergeSlices.step s1).Nodup := by
  induction s2 with
  | nil => intro s1 h; simpa using h
  | cons a t ih =>
    intro s1 h
    rw [List.foldl_cons]
    apply ih
    rw [MergeSlices.step_eq]
    by_cases h1 : a ∈ s1
    · simpa [h1] using h
    · simp only [h1, if_false]
      rw [List.nodup_append]
      refine ⟨h, List.nodup_singleton a, ?_⟩
      intro x hx hx2
      rw [List.mem_singleton] at hx2
      exact h1 (hx2 ▸ hx)

theorem foldl_step_self (s2 : List Nat) : ∀ (s1 : List Nat),
    (∀ x ∈ s2, x ∈ s1) → s2.foldl MergeSlices.step s1 = s1 := by
  induction s2 with
  | nil => intro s1 _; rfl
  | cons a t ih =>
    intro s1 h
    have ha : a ∈ s1 := h a (List.mem_cons_self a t)
    rw [List.foldl_cons, MergeSlices.step_eq, if_pos ha]
    exact ih s1 (fun x hx => h x (List.mem_cons_of_mem a hx))

/-- C6: `MergeSlices s1 s2` is sorted in non-decreasing order, contains a value exactly when `s1`
or `s2` contains it, and `MergeSlices [2] [5] = [2, 5]`. -/
theorem MergeSlices_sorted_union (s1 s2 : List Nat) :
    (MergeSlices s1 s2).Sorted (· ≤ ·) ∧
      (∀ x : Nat, x ∈ MergeSlices s1 s2 ↔ x ∈ s1 ∨ x ∈ s2) ∧
      MergeSlices [2] [5] = [2, 5] := by
  refine ⟨?_, ?_, by decide⟩
  · exact List.sorted_insertionSort (· ≤ ·) _
  · intro x
    unfold MergeSlices sortSlice
    rw [List.mem_insertionSort, mem_foldl_step]

/-- C7: merging two strictly increasing identifier lists gives a strictly increasing list. -/
theorem MergeSlices_strictly_increasing (s1 s2 : List Nat)
    (h1 : s1.Sorted (· < ·)) (h2 : s2.Sorted (· < ·)) :
    (MergeSlices s1 s2).Sorted (· < ·) := by
  have _ := h2
  have hnd : (MergeSlices s1 s2).Nodup :=
    ((List.perm_insertionSort (· ≤ ·) _).nodup_iff).2 (nodup_foldl_step s2 s1 h1.nodup)
  exact (List.sorted_insertionSort (· ≤ ·) _).lt_of_le hnd

theorem MergeSlices_strictly_increasing_witness :
    ([2, 7].Sorted (· < ·) ∧ [5, 7, 9].Sorted (· < ·)) ∧
      (MergeSlices [2, 7] [5, 7, 9]).Sorted (· < ·) :=
  ⟨⟨by decide, by decide⟩, MergeSlices_strictly_increasing [2, 7] [5, 7, 9] (by decide) (by decide)⟩

/-- C8: a strictly increasing identifier list merged with itself is unchanged. -/
theorem MergeSlices_self (s : List Nat) (h : s.Sorted (· < ·)) : MergeSlices s s = s := by
  unfold MergeSlices sortSlice
  rw [foldl_step_self s s (fun _ hx => hx)]
  exact List.Sorted.insertionSort_eq h.le_of_lt

theorem MergeSlices_self_witness :
    [2, 5, 9].Sorted (· < ·) ∧ MergeSlices [2, 5, 9] [2, 5, 9] = [2, 5, 9] :=
  ⟨by decide, MergeSlices_self [2, 5, 9] (by decide)⟩

theorem Dot.loop_eq (acc : ring.Poly → ring.Poly → ring.Poly → ring.Poly)
    (p1 p2 : List ring.Poly) :
    ∀ (n i : Nat) (res : ring.Poly), i + n = p1.length → i + n = p2.length →
      Dot.loop acc p1 p2 n i res = .ok (dotProduct acc res (p1.drop i) (p2.drop i)) := by
  intro n
  induction n with
  | zero =>
    intro i res h1 h2
    have e1 : p1.drop i = [] := List.drop_eq_nil_of_le (by omega)
    rw [e1]
    rfl
  | succ n ih =>
    intro i res h1 h2
    have hl1 : i < p1.length := by omega
    have hl2 : i < p2.length := by omega
    unfold Dot.loop
    rw [List.getElem?_eq_getElem hl1, List.getElem?_eq_getElem hl2]
    simp only []
    rw [ih (i + 1) _ (by omega) (by omega), List.drop_eq_getElem_cons hl1,
      List.drop_eq_getElem_cons hl2]
    rfl

/-- C20: for decomposed polynomials of equal length, `Dot` and `DotLvl` return the dot product,
obtained from the fresh zero polynomial of the ring by accumulating `p1[i] * p2[i]` for
`i = 0..d-1`; when the lengths differ they abort with the size panic. -/
theorem Dot_eq_dotProduct (p1 p2 : MKDecomposedPoly) (r : ring.Ring) (level : Nat) :
    (p1.Poly.length = p2.Poly.length →
      Dot p1 p2 r =
        .ok (dotProduct r.MulCoeffsMontgomeryAndAdd r.NewPoly p1.Poly p2.Poly) ∧
      DotLvl level p1 p2 r =
        .ok (dotProduct (r.MulCoeffsMontgomeryAndAddLvl level) r.NewPoly p1.Poly p2.Poly)) ∧
    (p1.Poly.length ≠ p2.Poly.length →
      Dot p1 p2 r = .error Panic.sizeMismatch ∧
      DotLvl level p1 p2 r = .error Panic.sizeMismatch) := by
  constructor
  · intro h
    have hn : ¬ p1.Poly.length ≠ p2.Poly.length := fun hne => hne h
    constructor
    · unfold Dot
      rw [if_neg hn, Dot.loop_eq _ _ _ _ 0 _ (by omega) (by omega)]
      rfl
    · unfold DotLvl
      rw [if_neg hn, Dot.loop_eq _ _ _ _ 0 _ (by omega) (by omega)]
      rfl
  · intro h
    constructor
    · unfold Dot
      rw [if_pos h]
      rfl
    · unfold DotLvl
      rw [if_pos h]
      rfl

theorem Dot_eq_dotProduct_witness :
    Dot ⟨[[[1, 2]], [[3, 4]]]⟩ ⟨[[[5, 6]], [[1, 1]]]⟩ (ring.exactRing 2 [7]) =
        .ok (dotProduct (ring.exactRing 2 [7]).MulCoeffsMontgomeryAndAdd
          (ring.exactRing 2 [7]).NewPoly [[[1, 2]], [[3, 4]]] [[[5, 6]], [[1, 1]]]) ∧
      Dot ⟨[[[1, 2]], [[3, 4]]]⟩ ⟨[[[5, 6]]]⟩ (ring.exactRing 2 [7]) =
        .error Panic.sizeMismatch :=
  ⟨((Dot_eq_dotProduct ⟨[[[1, 2]], [[3, 4]]]⟩ ⟨[[[5, 6]], [[1, 1]]]⟩ (ring.exactRing 2 [7])
      0).1 rfl).1,
    ((Dot_eq_dotProduct ⟨[[[1, 2]], [[3, 4]]]⟩ ⟨[[[5, 6]]]⟩ (ring.exactRing 2 [7]) 0).2
      (by decide)).1⟩

end mkrlwe

namespace mkckks

theorem toInt64_of_lt (n : Nat) (h : n < 2 ^ 63) : toInt64 (n : Int) = (n : Int) := by
  unfold toInt64
  omega

theorem Mul.index_eq (n i j : Nat) (hn : n < 2 ^ 63) (h : n * i + j < 2 ^ 63) :
    toInt64 (toInt64 (toInt64 (n : Int) * (i : Int)) + (j : Int)) = ((n * i + j : Nat) : Int) := by
  have h1 : n * i < 2 ^ 63 := by omega
  rw [toInt64_of_lt n hn]
  have e1 : ((n : Int) * (i : Int)) = ((n * i : Nat) : Int) := by push_cast; rfl
  rw [e1, toInt64_of_lt _ h1]
  have e2 : (((n * i : Nat) : Int) + (j : Int)) = ((n * i + j : Nat) : Int) := by push_cast; rfl
  rw [e2, toInt64_of_lt _ h]

theorem setIndex_ok (s : List (Option ring.Poly)) (idx : Nat) (v : Option ring.Poly)
    (h : idx < s.length) : setIndex s (idx : Int) v = .ok (s.set idx v) := by
  unfold setIndex
  have h1 : (0 : Int) ≤ (idx : Int) ∧ (idx : Int) < (s.length : Int) := by omega
  rw [if_pos h1]
  simp

theorem Mul.cell_ok (ringQ : ring.Ring) (level n i : Nat) (v1 : Option ring.Poly)
    (tmp1 : ring.Poly) (j : Nat) (v2 : Option ring.Poly) (res : List (Option ring.Poly))
    (hn : n < 2 ^ 63) (hb : n * i + j < 2 ^ 63) (hidx : n * i + j < res.length) :
    Mul.cell ringQ level n i v1 tmp1 j v2 res =
      .ok (res.set (n * i + j) (Mul.part ringQ level tmp1 v1 v2)) := by
  unfold Mul.cell
  rw [Mul.index_eq n i j hn hb]
  generalize n * i + j = idx at hidx
  cases v1 <;> cases v2 <;>
    simp [Mul.part, setIndex_ok, hidx, bind, Except.bind, pure, Except.pure]

theorem Mul.inner_ok (ringQ : ring.Ring) (level n i : Nat) (v1 : Option ring.Poly)
    (tmp1 : ring.Poly) (hn : n < 2 ^ 63) :
    ∀ (rest : List (Option ring.Poly)) (j : Nat) (res : List (Option ring.Poly)),
      n * i + j + rest.length ≤ res.length → n * i + j + rest.length ≤ 2 ^ 63 →
      ∃ res', Mul.inner ringQ level n i v1 tmp1 rest j res = .ok res' ∧
        res'.length = res.length ∧
        ∀ idx : Nat, res'[idx]? =
          if n * i + j ≤ idx ∧ idx < n * i + j + rest.length then
            some (Mul.part ringQ level tmp1 v1 (rest.getD (idx - (n * i + j)) none))
          else res[idx]? := by
  intro rest
  induction rest with
  | nil =>
    intro j res _ _
    refine ⟨res, rfl, rfl, ?_⟩
    intro idx
    have : ¬ (n * i + j ≤ idx ∧ idx < n * i + j + ([] : List (Option ring.Poly)).length) := by
      simp only [List.length_nil]
      omega
    rw [if_neg this]
  | cons v2 rest ih =>
    intro j res hlen hb
    simp only [List.length_cons] at hlen hb
    have hc := Mul.cell_ok ringQ level n i v1 tmp1 j v2 res hn (by omega) (by omega)
    obtain ⟨res', hres', hlen', hget⟩ :=
      ih (j + 1) (res.set (n * i + j) (Mul.part ringQ level tmp1 v1 v2))
        (by rw [List.length_set]; omega) (by omega)
    refine ⟨res', ?_, ?_, ?_⟩
    · unfold Mul.inner
      rw [hc]
      exact hres'
    · rw [hlen', List.length_set]
    · intro idx
      rw [hget idx]
      simp only [List.length_cons]
      by_cases h1 : idx = n * i + j
      · subst h1
        have c1 : ¬ (n * i + (j + 1) ≤ n * i + j ∧ n * i + j < n * i + (j + 1) + rest.length) := by
          omega
        have c2 : n * i + j ≤ n * i + j ∧ n * i + j < n * i + j + (rest.length + 1) := by omega
        rw [if_neg c1, if_pos c2]
        have hlt : n * i + j < res.length := by omega
        simp [hlt]
      · by_cases h2 : n * i + (j + 1) ≤ idx ∧ idx < n * i + (j + 1) + rest.length
        · have c2 : n * i + j ≤ idx ∧ idx < n * i + j + (rest.length + 1) := by omega
          rw [if_pos h2, if_pos c2]
          have e : idx - (n * i + j) = (idx - (n * i + (j + 1))) + 1 := by omega
          rw [e]
          simp
        · have c2 : ¬ (n * i + j ≤ idx ∧ idx < n * i + j + (rest.length + 1)) := by omega
          rw [if_neg h2, if_neg c2]
          have hne : n * i + j ≠ idx := fun h => h1 h.symm
          simp [List.getElem?_set, hne]

theorem Mul.outer_ok (ringQ : ring.Ring) (level n : Nat) (value2 : List (Option ring.Poly))
    (hn : n < 2 ^ 63) (h2 : value2.length = n) :
    ∀ (rest : List (Option ring.Poly)) (i : Nat) (tmp1 : ring.Poly)
      (res : List (Option ring.Poly)),
      n * (i + rest.length) ≤ res.length → n * (i + rest.length) ≤ 2 ^ 63 →
      ∃ res', Mul.outer ringQ level n value2 rest i tmp1 res = .ok res' ∧
        res'.length = res.length ∧
        ∀ i' j' : Nat, j' < n → res'[n * i' + j']? =
          if i ≤ i' ∧ i' < i + rest.length then
            some (Mul.part ringQ level (Mul.tmpAt ringQ level rest (i' - i) tmp1)
              (rest.getD (i' - i) none) (value2.getD j' none))
          else res[n * i' + j']? := by
  intro rest
  induction rest with
  | nil =>
    intro i tmp1 res _ _
    refine ⟨res, rfl, rfl, ?_⟩
    intro i' j' _
    have : ¬ (i ≤ i' ∧ i' < i + ([] : List (Option ring.Poly)).length) := by
      simp only [List.length_nil]
      omega
    rw [if_neg this]
  | cons v1 rest ih =>
    intro i tmp1 res hlen hb
    simp only [List.length_cons] at hlen hb
    have e1 : n * (i + (rest.length + 1)) = n * i + n * rest.length + n := by ring
    have e2 : n * (i + 1 + rest.length) = n * i + n * rest.length + n := by ring
    obtain ⟨res1, hres1, hlen1, hget1⟩ :=
      Mul.inner_ok ringQ level n i v1 (Mul.mform ringQ level v1 tmp1) hn value2 0 res
        (by rw [h2]; omega) (by rw [h2]; omega)
    obtain ⟨res', hres', hlen', hget⟩ :=
      ih (i + 1) (Mul.mform ringQ level v1 tmp1) res1 (by rw [hlen1, e2]; omega)
        (by rw [e2]; omega)
    refine ⟨res', ?_, ?_, ?_⟩
    · unfold Mul.outer
      simp only [bind, Except.bind, hres1]
      exact hres'
    · rw [hlen', hlen1]
    · intro i' j' hj'
      rw [hget i' j' hj']
      simp only [List.length_cons]
      by_cases h1 : i + 1 ≤ i' ∧ i' < i + 1 + rest.length
      · have c2 : i ≤ i' ∧ i' < i + (rest.length + 1) := by omega
        rw [if_pos h1, if_pos c2]
        have e : i' - i = (i' - (i + 1)) + 1 := by omega
        rw [e]
        simp [Mul.tmpAt]
      · rw [if_neg h1, hget1 (n * i' + j'), h2]
        by_cases h3 : i' = i
        · subst h3
          have c1 : n * i' + 0 ≤ n * i' + j' ∧ n * i' + j' < n * i' + 0 + n := by omega
          have c2 : i' ≤ i' ∧ i' < i' + (rest.length + 1) := by omega
          rw [if_pos c1, if_pos c2]
          have e : n * i' + j' - (n * i' + 0) = j' := by omega
          rw [e]
          simp [Mul.tmpAt]
        · have c2 : ¬ (i ≤ i' ∧ i' < i + (rest.length + 1)) := by omega
          have c1 : ¬ (n * i + 0 ≤ n * i' + j' ∧ n * i' + j' < n * i + 0 + n) := by
            rcases Nat.lt_or_ge i' i with hlt | hge
            · have h4 : n * (i' + 1) ≤ n * i := Nat.mul_le_mul_left n hlt
              have e4 : n * (i' + 1) = n * i' + n := by ring
              omega
            · have h5 : i + 1 ≤ i' := by omega
              have h4 : n * (i + 1) ≤ n * i' := Nat.mul_le_mul_left n h5
              have e4 : n * (i + 1) = n * i + n := by ring
              omega
          rw [if_neg c1, if_neg c2]

theorem Mul_eq_ok (eval : mkEvaluator) (c1 c2 padded1 padded2 : MKCiphertext)
    (hpad : eval.PadCiphers c1 c2 = (padded1, padded2)) (k : Nat)
    (h1 : padded1.Ciphertexts.Value.length = k + 1)
    (h2 : padded2.Ciphertexts.Value.length = k + 1)
    (hk : (k + 1) * (k + 1) < 2 ^ 63)
    (hn1 : padded1.Ciphertexts.IsNTT = true) (hn2 : padded2.Ciphertexts.IsNTT = true)
    (la lb : Nat) (hla : eval.Level padded1.Ciphertexts = some la)
    (hlb : eval.Level padded2.Ciphertexts = some lb) :
    ∃ res : List (Option ring.Poly),
      Mul eval c1 c2 = .ok
        { Ciphertexts :=
            { Value := res
              scale := padded1.Ciphertexts.scale * padded2.Ciphertexts.scale
              IsNTT := true }
          PeerID := padded1.PeerID } ∧
      res.length = (k + 1) * (k + 1) ∧
      ∀ i j : Nat, i ≤ k → j ≤ k → res[i * (k + 1) + j]? =
        some (Mul.part eval.ringQ (min la lb)
          (Mul.tmpAt eval.ringQ (min la lb) padded1.Ciphertexts.Value i eval.ringQ.NewPoly)
          (padded1.Ciphertexts.Value.getD i none) (padded2.Ciphertexts.Value.getD j none)) := by
  have hk1 : k + 1 < 2 ^ 63 := by
    have h3 : k + 1 ≤ (k + 1) * (k + 1) := Nat.le_mul_of_pos_right (k + 1) (Nat.succ_pos k)
    omega
  have hdeg : (padded1.Ciphertexts.Degree + 1) % 2 ^ 64 = k + 1 := by
    unfold ckks.Element.Degree
    rw [h1]
    omega
  have hout : ((k + 1) * (k + 1)) % 2 ^ 64 = (k + 1) * (k + 1) := by
    apply Nat.mod_eq_of_lt
    omega
  obtain ⟨res, hres, hlen, hget⟩ :=
    Mul.outer_ok eval.ringQ (min la lb) (k + 1) padded2.Ciphertexts.Value hk1 h2
      padded1.Ciphertexts.Value 0 eval.ringQ.NewPoly
      (List.replicate ((k + 1) * (k + 1)) none)
      (by rw [h1, List.length_replicate, Nat.zero_add]) (by rw [h1, Nat.zero_add]; omega)
  refine ⟨res, ?_, ?_, ?_⟩
  · unfold Mul
    rw [hpad]
    simp only [hdeg, hout, hla, hlb, hn1, hn2, Option.elim, bind, Except.bind, pure, Except.pure,
      hres]
    rfl
  · rw [hlen, List.length_replicate]
  · intro i j hi hj
    have e : i * (k + 1) + j = (k + 1) * i + j := by ring
    rw [e, hget i j (by omega), h1]
    have c : 0 ≤ i ∧ i < 0 + (k + 1) := by omega
    rw [if_pos c]
    simp

theorem Mul.tmpAt_of_some (ringQ : ring.Ring) (level : Nat) :
    ∀ (l : List (Option ring.Poly)) (i : Nat) (tmp1 p1 : ring.Poly),
      l.getD i none = some p1 →
      ∃ t : ring.Poly, Mul.tmpAt ringQ level l i tmp1 = ringQ.MFormLvl level p1 t := by
  intro l
  induction l with
  | nil => intro i tmp1 p1 h; simp at h
  | cons v rest ih =>
    intro i tmp1 p1 h
    cases i with
    | zero =>
      simp at h
      subst h
      exact ⟨tmp1, rfl⟩
    | succ i =>
      simp at h
      obtain ⟨t, ht⟩ := ih i (Mul.mform ringQ level v tmp1) p1 (by simpa using h)
      exact ⟨t, by simpa [Mul.tmpAt] using ht⟩

theorem setIndex_error (s : List (Option ring.Poly)) (idx : Int) (v : Option ring.Poly)
    (e : Panic) (h : setIndex s idx v = .error e) : e = Panic.indexOutOfRange := by
  unfold setIndex at h
  split at h
  · cases h
  · cases h
    rfl

theorem bind_error_kind {α β : Type} (x : Except Panic α) (f : α → Except Panic β) (e : Panic)
    (P : Panic → Prop) (hx : ∀ e', x = .error e' → P e')
    (hf : ∀ a e', f a = .error e' → P e') (h : (x >>= f) = .error e) : P e := by
  cases x with
  | error e' =>
    have h2 : e' = e := by
      simp only [bind, Except.bind] at h
      injection h
    exact h2 ▸ hx e' rfl
  | ok a => exact hf a e h

theorem Mul.cell_error (ringQ : ring.Ring) (level n i : Nat) (v1 : Option ring.Poly)
    (tmp1 : ring.Poly) (j : Nat) (v2 : Option ring.Poly) (res : List (Option ring.Poly))
    (e : Panic) (h : Mul.cell ringQ level n i v1 tmp1 j v2 res = .error e) :
    e = Panic.indexOutOfRange := by
  unfold Mul.cell at h
  generalize toInt64 (toInt64 (toInt64 (n : Int) * (i : Int)) + (j : Int)) = idx at h
  simp only [] at h
  refine bind_error_kind _ _ e (fun e => e = Panic.indexOutOfRange) ?_ ?_ h
  · intro e' h'
    cases v1 with
    | none =>
      cases v2 with
      | none => simp [pure, Except.pure] at h'
      | some p2 => simp [pure, Except.pure] at h'
    | some p1 =>
      cases v2 with
      | none => simp [pure, Except.pure] at h'
      | some p2 => exact setIndex_error res idx _ e' h'
  · intro res1 e' h'
    refine bind_error_kind _ _ e' (fun e => e = Panic.indexOutOfRange) ?_ ?_ h'
    · intro e2 h2
      cases v1 with
      | none =>
        rw [Option.isNone_none, if_pos rfl] at h2
        exact setIndex_error res1 idx none e2 h2
      | some p1 => simp [pure, Except.pure] at h2
    · intro res2 e2 h2
      cases v2 with
      | none =>
        rw [Option.isNone_none, if_pos rfl] at h2
        exact setIndex_error res2 idx none e2 h2
      | some p2 => simp [pure, Except.pure] at h2

theorem Mul.inner_error (ringQ : ring.Ring) (level n i : Nat) (v1 : Option ring.Poly)
    (tmp1 : ring.Poly) (e : Panic) :
    ∀ (rest : List (Option ring.Poly)) (j : Nat) (res : List (Option ring.Poly)),
      Mul.inner ringQ level n i v1 tmp1 rest j res = .error e → e = Panic.indexOutOfRange := by
  intro rest
  induction rest with
  | nil => intro j res h; cases h
  | cons v2 rest ih =>
    intro j res h
    unfold Mul.inner at h
    simp only [bind, Except.bind] at h
    split at h
    · rename_i err heq
      cases h
      exact Mul.cell_error _ _ _ _ _ _ _ _ _ _ heq
    · exact ih _ _ h

theorem Mul.outer_error (ringQ : ring.Ring) (level n : Nat) (value2 : List (Option ring.Poly))
    (e : Panic) :
    ∀ (rest : List (Option ring.Poly)) (i : Nat) (tmp1 : ring.Poly)
      (res : List (Option ring.Poly)),
      Mul.outer ringQ level n value2 rest i tmp1 res = .error e → e = Panic.indexOutOfRange := by
  intro rest
  induction rest with
  | nil => intro i tmp1 res h; cases h
  | cons v1 rest ih =>
    intro i tmp1 res h
    unfold Mul.outer at h
    simp only [bind, Except.bind] at h
    split at h
    · rename_i err heq
      cases h
      exact Mul.inner_error _ _ _ _ _ _ _ _ _ _ heq
    · exact ih _ _ _ h


/-- C2: for padded operands with `k+1` parts each, both in the NTT domain, the part of the result of
`Mul` at index `i*(k+1)+j` is absent when part `i` of the first operand or part `j` of the second
one is absent; otherwise it is the Montgomery product, at level `min level_a level_b` and in a fresh
polynomial, of the Montgomery form of part `i` with part `j`, which is their ring product in every
row up to that level. -/
theorem Mul_part_at (eval : mkEvaluator) (c1 c2 padded1 padded2 : MKCiphertext)
    (hpad : eval.PadCiphers c1 c2 = (padded1, padded2)) (k : Nat)
    (h1 : padded1.Ciphertexts.Value.length = k + 1)
    (h2 : padded2.Ciphertexts.Value.length = k + 1)
    (hk : (k + 1) * (k + 1) < 2 ^ 63)
    (hn1 : padded1.Ciphertexts.IsNTT = true) (hn2 : padded2.Ciphertexts.IsNTT = true)
    (la lb : Nat) (hla : eval.Level padded1.Ciphertexts = some la)
    (hlb : eval.Level padded2.Ciphertexts = some lb)
    (hmont : ∀ p1 p2 t : ring.Poly, some p1 ∈ padded1.Ciphertexts.Value →
      some p2 ∈ padded2.Ciphertexts.Value →
      eval.ringQ.IsProductLvl (min la lb) p1 p2
        (eval.ringQ.MulCoeffsMontgomeryLvl (min la lb)
          (eval.ringQ.MFormLvl (min la lb) p1 t) p2 eval.ringQ.NewPoly))
    (i j : Nat) (hi : i ≤ k) (hj : j ≤ k) :
    ∃ out : MKCiphertext, Mul eval c1 c2 = .ok out ∧
      ((padded1.Ciphertexts.Value.getD i none = none ∨
          padded2.Ciphertexts.Value.getD j none = none) →
        out.Ciphertexts.Value[i * (k + 1) + j]? = some none) ∧
      (∀ p1 p2 : ring.Poly, padded1.Ciphertexts.Value.getD i none = some p1 →
        padded2.Ciphertexts.Value.getD j none = some p2 →
        ∃ t : ring.Poly,
          out.Ciphertexts.Value[i * (k + 1) + j]? =
            some (some (eval.ringQ.MulCoeffsMontgomeryLvl (min la lb)
              (eval.ringQ.MFormLvl (min la lb) p1 t) p2 eval.ringQ.NewPoly)) ∧
          eval.ringQ.IsProductLvl (min la lb) p1 p2
            (eval.ringQ.MulCoeffsMontgomeryLvl (min la lb)
              (eval.ringQ.MFormLvl (min la lb) p1 t) p2 eval.ringQ.NewPoly)) := by
  obtain ⟨res, hres, _, hget⟩ :=
    Mul_eq_ok eval c1 c2 padded1 padded2 hpad k h1 h2 hk hn1 hn2 la lb hla hlb
  refine ⟨_, hres, ?_, ?_⟩
  · intro h
    show res[i * (k + 1) + j]? = some none
    rw [hget i j hi hj]
    rcases h with h | h
    · rw [h]
      rfl
    · rw [h]
      cases padded1.Ciphertexts.Value.getD i none <;> rfl
  · intro p1 p2 hp1 hp2
    obtain ⟨t, ht⟩ := Mul.tmpAt_of_some eval.ringQ (min la lb) padded1.Ciphertexts.Value i
      eval.ringQ.NewPoly p1 hp1
    have hm1 : some p1 ∈ padded1.Ciphertexts.Value := by
      have hlt : i < padded1.Ciphertexts.Value.length := by omega
      rw [List.getD_eq_getElem _ _ hlt] at hp1
      rw [← hp1]
      exact List.getElem_mem hlt
    have hm2 : some p2 ∈ padded2.Ciphertexts.Value := by
      have hlt : j < padded2.Ciphertexts.Value.length := by omega
      rw [List.getD_eq_getElem _ _ hlt] at hp2
      rw [← hp2]
      exact List.getElem_mem hlt
    refine ⟨t, ?_, hmont p1 p2 t hm1 hm2⟩
    show res[i * (k + 1) + j]? = _
    rw [hget i j hi hj, hp1, hp2, ht]
    rfl

theorem Mul_part_at_witness :
    ∃ out : MKCiphertext, Mul (exactEvaluator 2 [7, 11]) sampleA sampleB = .ok out ∧
      ((sampleA.Ciphertexts.Value.getD 0 none = none ∨
          sampleB.Ciphertexts.Value.getD 1 none = none) →
        out.Ciphertexts.Value[0 * (1 + 1) + 1]? = some none) ∧
      (∀ p1 p2 : ring.Poly, sampleA.Ciphertexts.Value.getD 0 none = some p1 →
        sampleB.Ciphertexts.Value.getD 1 none = some p2 →
        ∃ t : ring.Poly,
          out.Ciphertexts.Value[0 * (1 + 1) + 1]? =
            some (some ((exactEvaluator 2 [7, 11]).ringQ.MulCoeffsMontgomeryLvl (min 0 0)
              ((exactEvaluator 2 [7, 11]).ringQ.MFormLvl (min 0 0) p1 t) p2
              (exactEvaluator 2 [7, 11]).ringQ.NewPoly)) ∧
          (exactEvaluator 2 [7, 11]).ringQ.IsProductLvl (min 0 0) p1 p2
            ((exactEvaluator 2 [7, 11]).ringQ.MulCoeffsMontgomeryLvl (min 0 0)
              ((exactEvaluator 2 [7, 11]).ringQ.MFormLvl (min 0 0) p1 t) p2
              (exactEvaluator 2 [7, 11]).ringQ.NewPoly)) :=
  Mul_part_at (exactEvaluator 2 [7, 11]) sampleA sampleB sampleA sampleB rfl 1 rfl rfl
    (by norm_num) rfl rfl 0 0 rfl rfl
    (fun p1 p2 t _ _ => ring.exactRing_isProductLvl 2 [7, 11] (by decide) (min 0 0) p1 p2 t _)
    0 1
    (by decide) (by decide)

/-- C3: for padded NTT-domain operands with `k+1` parts each, `Mul` returns a ciphertext with
exactly `(k+1)^2` parts (4 when `k = 1`) that carries the padded `PeerID` list of the operands. -/
theorem Mul_part_count (eval : mkEvaluator) (c1 c2 padded1 padded2 : MKCiphertext)
    (hpad : eval.PadCiphers c1 c2 = (padded1, padded2)) (k : Nat)
    (h1 : padded1.Ciphertexts.Value.length = k + 1)
    (h2 : padded2.Ciphertexts.Value.length = k + 1)
    (hk : (k + 1) * (k + 1) < 2 ^ 63)
    (hn1 : padded1.Ciphertexts.IsNTT = true) (hn2 : padded2.Ciphertexts.IsNTT = true)
    (la lb : Nat) (hla : eval.Level padded1.Ciphertexts = some la)
    (hlb : eval.Level padded2.Ciphertexts = some lb)
    (hpid : padded1.PeerID = padded2.PeerID) :
    ∃ out : MKCiphertext, Mul eval c1 c2 = .ok out ∧
      out.Ciphertexts.Value.length = (k + 1) ^ 2 ∧
      (k = 1 → out.Ciphertexts.Value.length = 4) ∧
      out.PeerID = padded1.PeerID ∧ out.PeerID = padded2.PeerID := by
  obtain ⟨res, hres, hlen, _⟩ :=
    Mul_eq_ok eval c1 c2 padded1 padded2 hpad k h1 h2 hk hn1 hn2 la lb hla hlb
  refine ⟨_, hres, ?_, ?_, rfl, hpid⟩
  · show res.length = (k + 1) ^ 2
    rw [hlen]
    ring
  · intro hk1
    show res.length = 4
    rw [hlen, hk1]

theorem Mul_part_count_witness :
    ∃ out : MKCiphertext, Mul (exactEvaluator 2 [7, 11]) sampleA sampleB = .ok out ∧
      out.Ciphertexts.Value.length = (1 + 1) ^ 2 ∧
      (1 = 1 → out.Ciphertexts.Value.length = 4) ∧
      out.PeerID = sampleA.PeerID ∧ out.PeerID = sampleB.PeerID :=
  Mul_part_count (exactEvaluator 2 [7, 11]) sampleA sampleB sampleA sampleB rfl 1 rfl rfl
    (by norm_num) rfl rfl 0 0 rfl rfl rfl

/-- C4: `Mul` aborts, returning no ciphertext, whenever one of the padded operands is not flagged as
being in the NTT domain (with the panic of the first offending operand once the levels have been
read), and when both operands are in the NTT domain it raises neither of these two panics. -/
theorem Mul_requires_ntt (eval : mkEvaluator) (c1 c2 padded1 padded2 : MKCiphertext)
    (hpad : eval.PadCiphers c1 c2 = (padded1, padded2)) :
    ((padded1.Ciphertexts.IsNTT = false ∨ padded2.Ciphertexts.IsNTT = false) →
        ∃ e : Panic, Mul eval c1 c2 = .error e) ∧
      (∀ la lb : Nat, eval.Level padded1.Ciphertexts = some la →
        eval.Level padded2.Ciphertexts = some lb →
        (padded1.Ciphertexts.IsNTT = false → Mul eval c1 c2 = .error Panic.op0NotNTT) ∧
        (padded1.Ciphertexts.IsNTT = true → padded2.Ciphertexts.IsNTT = false →
          Mul eval c1 c2 = .error Panic.op1NotNTT)) ∧
      ((padded1.Ciphertexts.IsNTT = true ∧ padded2.Ciphertexts.IsNTT = true) →
        Mul eval c1 c2 ≠ .error Panic.op0NotNTT ∧ Mul eval c1 c2 ≠ .error Panic.op1NotNTT) := by
  unfold Mul
  rw [hpad]
  simp only []
  cases hl1 : eval.Level padded1.Ciphertexts with
  | none =>
    simp [Option.elim, bind, Except.bind]
  | some la =>
    cases hl2 : eval.Level padded2.Ciphertexts with
    | none =>
      simp [Option.elim, bind, Except.bind, pure, Except.pure]
    | some lb =>
      cases hn1 : padded1.Ciphertexts.IsNTT with
      | false =>
        simp [Option.elim, bind, Except.bind, pure, Except.pure, throw, throwThe,
          MonadExceptOf.throw]
      | true =>
        cases hn2 : padded2.Ciphertexts.IsNTT with
        | false =>
          simp [Option.elim, bind, Except.bind, pure, Except.pure, throw, throwThe,
            MonadExceptOf.throw]
        | true =>
          simp only [Option.elim, bind, Except.bind, pure, Except.pure, throw, throwThe,
            MonadExceptOf.throw, Bool.not_true, Bool.false_eq_true, if_false]
          refine ⟨by simp, by simp, fun _ => ?_⟩
          generalize hr : Mul.outer _ _ _ _ _ _ _ _ = r
          cases r with
          | ok v => simp
          | error e =>
            have he := Mul.outer_error _ _ _ _ _ _ _ _ _ hr
            subst he
            simp

theorem Mul_requires_ntt_witness :
    Mul (exactEvaluator 2 [7, 11]) sampleCoeffDomain sampleB = .error Panic.op0NotNTT ∧
      Mul (exactEvaluator 2 [7, 11]) sampleA sampleCoeffDomain = .error Panic.op1NotNTT :=
  ⟨((Mul_requires_ntt (exactEvaluator 2 [7, 11]) sampleCoeffDomain sampleB sampleCoeffDomain
      sampleB rfl).2.1 0 0 rfl rfl).1 rfl,
    ((Mul_requires_ntt (exactEvaluator 2 [7, 11]) sampleA sampleCoeffDomain sampleA
      sampleCoeffDomain rfl).2.1 0 0 rfl rfl).2 rfl rfl⟩

set_option maxRecDepth 8000 in
/-- C5, evaluated on a chain of two moduli: both operands are at level 0 (one row per part), and
the parts of the ciphertext returned by `Mul` have two rows, that is level 1 and not
`min 0 0 = 0`; the row above the common level holds zeros. -/
theorem Mul_level_on_two_moduli :
    rowLevel sampleA.Ciphertexts = some 0 ∧ rowLevel sampleB.Ciphertexts = some 0 ∧
      ∃ out : MKCiphertext, Mul (exactEvaluator 2 [7, 11]) sampleA sampleB = .ok out ∧
        out.Ciphertexts.Value = [some [[1, 3], [0, 0]], some [[3, 1], [0, 0]], none, none] ∧
        rowLevel out.Ciphertexts = some 1 :=
  ⟨rfl, rfl, _, rfl, rfl, rfl⟩

theorem readPart_of_get (el : ckks.Element) (i : Nat) (v : Option ring.Poly)
    (h : el.Value[i]? = some v) : readPart el i = .ok v := by
  unfold readPart
  rw [h]
  rfl

theorem writePart_of_lt (el : ckks.Element) (i : Nat) (v : Option ring.Poly)
    (h : i < el.Value.length) :
    writePart el i v = .ok { el with Value := el.Value.set i v } := by
  unfold writePart
  rw [if_pos h]
  rfl

theorem updatePart_of_some (el : ckks.Element) (i : Nat) (op : ring.Poly → ring.Poly)
    (p : ring.Poly) (h : el.Value[i]? = some (some p)) :
    updatePart el i op = .ok { el with Value := el.Value.set i (some (op p)) } := by
  have hlt : i < el.Value.length := by
    by_contra hge
    rw [List.getElem?_eq_none (by omega)] at h
    cases h
  unfold updatePart
  rw [readPart_of_get el i _ h]
  show writePart el i (some (op p)) = _
  exact writePart_of_lt el i _ hlt

theorem evaluateInPlace.step_element (ringQ : ring.Ring) (isSub : Bool)
    (evaluate : Nat → ring.Poly → ring.Poly → ring.Poly → ring.Poly) (level : Nat)
    (e0 e1 ctOut : ckks.Element) (i : Nat) (a b : Option ring.Poly) (po : ring.Poly)
    (ha : e0.Value[i]? = some a) (hb : e1.Value[i]? = some b)
    (ho : ctOut.Value[i]? = some (some po))
    (hneg : isSub = true → a = none → ∀ pb : ring.Poly, b = some pb →
      ∃ v : ring.Poly, ringQ.Neg pb po = some v) :
    evaluateInPlace.step ringQ isSub evaluate level (Source.element e0) (Source.element e1) i
        ctOut =
      .ok { ctOut with
        Value := ctOut.Value.set i (evaluateInPlace.combine ringQ isSub evaluate level a b po) } := by
  have hlt : i < ctOut.Value.length := by
    by_contra hge
    rw [List.getElem?_eq_none (by omega)] at ho
    cases ho
  have hra := readPart_of_get e0 i a ha
  have hrb := readPart_of_get e1 i b hb
  have hro := readPart_of_get ctOut i _ ho
  have hw := fun v => writePart_of_lt ctOut i v hlt
  have hu := fun op => updatePart_of_some ctOut i op po ho
  unfold evaluateInPlace.step evaluateInPlace.bothNil evaluateInPlace.firstNil
    evaluateInPlace.secondNil evaluateInPlace.noneNil
  simp only [Source.read, hra, hrb, bind, Except.bind]
  cases a with
  | none =>
    cases b with
    | none =>
      simp only [hw, pure, Except.pure, evaluateInPlace.combine]
    | some pb =>
      cases isSub with
      | false =>
        simp only [hw, pure, Except.pure, evaluateInPlace.combine, Bool.not_false, if_true,
          Bool.false_eq_true, if_false]
      | true =>
        obtain ⟨v, hv⟩ := hneg rfl rfl pb rfl
        simp only [negatePart, hro, hv, hw, bind, Except.bind, pure, Except.pure,
          evaluateInPlace.combine, Bool.not_true, Bool.false_eq_true, if_false, if_true,
          Option.getD_some]
  | some pa =>
    cases b with
    | none => simp only [hw, pure, Except.pure, evaluateInPlace.combine]
    | some pb => simp only [hu, pure, Except.pure, evaluateInPlace.combine]

theorem evaluateInPlace.loop_element (ringQ : ring.Ring) (isSub : Bool)
    (evaluate : Nat → ring.Poly → ring.Poly → ring.Poly → ring.Poly) (level : Nat)
    (e0 e1 : ckks.Element) :
    ∀ (n i : Nat) (ctOut : ckks.Element),
      i + n ≤ e0.Value.length → i + n ≤ e1.Value.length →
      (∀ j : Nat, i ≤ j → j < i + n → ∃ po : ring.Poly, ctOut.Value[j]? = some (some po)) →
      (isSub = true → ∀ j : Nat, i ≤ j → j < i + n → e0.Value.getD j none = none →
        ∀ pb : ring.Poly, e1.Value.getD j none = some pb →
        ∃ v : ring.Poly, ringQ.Neg pb ((ctOut.Value.getD j none).getD []) = some v) →
      ∃ res : ckks.Element,
        evaluateInPlace.loop ringQ isSub evaluate level (Source.element e0) (Source.element e1)
          n i ctOut = .ok res ∧
        res.scale = ctOut.scale ∧ res.IsNTT = ctOut.IsNTT ∧
        res.Value.length = ctOut.Value.length ∧
        ∀ j : Nat, res.Value[j]? =
          if i ≤ j ∧ j < i + n then
            some (evaluateInPlace.combine ringQ isSub evaluate level (e0.Value.getD j none)
              (e1.Value.getD j none) ((ctOut.Value.getD j none).getD []))
          else ctOut.Value[j]? := by
  intro n
  induction n with
  | zero =>
    intro i ctOut _ _ _ _
    refine ⟨ctOut, rfl, rfl, rfl, rfl, ?_⟩
    intro j
    have : ¬ (i ≤ j ∧ j < i + 0) := by omega
    rw [if_neg this]
  | succ n ih =>
    intro i ctOut h0 h1 hp hneg
    have hlt0 : i < e0.Value.length := by omega
    have hlt1 : i < e1.Value.length := by omega
    obtain ⟨po, hpo⟩ := hp i (Nat.le_refl i) (by omega)
    have ha : e0.Value[i]? = some (e0.Value.getD i none) := by
      rw [List.getD_eq_getElem?_getD, List.getElem?_eq_getElem hlt0]
      rfl
    have hb : e1.Value[i]? = some (e1.Value.getD i none) := by
      rw [List.getD_eq_getElem?_getD, List.getElem?_eq_getElem hlt1]
      rfl
    have hstep := evaluateInPlace.step_element ringQ isSub evaluate level e0 e1 ctOut i _ _ po
      ha hb hpo
      (fun hsub hnone pb hpb => by
        have h := hneg hsub i (Nat.le_refl i) (by omega) hnone pb hpb
        rw [List.getD_eq_getElem?_getD, hpo] at h
        exact h)
    obtain ⟨res, hres, hs, hn, hl, hget⟩ := ih (i + 1)
      { ctOut with
        Value := ctOut.Value.set i (evaluateInPlace.combine ringQ isSub evaluate level
          (e0.Value.getD i none) (e1.Value.getD i none) po) }
      (by omega) (by omega)
      (fun j hj1 hj2 => by
        obtain ⟨p, hp2⟩ := hp j (by omega) (by omega)
        refine ⟨p, ?_⟩
        show (ctOut.Value.set i _)[j]? = _
        rw [List.getElem?_set_ne (by omega)]
        exact hp2)
      (fun hsub j hj1 hj2 hnone pb hpb => by
        have h := hneg hsub j (by omega) (by omega) hnone pb hpb
        have hne : i ≠ j := by omega
        show ∃ v, ringQ.Neg pb (((ctOut.Value.set i _).getD j none).getD []) = some v
        rw [List.getD_eq_getElem?_getD, List.getElem?_set_ne hne, ← List.getD_eq_getElem?_getD]
        exact h)
    refine ⟨res, ?_, ?_, ?_, ?_, ?_⟩
    · unfold evaluateInPlace.loop
      rw [hstep]
      exact hres
    · rw [hs]
    · rw [hn]
    · rw [hl]
      exact List.length_set _ _ _
    · intro j
      rw [hget j]
      by_cases hj : i + 1 ≤ j ∧ j < i + 1 + n
      · have c2 : i ≤ j ∧ j < i + (n + 1) := by omega
        rw [if_pos hj, if_pos c2]
        have hne : i ≠ j := by omega
        simp only [List.getD_eq_getElem?_getD, List.getElem?_set_ne hne]
      · rw [if_neg hj]
        by_cases hji : j = i
        · subst hji
          have c2 : j ≤ j ∧ j < j + (n + 1) := by omega
          rw [if_pos c2]
          have hlt : j < ctOut.Value.length := by
            by_contra hge
            rw [List.getElem?_eq_none (by omega)] at hpo
            cases hpo
          show (ctOut.Value.set j _)[j]? = _
          rw [List.getElem?_set_self hlt]
          simp only [List.getD_eq_getElem?_getD, hpo, Option.getD_some]
        · have c2 : ¬ (i ≤ j ∧ j < i + (n + 1)) := by omega
          rw [if_neg c2]
          show (ctOut.Value.set i _)[j]? = _
          rw [List.getElem?_set_ne (fun h => hji h.symm)]

theorem ok_bind {α β : Type} (a : α) (f : α → Except Panic β) :
    (Except.ok a >>= f) = f a :=
  rfl

theorem ok_bind_any {ε α β : Type} (a : α) (f : α → Except ε β) :
    (Except.ok a >>= f) = f a :=
  rfl

theorem evaluateInPlace_fresh (eval : mkEvaluator) (isSub : Bool)
    (evaluate : Nat → ring.Poly → ring.Poly → ring.Poly → ring.Poly)
    (e0 e1 fresh : ckks.Element) (k la lb lf : Nat)
    (h0 : e0.Value.length = k + 1) (h1 : e1.Value.length = k + 1)
    (hf : fresh.Value.length = k + 1) (hk : k + 1 < 2 ^ 64)
    (hscale : e0.scale = e1.scale)
    (hla : eval.Level e0 = some la) (hlb : eval.Level e1 = some lb)
    (hlf : eval.Level fresh = some lf)
    (hresize : eval.Resize fresh k = fresh)
    (hdrop : eval.DropLevel fresh (subUint64 lf (min la lb)) = fresh)
    (hpresent : ∀ j : Nat, j ≤ k → ∃ po : ring.Poly, fresh.Value[j]? = some (some po))
    (hneg : isSub = true → ∀ j : Nat, j ≤ k → e0.Value.getD j none = none →
      ∀ pb : ring.Poly, e1.Value.getD j none = some pb →
      ∃ v : ring.Poly, eval.ringQ.Neg pb ((fresh.Value.getD j none).getD []) = some v) :
    ∃ res : ckks.Element,
      evaluateInPlace eval (some e0) (some e1) (some fresh) Receiver.other isSub evaluate =
        .ok (some res) ∧
      res.scale = max e0.scale e1.scale ∧ res.IsNTT = fresh.IsNTT ∧
      res.Value.length = k + 1 ∧
      ∀ j : Nat, j ≤ k → res.Value[j]? =
        some (evaluateInPlace.combine eval.ringQ isSub evaluate (min (min la lb) lf)
          (e0.Value.getD j none) (e1.Value.getD j none) ((fresh.Value.getD j none).getD [])) := by
  have hd0 : e0.Degree = k := by
    unfold ckks.Element.Degree
    rw [h0]
    omega
  have hd1 : e1.Degree = k := by
    unfold ckks.Element.Degree
    rw [h1]
    omega
  obtain ⟨res, hres, hs, hn, hl, hget⟩ :=
    evaluateInPlace.loop_element eval.ringQ isSub evaluate (min (min la lb) lf) e0 e1 (k + 1) 0
      fresh (by omega) (by omega) (fun j _ hj => hpresent j (by omega))
      (fun hsub j _ hj => hneg hsub j (by omega))
  refine ⟨{ res with scale := max e0.scale e1.scale }, ?_, rfl, hn, ?_, ?_⟩
  · have hL0 : levelOf eval e0 = .ok la := by
      unfold levelOf
      rw [hla]
      rfl
    have hL1 : levelOf eval e1 = .ok lb := by
      unfold levelOf
      rw [hlb]
      rfl
    have hLf : levelOf eval fresh = .ok lf := by
      unfold levelOf
      rw [hlf]
      rfl
    have halign : evaluateInPlace.align eval Receiver.other e0 e1 fresh =
        .ok (Source.element e0, Source.element e1, fresh) := by
      unfold evaluateInPlace.align
      simp only [Receiver.src0, Receiver.src1, Source.read, hscale, gt_iff_lt, lt_self_iff_false,
        if_false]
      rfl
    have hmod : (k + 1) % 2 ^ 64 = k + 1 := Nat.mod_eq_of_lt hk
    have hrun : evaluateInPlace.run eval e0 e1 fresh Receiver.other isSub evaluate =
        .ok { res with scale := max e0.scale e1.scale } := by
      unfold evaluateInPlace.run
      simp only [Receiver.src0, Receiver.src1, Source.read]
      rw [hL0, hL1, hLf, ok_bind, ok_bind, ok_bind]
      rw [hd0, hd1, max_self, min_self, hresize, hLf, ok_bind, ok_bind, ok_bind, hdrop, halign,
        ok_bind, hmod]
      dsimp only
      rw [hres, ok_bind]
      unfold evaluateInPlace.copyRemaining
      rw [if_neg (Nat.lt_irrefl k), if_neg (Nat.lt_irrefl k)]
      rfl
    show (evaluateInPlace.run eval e0 e1 fresh Receiver.other isSub evaluate >>=
      fun eo => pure (some eo)) = _
    rw [hrun]
    rfl
  · show res.Value.length = k + 1
    rw [hl, hf]
  · intro j hj
    show res.Value[j]? = _
    rw [hget j]
    have c : 0 ≤ j ∧ j < 0 + (k + 1) := by omega
    rw [if_pos c]

theorem subUint64_self (x : Nat) : subUint64 x x = 0 := by
  unfold subUint64
  omega

theorem levelOf_of_some (eval : mkEvaluator) (el : ckks.Element) (l : Nat)
    (h : eval.Level el = some l) : levelOf eval el = .ok l := by
  unfold levelOf
  rw [h]
  rfl

theorem Degree_of_length (el : ckks.Element) (k : Nat) (h : el.Value.length = k + 1)
    (hk : k + 1 < 2 ^ 64) : el.Degree = k := by
  unfold ckks.Element.Degree
  rw [h]
  omega

theorem newCiphertextBinary_eq (eval : mkEvaluator) (e0 e1 : ckks.Element) (k la lb : Nat)
    (h0 : e0.Value.length = k + 1) (h1 : e1.Value.length = k + 1) (hk : k + 1 < 2 ^ 64)
    (hla : eval.Level e0 = some la) (hlb : eval.Level e1 = some lb) :
    newCiphertextBinary eval (some e0) (some e1) =
      .ok (eval.NewCiphertext k (min la lb) (max e0.scale e1.scale)) := by
  show (levelOf eval e0 >>= fun l0 => levelOf eval e1 >>= fun l1 =>
    pure (eval.NewCiphertext (max e0.Degree e1.Degree) (min l0 l1) (max e0.scale e1.scale))) = _
  rw [levelOf_of_some eval e0 la hla, levelOf_of_some eval e1 lb hlb, ok_bind, ok_bind,
    Degree_of_length e0 k h0 hk, Degree_of_length e1 k h1 hk, max_self]
  rfl

theorem AddNew_fresh (eval : mkEvaluator) (e0 e1 : ckks.Element) (k la lb : Nat)
    (h0 : e0.Value.length = k + 1) (h1 : e1.Value.length = k + 1) (hk : k + 1 < 2 ^ 64)
    (hscale : e0.scale = e1.scale)
    (hla : eval.Level e0 = some la) (hlb : eval.Level e1 = some lb)
    (hget3 : ∀ a b c, eval.GetThreeElementsckksWithNil a b c = (a, b, c))
    (hfresh : FreshReceiver eval (eval.NewCiphertext k (min la lb) (max e0.scale e1.scale)) k
      (min la lb)) :
    ∃ res : ckks.Element, AddNew eval (some e0) (some e1) = .ok res ∧
      res.scale = max e0.scale e1.scale ∧ res.Value.length = k + 1 ∧
      ∀ j : Nat, j ≤ k → res.Value[j]? =
        some (evaluateInPlace.combine eval.ringQ false eval.ringQ.AddLvl (min la lb)
          (e0.Value.getD j none) (e1.Value.getD j none)
          (((eval.NewCiphertext k (min la lb) (max e0.scale e1.scale)).Value.getD j none).getD
            [])) := by
  obtain ⟨res, hres, hs, _, hl, hget⟩ :=
    evaluateInPlace_fresh eval false eval.ringQ.AddLvl e0 e1 _ k la lb (min la lb) h0 h1
      hfresh.length hk hscale hla hlb hfresh.level hfresh.resize
      (by rw [subUint64_self]; exact hfresh.drop) hfresh.present
      (fun h => Bool.noConfusion h)
  rw [min_self] at hget
  refine ⟨res, ?_, hs, hl, hget⟩
  unfold AddNew
  rw [newCiphertextBinary_eq eval e0 e1 k la lb h0 h1 hk hla hlb]
  show (AddWithNil eval (some e0) (some e1) (some _) Receiver.other >>= fun res => _) = _
  unfold AddWithNil
  simp only [hget3]
  rw [hres]
  rfl

theorem SubNew_fresh (eval : mkEvaluator) (e0 e1 : ckks.Element) (k la lb : Nat)
    (h0 : e0.Value.length = k + 1) (h1 : e1.Value.length = k + 1) (hk : k + 1 < 2 ^ 64)
    (hscale : e0.scale = e1.scale)
    (hla : eval.Level e0 = some la) (hlb : eval.Level e1 = some lb)
    (hget3 : ∀ a b c, eval.GetThreeElementsckksWithNil a b c = (a, b, c))
    (hfresh : FreshReceiver eval (eval.NewCiphertext k (min la lb) (max e0.scale e1.scale)) k
      (min la lb))
    (hlv : ∀ el : ckks.Element, (∃ p : ring.Poly, el.Value[0]? = some (some p)) →
      ∃ l : Nat, eval.Level el = some l)
    (hp0 : ∃ p : ring.Poly, e0.Value[0]? = some (some p))
    (hp1 : ∃ p : ring.Poly, e1.Value[0]? = some (some p))
    (hneg : ∀ j : Nat, j ≤ k → e0.Value.getD j none = none →
      ∀ pb : ring.Poly, e1.Value.getD j none = some pb →
      ∃ v : ring.Poly, eval.ringQ.Neg pb
        (((eval.NewCiphertext k (min la lb) (max e0.scale e1.scale)).Value.getD j none).getD
          []) = some v) :
    ∃ res : ckks.Element, SubNew eval (some e0) (some e1) = .ok res ∧
      res.scale = max e0.scale e1.scale ∧ res.Value.length = k + 1 ∧
      ∀ j : Nat, j ≤ k → res.Value[j]? =
        some (evaluateInPlace.combine eval.ringQ true eval.ringQ.SubLvl (min la lb)
          (e0.Value.getD j none) (e1.Value.getD j none)
          (((eval.NewCiphertext k (min la lb) (max e0.scale e1.scale)).Value.getD j none).getD
            [])) := by
  obtain ⟨res, hres, hs, _, hl, hget⟩ :=
    evaluateInPlace_fresh eval true eval.ringQ.SubLvl e0 e1 _ k la lb (min la lb) h0 h1
      hfresh.length hk hscale hla hlb hfresh.level hfresh.resize
      (by rw [subUint64_self]; exact hfresh.drop) hfresh.present (fun _ => hneg)
  rw [min_self] at hget
  obtain ⟨pa, hpa⟩ := hp0
  obtain ⟨pb, hpb⟩ := hp1
  have hres0 : ∃ p : ring.Poly, res.Value[0]? = some (some p) := by
    rw [hget 0 (Nat.zero_le k)]
    simp only [List.getD_eq_getElem?_getD, hpa, hpb, Option.getD_some, evaluateInPlace.combine]
    exact ⟨_, rfl⟩
  obtain ⟨lr, hlr⟩ := hlv res hres0
  refine ⟨res, ?_, hs, hl, hget⟩
  unfold SubNew
  rw [newCiphertextBinary_eq eval e0 e1 k la lb h0 h1 hk hla hlb]
  show (SubWithNil eval (some e0) (some e1) (some _) Receiver.other >>= fun res => _) = _
  unfold SubWithNil
  simp only [hget3]
  rw [hres, ok_bind]
  simp only [Receiver.src0, Receiver.src1, Source.read]
  rw [levelOf_of_some eval e0 la hla, levelOf_of_some eval e1 lb hlb,
    levelOf_of_some eval res lr hlr, ok_bind, ok_bind, ok_bind,
    Degree_of_length e0 k h0 hk, Degree_of_length e1 k h1 hk, if_neg (Nat.lt_irrefl k)]
  rfl

theorem Add_eq (eval : mkEvaluator) (c0 c1 padded1 padded2 : MKCiphertext)
    (hpad : eval.PadCiphers c0 c1 = (padded1, padded2)) (k la lb : Nat)
    (h0 : padded1.Ciphertexts.Value.length = k + 1)
    (h1 : padded2.Ciphertexts.Value.length = k + 1) (hk : k + 1 < 2 ^ 64)
    (hscale : padded1.Ciphertexts.scale = padded2.Ciphertexts.scale)
    (hla : eval.Level padded1.Ciphertexts = some la)
    (hlb : eval.Level padded2.Ciphertexts = some lb)
    (hget3 : ∀ a b c, eval.GetThreeElementsckksWithNil a b c = (a, b, c))
    (hfresh : FreshReceiver eval (eval.NewCiphertext k (min la lb)
      (max padded1.Ciphertexts.scale padded2.Ciphertexts.scale)) k (min la lb)) :
    ∃ out : MKCiphertext, Add eval c0 c1 = .ok out ∧
      out.Ciphertexts.scale = max padded1.Ciphertexts.scale padded2.Ciphertexts.scale ∧
      out.Ciphertexts.Value.length = k + 1 ∧
      ∀ j : Nat, j ≤ k → out.Ciphertexts.Value[j]? =
        some (evaluateInPlace.combine eval.ringQ false eval.ringQ.AddLvl (min la lb)
          (padded1.Ciphertexts.Value.getD j none) (padded2.Ciphertexts.Value.getD j none)
          (((eval.NewCiphertext k (min la lb)
            (max padded1.Ciphertexts.scale padded2.Ciphertexts.scale)).Value.getD j none).getD
            [])) := by
  obtain ⟨res, hres, hs, hl, hget⟩ :=
    AddNew_fresh eval padded1.Ciphertexts padded2.Ciphertexts k la lb h0 h1 hk hscale hla hlb
      hget3 hfresh
  refine ⟨{ eval.NewMKCiphertext padded1.PeerID la c0.Ciphertexts.scale with Ciphertexts := res },
    ?_, hs, hl, hget⟩
  unfold Add
  rw [hpad]
  show (levelOf eval padded1.Ciphertexts >>= fun level =>
    AddNew eval (some padded1.Ciphertexts) (some padded2.Ciphertexts) >>= fun ct => _) = _
  rw [levelOf_of_some eval _ la hla, ok_bind, hres]
  rfl

theorem Sub_eq (eval : mkEvaluator) (c0 c1 padded1 padded2 : MKCiphertext)
    (hpad : eval.PadCiphers c0 c1 = (padded1, padded2)) (k la lb : Nat)
    (h0 : padded1.Ciphertexts.Value.length = k + 1)
    (h1 : padded2.Ciphertexts.Value.length = k + 1) (hk : k + 1 < 2 ^ 64)
    (hscale : padded1.Ciphertexts.scale = padded2.Ciphertexts.scale)
    (hla : eval.Level padded1.Ciphertexts = some la)
    (hlb : eval.Level padded2.Ciphertexts = some lb)
    (hget3 : ∀ a b c, eval.GetThreeElementsckksWithNil a b c = (a, b, c))
    (hfresh : FreshReceiver eval (eval.NewCiphertext k (min la lb)
      (max padded1.Ciphertexts.scale padded2.Ciphertexts.scale)) k (min la lb))
    (hlv : ∀ el : ckks.Element, (∃ p : ring.Poly, el.Value[0]? = some (some p)) →
      ∃ l : Nat, eval.Level el = some l)
    (hp0 : ∃ p : ring.Poly, padded1.Ciphertexts.Value[0]? = some (some p))
    (hp1 : ∃ p : ring.Poly, padded2.Ciphertexts.Value[0]? = some (some p))
    (hneg : ∀ j : Nat, j ≤ k → padded1.Ciphertexts.Value.getD j none = none →
      ∀ pb : ring.Poly, padded2.Ciphertexts.Value.getD j none = some pb →
      ∃ v : ring.Poly, eval.ringQ.Neg pb
        (((eval.NewCiphertext k (min la lb)
          (max padded1.Ciphertexts.scale padded2.Ciphertexts.scale)).Value.getD j none).getD
          []) = some v) :
    ∃ out : MKCiphertext, Sub eval c0 c1 = .ok out ∧
      out.Ciphertexts.scale = max padded1.Ciphertexts.scale padded2.Ciphertexts.scale ∧
      out.Ciphertexts.Value.length = k + 1 ∧
      ∀ j : Nat, j ≤ k → out.Ciphertexts.Value[j]? =
        some (evaluateInPlace.combine eval.ringQ true eval.ringQ.SubLvl (min la lb)
          (padded1.Ciphertexts.Value.getD j none) (padded2.Ciphertexts.Value.getD j none)
          (((eval.NewCiphertext k (min la lb)
            (max padded1.Ciphertexts.scale padded2.Ciphertexts.scale)).Value.getD j none).getD
            [])) := by
  obtain ⟨res, hres, hs, hl, hget⟩ :=
    SubNew_fresh eval padded1.Ciphertexts padded2.Ciphertexts k la lb h0 h1 hk hscale hla hlb
      hget3 hfresh hlv hp0 hp1 hneg
  refine ⟨{ eval.NewMKCiphertext padded1.PeerID la padded1.Ciphertexts.scale with
    Ciphertexts := res }, ?_, hs, hl, hget⟩
  unfold Sub
  rw [hpad]
  show (levelOf eval padded1.Ciphertexts >>= fun level =>
    SubNew eval (some padded1.Ciphertexts) (some padded2.Ciphertexts) >>= fun ct => _) = _
  rw [levelOf_of_some eval _ la hla, ok_bind, hres]
  rfl

theorem exactEvaluator_fresh (N : Nat) (moduli : List Nat) (k level : Nat) (s : ℚ) :
    FreshReceiver (exactEvaluator N moduli) ((exactEvaluator N moduli).NewCiphertext k level s)
      k level := by
  refine ⟨?_, ?_, ?_, ?_, ?_⟩
  · show (List.replicate (k + 1) (some (zeroPolyLvl N level))).length = k + 1
    exact List.length_replicate _ _
  · show rowLevel (exactNewCiphertext N k level s) = some level
    simp [rowLevel, ckks.Element.rows?, exactNewCiphertext, zeroPolyLvl, List.replicate_succ]
  · show ({ exactNewCiphertext N k level s with
      Value := (exactNewCiphertext N k level s).Value.take (k + 1) ++
        List.replicate (k + 1 - (exactNewCiphertext N k level s).Value.length)
          (some (zeroPolyLvl N ((rowLevel (exactNewCiphertext N k level s)).getD 0))) } :
        ckks.Element) = exactNewCiphertext N k level s
    simp [exactNewCiphertext]
  · show ({ exactNewCiphertext N k level s with
      Value := (exactNewCiphertext N k level s).Value.map
        (Option.map fun p => p.take (p.length - 0)) } : ckks.Element) =
        exactNewCiphertext N k level s
    simp [exactNewCiphertext]
  · intro j hj
    refine ⟨zeroPolyLvl N level, ?_⟩
    show (List.replicate (k + 1) (some (zeroPolyLvl N level)))[j]? = _
    rw [List.getElem?_replicate]
    simp
    omega

theorem exactEvaluator_level (N : Nat) (moduli : List Nat) (el : ckks.Element)
    (h : ∃ p : ring.Poly, el.Value[0]? = some (some p)) :
    ∃ l : Nat, (exactEvaluator N moduli).Level el = some l := by
  obtain ⟨p, hp⟩ := h
  refine ⟨p.length - 1, ?_⟩
  show rowLevel el = _
  simp [rowLevel, ckks.Element.rows?, List.getD_eq_getElem?_getD, hp]

/-- C9: `Add` on two padded operands of equal scale with `k+1` parts each returns a ciphertext
whose part `i` is absent when both parts `i` are absent, is the part of the operand that has one
when exactly one is absent (no ring operation is applied), and is the ring sum `AddLvl` of the two
parts at the common level `min level_a level_b`, written into the fresh part of the receiver, when
both are present. -/
theorem Add_parts (eval : mkEvaluator) (c0 c1 padded1 padded2 : MKCiphertext)
    (hpad : eval.PadCiphers c0 c1 = (padded1, padded2)) (k la lb : Nat)
    (h0 : padded1.Ciphertexts.Value.length = k + 1)
    (h1 : padded2.Ciphertexts.Value.length = k + 1) (hk : k + 1 < 2 ^ 64)
    (hscale : padded1.Ciphertexts.scale = padded2.Ciphertexts.scale)
    (hla : eval.Level padded1.Ciphertexts = some la)
    (hlb : eval.Level padded2.Ciphertexts = some lb)
    (hget3 : ∀ a b c, eval.GetThreeElementsckksWithNil a b c = (a, b, c))
    (hfresh : FreshReceiver eval (eval.NewCiphertext k (min la lb)
      (max padded1.Ciphertexts.scale padded2.Ciphertexts.scale)) k (min la lb))
    (i : Nat) (hi : i ≤ k) :
    ∃ out : MKCiphertext, Add eval c0 c1 = .ok out ∧
      (padded1.Ciphertexts.Value.getD i none = none →
        padded2.Ciphertexts.Value.getD i none = none →
        out.Ciphertexts.Value[i]? = some none) ∧
      (∀ p : ring.Poly, padded1.Ciphertexts.Value.getD i none = none →
        padded2.Ciphertexts.Value.getD i none = some p →
        out.Ciphertexts.Value[i]? = some (some p)) ∧
      (∀ p : ring.Poly, padded1.Ciphertexts.Value.getD i none = some p →
        padded2.Ciphertexts.Value.getD i none = none →
        out.Ciphertexts.Value[i]? = some (some p)) ∧
      (∀ pa pb : ring.Poly, padded1.Ciphertexts.Value.getD i none = some pa →
        padded2.Ciphertexts.Value.getD i none = some pb →
        ∃ po : ring.Poly,
          (eval.NewCiphertext k (min la lb)
            (max padded1.Ciphertexts.scale padded2.Ciphertexts.scale)).Value[i]? =
              some (some po) ∧
          out.Ciphertexts.Value[i]? = some (some (eval.ringQ.AddLvl (min la lb) pa pb po))) := by
  obtain ⟨out, hout, _, _, hget⟩ :=
    Add_eq eval c0 c1 padded1 padded2 hpad k la lb h0 h1 hk hscale hla hlb hget3 hfresh
  obtain ⟨po, hpo⟩ := hfresh.present i hi
  refine ⟨out, hout, ?_, ?_, ?_, ?_⟩
  · intro ha hb
    rw [hget i hi, ha, hb]
    rfl
  · intro p ha hb
    rw [hget i hi, ha, hb]
    rfl
  · intro p ha hb
    rw [hget i hi, ha, hb]
    rfl
  · intro pa pb ha hb
    refine ⟨po, hpo, ?_⟩
    rw [hget i hi, ha, hb, List.getD_eq_getElem?_getD, hpo]
    rfl

theorem Add_parts_witness :
    ∃ out : MKCiphertext, Add (exactEvaluator 2 [7, 11]) sampleC sampleD = .ok out ∧
      (sampleC.Ciphertexts.Value.getD 1 none = none →
        sampleD.Ciphertexts.Value.getD 1 none = none →
        out.Ciphertexts.Value[1]? = some none) ∧
      (∀ p : ring.Poly, sampleC.Ciphertexts.Value.getD 1 none = none →
        sampleD.Ciphertexts.Value.getD 1 none = some p →
        out.Ciphertexts.Value[1]? = some (some p)) ∧
      (∀ p : ring.Poly, sampleC.Ciphertexts.Value.getD 1 none = some p →
        sampleD.Ciphertexts.Value.getD 1 none = none →
        out.Ciphertexts.Value[1]? = some (some p)) ∧
      (∀ pa pb : ring.Poly, sampleC.Ciphertexts.Value.getD 1 none = some pa →
        sampleD.Ciphertexts.Value.getD 1 none = some pb →
        ∃ po : ring.Poly,
          ((exactEvaluator 2 [7, 11]).NewCiphertext 3 (min 0 0)
            (max sampleC.Ciphertexts.scale sampleD.Ciphertexts.scale)).Value[1]? =
              some (some po) ∧
          out.Ciphertexts.Value[1]? =
            some (some ((exactEvaluator 2 [7, 11]).ringQ.AddLvl (min 0 0) pa pb po))) :=
  Add_parts (exactEvaluator 2 [7, 11]) sampleC sampleD sampleC sampleD rfl 3 0 0 rfl rfl
    (by norm_num) rfl rfl rfl (fun _ _ _ => rfl) (exactEvaluator_fresh 2 [7, 11] 3 (min 0 0) _)
    1 (by decide)

theorem exactRing_Neg_one_modulus (N q : Nat) (pb po : ring.Poly) (hb : 1 ≤ pb.length)
    (ho : 1 ≤ po.length) :
    ∃ v : ring.Poly, (ring.exactRing N [q]).Neg pb po = some v := by
  refine ⟨ring.exactLvl N [q] (fun q a _ => ring.negCoeff q a) 0 pb pb po, ?_⟩
  show (if ([q] : List Nat).length = 0 then some po
    else if ([q] : List Nat).length ≤ pb.length ∧ ([q] : List Nat).length ≤ po.length then
      some (ring.exactLvl N [q] (fun q a _ => ring.negCoeff q a) (([q] : List Nat).length - 1)
        pb pb po)
    else none) = _
  rw [if_neg (by simp), if_pos ⟨hb, ho⟩]
  rfl

theorem neg_completes_on_one_modulus (N q : Nat) (e0 e1 : ckks.Element) (k level : Nat) (s : ℚ)
    (hrows : ∀ o ∈ e1.Value, ∀ p : ring.Poly, o = some p → 1 ≤ p.length) :
    ∀ j : Nat, j ≤ k → e0.Value.getD j none = none →
      ∀ pb : ring.Poly, e1.Value.getD j none = some pb →
      ∃ v : ring.Poly, (exactEvaluator N [q]).ringQ.Neg pb
        ((((exactEvaluator N [q]).NewCiphertext k level s).Value.getD j none).getD []) =
          some v := by
  intro j hj _ pb hpb
  have hfresh : (((exactEvaluator N [q]).NewCiphertext k level s).Value.getD j none).getD [] =
      zeroPolyLvl N level := by
    show ((List.replicate (k + 1) (some (zeroPolyLvl N level))).getD j none).getD [] = _
    rw [List.getD_eq_getElem?_getD, List.getElem?_replicate, if_pos (by omega)]
    rfl
  rw [hfresh]
  have hlen : 1 ≤ pb.length := by
    rw [List.getD_eq_getElem?_getD] at hpb
    by_cases hlt : j < e1.Value.length
    · rw [List.getElem?_eq_getElem hlt] at hpb
      exact hrows _ (List.getElem_mem hlt) pb hpb
    · rw [List.getElem?_eq_none (by omega)] at hpb
      exact Option.noConfusion hpb
  exact exactRing_Neg_one_modulus N q pb (zeroPolyLvl N level) hlen
    (by show 1 ≤ (List.replicate (level + 1) (List.replicate N 0)).length
        rw [List.length_replicate]
        omega)

/-- C10, as the code has it: `Sub` on two padded operands of equal scale with `k+1` parts each
(part 0 of both present, so that the level of the result can be read), on which the non-leveled
negation `Neg` completes wherever only the first operand's part is absent, returns a ciphertext
whose part `i` is absent when both parts `i` are absent, is the ring negation `Neg` of the second
operand's part when only the first one is absent, is the first operand's part itself when only the
second one is absent, and is the ring difference `SubLvl` first minus second at the common level
when both are present. -/
theorem Sub_parts (eval : mkEvaluator) (c0 c1 padded1 padded2 : MKCiphertext)
    (hpad : eval.PadCiphers c0 c1 = (padded1, padded2)) (k la lb : Nat)
    (h0 : padded1.Ciphertexts.Value.length = k + 1)
    (h1 : padded2.Ciphertexts.Value.length = k + 1) (hk : k + 1 < 2 ^ 64)
    (hscale : padded1.Ciphertexts.scale = padded2.Ciphertexts.scale)
    (hla : eval.Level padded1.Ciphertexts = some la)
    (hlb : eval.Level padded2.Ciphertexts = some lb)
    (hget3 : ∀ a b c, eval.GetThreeElementsckksWithNil a b c = (a, b, c))
    (hfresh : FreshReceiver eval (eval.NewCiphertext k (min la lb)
      (max padded1.Ciphertexts.scale padded2.Ciphertexts.scale)) k (min la lb))
    (hlv : ∀ el : ckks.Element, (∃ p : ring.Poly, el.Value[0]? = some (some p)) →
      ∃ l : Nat, eval.Level el = some l)
    (hp0 : ∃ p : ring.Poly, padded1.Ciphertexts.Value[0]? = some (some p))
    (hp1 : ∃ p : ring.Poly, padded2.Ciphertexts.Value[0]? = some (some p))
    (hneg : ∀ j : Nat, j ≤ k → padded1.Ciphertexts.Value.getD j none = none →
      ∀ pb : ring.Poly, padded2.Ciphertexts.Value.getD j none = some pb →
      ∃ v : ring.Poly, eval.ringQ.Neg pb
        (((eval.NewCiphertext k (min la lb)
          (max padded1.Ciphertexts.scale padded2.Ciphertexts.scale)).Value.getD j none).getD
          []) = some v)
    (i : Nat) (hi : i ≤ k) :
    ∃ out : MKCiphertext, Sub eval c0 c1 = .ok out ∧
      (padded1.Ciphertexts.Value.getD i none = none →
        padded2.Ciphertexts.Value.getD i none = none →
        out.Ciphertexts.Value[i]? = some none) ∧
      (∀ pb : ring.Poly, padded1.Ciphertexts.Value.getD i none = none →
        padded2.Ciphertexts.Value.getD i none = some pb →
        ∃ po v : ring.Poly,
          (eval.NewCiphertext k (min la lb)
            (max padded1.Ciphertexts.scale padded2.Ciphertexts.scale)).Value[i]? =
              some (some po) ∧
          eval.ringQ.Neg pb po = some v ∧
          out.Ciphertexts.Value[i]? = some (some v)) ∧
      (∀ pa : ring.Poly, padded1.Ciphertexts.Value.getD i none = some pa →
        padded2.Ciphertexts.Value.getD i none = none →
        out.Ciphertexts.Value[i]? = some (some pa)) ∧
      (∀ pa pb : ring.Poly, padded1.Ciphertexts.Value.getD i none = some pa →
        padded2.Ciphertexts.Value.getD i none = some pb →
        ∃ po : ring.Poly,
          (eval.NewCiphertext k (min la lb)
            (max padded1.Ciphertexts.scale padded2.Ciphertexts.scale)).Value[i]? =
              some (some po) ∧
          out.Ciphertexts.Value[i]? = some (some (eval.ringQ.SubLvl (min la lb) pa pb po))) := by
  obtain ⟨out, hout, _, _, hget⟩ :=
    Sub_eq eval c0 c1 padded1 padded2 hpad k la lb h0 h1 hk hscale hla hlb hget3 hfresh hlv
      hp0 hp1 hneg
  obtain ⟨po, hpo⟩ := hfresh.present i hi
  refine ⟨out, hout, ?_, ?_, ?_, ?_⟩
  · intro ha hb
    rw [hget i hi, ha, hb]
    rfl
  · intro pb ha hb
    obtain ⟨v, hv⟩ := hneg i hi ha pb hb
    rw [List.getD_eq_getElem?_getD, hpo] at hv
    have hv2 : eval.ringQ.Neg pb po = some v := hv
    refine ⟨po, v, hpo, hv2, ?_⟩
    rw [hget i hi, ha, hb, List.getD_eq_getElem?_getD, hpo]
    show some (some ((eval.ringQ.Neg pb po).getD po)) = _
    rw [hv2]
    rfl
  · intro pa ha hb
    rw [hget i hi, ha, hb]
    rfl
  · intro pa pb ha hb
    refine ⟨po, hpo, ?_⟩
    rw [hget i hi, ha, hb, List.getD_eq_getElem?_getD, hpo]
    rfl

theorem Sub_parts_witness :
    ∃ out : MKCiphertext, Sub (exactEvaluator 2 [7]) sampleC sampleD = .ok out ∧
      (sampleC.Ciphertexts.Value.getD 1 none = none →
        sampleD.Ciphertexts.Value.getD 1 none = none →
        out.Ciphertexts.Value[1]? = some none) ∧
      (∀ pb : ring.Poly, sampleC.Ciphertexts.Value.getD 1 none = none →
        sampleD.Ciphertexts.Value.getD 1 none = some pb →
        ∃ po v : ring.Poly,
          ((exactEvaluator 2 [7]).NewCiphertext 3 (min 0 0)
            (max sampleC.Ciphertexts.scale sampleD.Ciphertexts.scale)).Value[1]? =
              some (some po) ∧
          (exactEvaluator 2 [7]).ringQ.Neg pb po = some v ∧
          out.Ciphertexts.Value[1]? = some (some v)) ∧
      (∀ pa : ring.Poly, sampleC.Ciphertexts.Value.getD 1 none = some pa →
        sampleD.Ciphertexts.Value.getD 1 none = none →
        out.Ciphertexts.Value[1]? = some (some pa)) ∧
      (∀ pa pb : ring.Poly, sampleC.Ciphertexts.Value.getD 1 none = some pa →
        sampleD.Ciphertexts.Value.getD 1 none = some pb →
        ∃ po : ring.Poly,
          ((exactEvaluator 2 [7]).NewCiphertext 3 (min 0 0)
            (max sampleC.Ciphertexts.scale sampleD.Ciphertexts.scale)).Value[1]? =
              some (some po) ∧
          out.Ciphertexts.Value[1]? =
            some (some ((exactEvaluator 2 [7]).ringQ.SubLvl (min 0 0) pa pb po))) ∧
      sampleC.Ciphertexts.Value.getD 1 none = none ∧
      sampleD.Ciphertexts.Value.getD 1 none = some [[1, 2]] ∧
      out.Ciphertexts.Value[1]? = some (some [[6, 5]]) := by
  obtain ⟨out, hout, h1, h2, h3, h4⟩ :=
    Sub_parts (exactEvaluator 2 [7]) sampleC sampleD sampleC sampleD rfl 3 0 0 rfl rfl
      (by norm_num) rfl rfl rfl (fun _ _ _ => rfl) (exactEvaluator_fresh 2 [7] 3 (min 0 0) _)
      (exactEvaluator_level 2 [7]) ⟨_, rfl⟩ ⟨_, rfl⟩
      (neg_completes_on_one_modulus 2 7 sampleC.Ciphertexts sampleD.Ciphertexts 3 _ _
        (by simp [sampleD])) 1 (by decide)
  refine ⟨out, hout, h1, h2, h3, h4, rfl, rfl, ?_⟩
  obtain ⟨po, v, hpo, hv, hres⟩ := h2 [[1, 2]] rfl rfl
  have hpo2 : po = [[0, 0]] := by
    have h5 : (some (some ([[0, 0]] : ring.Poly)) : Option (Option ring.Poly)) =
        some (some po) := hpo
    injection h5 with h6
    injection h6 with h7
    exact h7.symm
  subst hpo2
  have hv2 : (some [[6, 5]] : Option ring.Poly) = some v := hv
  injection hv2 with hv3
  rw [hres, hv3]

/-- C10 fails as stated: in `Sub sampleD sampleC`, over the single modulus 7, part 1 of the first
operand is present and part 1 of the second operand is absent, and part 1 of the result is the
present part `[[1, 2]]` itself, which is not its ring negation: the negation of `[[1, 2]]` into
the fresh part of the receiver is `[[6, 5]]`, and into no receiver is it `[[1, 2]]`. -/
theorem Sub_second_absent_not_negated :
    ∃ out : MKCiphertext, Sub (exactEvaluator 2 [7]) sampleD sampleC = .ok out ∧
      sampleD.Ciphertexts.Value.getD 1 none = some [[1, 2]] ∧
      sampleC.Ciphertexts.Value.getD 1 none = none ∧
      out.Ciphertexts.Value[1]? = some (some [[1, 2]]) ∧
      (exactEvaluator 2 [7]).ringQ.Neg [[1, 2]] [[0, 0]] = some [[6, 5]] ∧
      ∀ po v : ring.Poly, (exactEvaluator 2 [7]).ringQ.Neg [[1, 2]] po = some v →
        out.Ciphertexts.Value[1]? ≠ some (some v) := by
  obtain ⟨out, hout, _, _, hget⟩ :=
    Sub_eq (exactEvaluator 2 [7]) sampleD sampleC sampleD sampleC rfl 3 0 0 rfl rfl
      (by norm_num) rfl rfl rfl (fun _ _ _ => rfl)
      (exactEvaluator_fresh 2 [7] 3 (min 0 0) _) (exactEvaluator_level 2 [7])
      ⟨_, rfl⟩ ⟨_, rfl⟩
      (neg_completes_on_one_modulus 2 7 sampleD.Ciphertexts sampleC.Ciphertexts 3 _ _
        (by simp [sampleC]))
  have h1 : out.Ciphertexts.Value[1]? = some (some [[1, 2]]) := by
    rw [hget 1 (by decide)]
    rfl
  refine ⟨out, hout, rfl, rfl, h1, rfl, ?_⟩
  intro po v hv hout1
  rw [h1] at hout1
  have hv2 : v = [[1, 2]] := by
    injection hout1 with h3
    injection h3 with h4
    exact h4.symm
  subst hv2
  have hv3 : (if ([7] : List Nat).length = 0 then some po
      else if ([7] : List Nat).length ≤ ([[1, 2]] : ring.Poly).length ∧
          ([7] : List Nat).length ≤ po.length then
        some (ring.exactLvl 2 [7] (fun q a _ => ring.negCoeff q a) (([7] : List Nat).length - 1)
          [[1, 2]] [[1, 2]] po)
      else none) = some [[1, 2]] := hv
  rw [if_neg (by decide)] at hv3
  split at hv3
  · injection hv3 with h5
    have hc := congrArg (fun p => ring.Poly.coeff p 0 0) h5
    dsimp only at hc
    rw [ring.coeff_exactLvl 2 [7] _ _ _ _ po 0 0 (by decide) (by decide)] at hc
    exact absurd hc (by decide)
  · exact Option.noConfusion hv3

end mkckks

namespace rlwe

open GadgetProductNoModDown in
theorem GadgetProductNoModDown.congruent_reduceQ (r : RingQP) (hex : r.Exact)
    (ct : CiphertextQP) (S : Bool → Bool → Nat → Nat → Nat) (h : Congruent r ct S) :
    Congruent r (reduceQ r ct) S := by
  intro b isP u k hu hk
  cases isP with
  | true =>
    cases b with
    | false => exact h false true u k hu hk
    | true => exact h true true u k hu hk
  | false =>
    cases b with
    | false =>
      exact (hex.reduce ct.Value.1.Q ct.Value.1.Q false u k hu hk).trans
        (h false false u k hu hk)
    | true =>
      exact (hex.reduce ct.Value.2.Q ct.Value.2.Q false u k hu hk).trans
        (h true false u k hu hk)

open GadgetProductNoModDown in
theorem GadgetProductNoModDown.congruent_reduceP (r : RingQP) (hex : r.Exact)
    (ct : CiphertextQP) (S : Bool → Bool → Nat → Nat → Nat) (h : Congruent r ct S) :
    Congruent r (reduceP r ct) S := by
  intro b isP u k hu hk
  cases isP with
  | false =>
    cases b with
    | false => exact h false false u k hu hk
    | true => exact h true false u k hu hk
  | true =>
    cases b with
    | false =>
      exact (hex.reduce ct.Value.1.P ct.Value.1.P true u k hu hk).trans
        (h false true u k hu hk)
    | true =>
      exact (hex.reduce ct.Value.2.P ct.Value.2.P true u k hu hk).trans
        (h true true u k hu hk)

theorem GadgetProductNoModDown.periodic_ok (OverF : Int) (reduce : Nat)
    (red : CiphertextQP → CiphertextQP) (ct : CiphertextQP) (h : OverF ≠ 0) :
    ∃ ct' : CiphertextQP, GadgetProductNoModDown.periodic OverF reduce red ct = .ok ct' ∧
      (ct' = red ct ∨ ct' = ct) := by
  unfold GadgetProductNoModDown.periodic
  rw [if_neg h]
  by_cases h2 : (reduce : Int) % OverF = OverF - 1
  · rw [if_pos h2]
    exact ⟨red ct, rfl, Or.inl rfl⟩
  · rw [if_neg h2]
    exact ⟨ct, rfl, Or.inr rfl⟩

theorem GadgetProductNoModDown.last_ok (OverF : Int) (reduce : Nat)
    (red : CiphertextQP → CiphertextQP) (ct : CiphertextQP) (h : OverF ≠ 0) :
    ∃ ct' : CiphertextQP, GadgetProductNoModDown.last OverF reduce red ct = .ok ct' ∧
      (ct' = red ct ∨ ct' = ct) := by
  unfold GadgetProductNoModDown.last
  rw [if_neg h]
  by_cases h2 : (reduce : Int) % OverF ≠ 0
  · rw [if_pos h2]
    exact ⟨red ct, rfl, Or.inl rfl⟩
  · rw [if_neg h2]
    exact ⟨ct, rfl, Or.inr rfl⟩

open GadgetProductNoModDown in
theorem GadgetProductNoModDown.congruent_accumulate (r : RingQP) (hex : r.Exact) (i : Nat)
    (cell : CiphertextQP) (c2QP : PolyQP) (ct : CiphertextQP)
    (S : Bool → Bool → Nat → Nat → Nat) (h : i ≠ 0 → Congruent r ct S)
    (hS : i = 0 → ∀ b isP u k, S b isP u k = 0) :
    Congruent r (accumulate r i cell c2QP ct) (fun b isP u k =>
      S b isP u k + ((cell.value b).part isP).coeff u k * (c2QP.part isP).coeff u k) := by
  intro b isP u k hu hk
  unfold accumulate
  by_cases hi : i = 0
  · rw [if_pos hi]
    show _ ≡ S b isP u k + _ [MOD _]
    rw [hS hi b isP u k, Nat.zero_add]
    cases b with
    | false => exact hex.mul cell.Value.1 c2QP ct.Value.1 isP u k hu hk
    | true => exact hex.mul cell.Value.2 c2QP ct.Value.2 isP u k hu hk
  · rw [if_neg hi]
    cases b with
    | false =>
      exact (hex.mulAdd cell.Value.1 c2QP ct.Value.1 isP u k hu hk).trans
        (Nat.ModEq.add_right _ (h hi false isP u k hu hk))
    | true =>
      exact (hex.mulAdd cell.Value.2 c2QP ct.Value.2 isP u k hu hk).trans
        (Nat.ModEq.add_right _ (h hi true isP u k hu hk))

theorem GadgetProductNoModDown.dot_succ (eval : Evaluator) (levelQ levelP : Int)
    (cxNTT cxInvNTT : ring.Poly) (gadgetCt : GadgetCiphertext) (n : Nat) (b isP : Bool)
    (u k : Nat) (cell : CiphertextQP) (hc : gadgetCt.cell? n 0 = some cell) :
    GadgetProductNoModDown.dot eval levelQ levelP cxNTT cxInvNTT gadgetCt (n + 1) b isP u k =
      GadgetProductNoModDown.dot eval levelQ levelP cxNTT cxInvNTT gadgetCt n b isP u k +
        ((cell.value b).part isP).coeff u k *
          ((GadgetProductNoModDown.digit eval levelQ levelP cxNTT cxInvNTT n).part isP).coeff
            u k := by
  unfold GadgetProductNoModDown.dot
  rw [List.range_succ, List.map_append, List.sum_append]
  simp only [List.map_cons, List.map_nil, List.sum_cons, List.sum_nil, Nat.add_zero, hc]

open GadgetProductNoModDown in
theorem GadgetProductNoModDown.loop_congruent (eval : Evaluator) (r : RingQP) (hex : r.Exact)
    (levelQ levelP : Int) (cxNTT cxInvNTT : ring.Poly) (gadgetCt : GadgetCiphertext)
    (QiOverF PiOverF : Int) (hq : QiOverF ≠ 0) (hp : PiOverF ≠ 0) :
    ∀ (n i reduce : Nat) (ct : CiphertextQP),
      (∀ j : Nat, i ≤ j → j < i + n → ∃ cell, gadgetCt.cell? j 0 = some cell) →
      (i ≠ 0 → Congruent r ct (dot eval levelQ levelP cxNTT cxInvNTT gadgetCt i)) →
      ∃ ct' : CiphertextQP,
        loop eval r levelQ levelP cxNTT cxInvNTT gadgetCt QiOverF PiOverF n i reduce
          (bufferAt eval levelQ levelP cxNTT cxInvNTT i) ct = .ok (reduce + n, ct') ∧
        (i + n ≠ 0 →
          Congruent r ct' (dot eval levelQ levelP cxNTT cxInvNTT gadgetCt (i + n))) := by
  intro n
  induction n with
  | zero =>
    intro i reduce ct _ h
    exact ⟨ct, rfl, h⟩
  | succ n ih =>
    intro i reduce ct hcell h
    obtain ⟨cell, hc⟩ := hcell i (Nat.le_refl i) (by omega)
    have hdig : decompose eval levelQ levelP cxNTT cxInvNTT i
        (bufferAt eval levelQ levelP cxNTT cxInvNTT i) =
        bufferAt eval levelQ levelP cxNTT cxInvNTT (i + 1) := by
      cases i <;> rfl
    have hacc : Congruent r
        (accumulate r i cell (bufferAt eval levelQ levelP cxNTT cxInvNTT (i + 1)) ct)
        (dot eval levelQ levelP cxNTT cxInvNTT gadgetCt (i + 1)) := by
      have h1 := congruent_accumulate r hex i cell
        (bufferAt eval levelQ levelP cxNTT cxInvNTT (i + 1)) ct
        (dot eval levelQ levelP cxNTT cxInvNTT gadgetCt i) h
        (fun hi b isP u k => by subst hi; rfl)
      intro b isP u k hu hk
      rw [dot_succ eval levelQ levelP cxNTT cxInvNTT gadgetCt i b isP u k cell hc]
      exact h1 b isP u k hu hk
    obtain ⟨ct1, hct1, hor1⟩ := periodic_ok QiOverF reduce (reduceQ r)
      (accumulate r i cell (bufferAt eval levelQ levelP cxNTT cxInvNTT (i + 1)) ct) hq
    have h1 : Congruent r ct1 (dot eval levelQ levelP cxNTT cxInvNTT gadgetCt (i + 1)) := by
      rcases hor1 with e | e
      · rw [e]
        exact congruent_reduceQ r hex _ _ hacc
      · rw [e]
        exact hacc
    obtain ⟨ct2, hct2, hor2⟩ := periodic_ok PiOverF reduce (reduceP r) ct1 hp
    have h2 : Congruent r ct2 (dot eval levelQ levelP cxNTT cxInvNTT gadgetCt (i + 1)) := by
      rcases hor2 with e | e
      · rw [e]
        exact congruent_reduceP r hex _ _ h1
      · rw [e]
        exact h1
    obtain ⟨ct', hct', hfin⟩ := ih (i + 1) (reduce + 1) ct2
      (fun j hj1 hj2 => hcell j (by omega) (by omega)) (fun _ => h2)
    refine ⟨ct', ?_, ?_⟩
    · unfold loop
      simp only [hdig, hc]
      rw [hct1, mkckks.ok_bind_any, hct2, mkckks.ok_bind_any, hct']
      have e : reduce + 1 + n = reduce + (n + 1) := by omega
      rw [e]
    · intro _
      have e : i + (n + 1) = i + 1 + n := by omega
      rw [e]
      exact hfin (by omega)

theorem coeff_table (rows N : Nat) (g : Nat → Nat → Nat) (u k : Nat) (hu : u < rows)
    (hk : k < N) :
    ring.Poly.coeff ((List.range rows).map fun u => (List.range N).map fun k => g u k) u k =
      g u k := by
  have hrow : ((List.range rows).map fun u => (List.range N).map fun k => g u k).getD u [] =
      (List.range N).map fun k => g u k := by
    rw [List.getD_eq_getElem?_getD, List.getElem?_map, List.getElem?_range hu]
    rfl
  unfold ring.Poly.coeff
  rw [hrow, List.getD_eq_getElem?_getD, List.getElem?_map, List.getElem?_range hk]
  rfl

theorem exactRingQP_exact (N : Nat) (moduliQ moduliP : List Nat) :
    (exactRingQP N moduliQ moduliP).Exact := by
  refine ⟨?_, ?_, ?_⟩
  · intro a b out isP u k hu hk
    cases isP with
    | false =>
      show (ring.exactLvl N moduliQ (fun q x y => (x * y) % q) (moduliQ.length - 1) a.Q b.Q
        out.Q).coeff u k ≡ a.Q.coeff u k * b.Q.coeff u k [MOD moduliQ.getD u 1]
      have hu2 : u < moduliQ.length := hu
      rw [ring.coeff_exactLvl N moduliQ _ _ _ _ _ u k (by omega) hk]
      exact Nat.mod_modEq _ _
    | true =>
      show (ring.exactLvl N moduliP (fun q x y => (x * y) % q) (moduliP.length - 1) a.P b.P
        out.P).coeff u k ≡ a.P.coeff u k * b.P.coeff u k [MOD moduliP.getD u 1]
      have hu2 : u < moduliP.length := hu
      rw [ring.coeff_exactLvl N moduliP _ _ _ _ _ u k (by omega) hk]
      exact Nat.mod_modEq _ _
  · intro a b out isP u k hu hk
    cases isP with
    | false =>
      show ring.Poly.coeff ((List.range moduliQ.length).map fun u => (List.range N).map fun k =>
        out.Q.coeff u k + (a.Q.coeff u k * b.Q.coeff u k) % moduliQ.getD u 1) u k ≡
        out.Q.coeff u k + a.Q.coeff u k * b.Q.coeff u k [MOD moduliQ.getD u 1]
      rw [coeff_table moduliQ.length N _ u k hu hk]
      exact Nat.ModEq.add_left _ (Nat.mod_modEq _ _)
    | true =>
      show ring.Poly.coeff ((List.range moduliP.length).map fun u => (List.range N).map fun k =>
        out.P.coeff u k + (a.P.coeff u k * b.P.coeff u k) % moduliP.getD u 1) u k ≡
        out.P.coeff u k + a.P.coeff u k * b.P.coeff u k [MOD moduliP.getD u 1]
      rw [coeff_table moduliP.length N _ u k hu hk]
      exact Nat.ModEq.add_left _ (Nat.mod_modEq _ _)
  · intro p out isP u k hu hk
    cases isP with
    | false =>
      show (ring.exactLvl N moduliQ (fun q a _ => a % q) (moduliQ.length - 1) p p out).coeff
        u k ≡ p.coeff u k [MOD moduliQ.getD u 1]
      have hu2 : u < moduliQ.length := hu
      rw [ring.coeff_exactLvl N moduliQ _ _ _ _ _ u k (by omega) hk]
      exact Nat.mod_modEq _ _
    | true =>
      show (ring.exactLvl N moduliP (fun q a _ => a % q) (moduliP.length - 1) p p out).coeff
        u k ≡ p.coeff u k [MOD moduliP.getD u 1]
      have hu2 : u < moduliP.length := hu
      rw [ring.coeff_exactLvl N moduliP _ _ _ _ _ u k (by omega) hk]
      exact Nat.mod_modEq _ _

open GadgetProductNoModDown in
theorem GadgetProductNoModDown.run_congruent (eval : Evaluator) (r : RingQP) (hex : r.Exact)
    (levelQ levelP : Int) (cxNTT cxInvNTT : ring.Poly) (gadgetCt : GadgetCiphertext)
    (QiOverF PiOverF : Int) (hq : QiOverF ≠ 0) (hp : PiOverF ≠ 0) (n : Nat) (hn : n ≠ 0)
    (ct : CiphertextQP)
    (hcell : ∀ j : Nat, j < n → ∃ cell, gadgetCt.cell? j 0 = some cell) :
    ∃ out : CiphertextQP,
      (loop eval r levelQ levelP cxNTT cxInvNTT gadgetCt QiOverF PiOverF n 0 0 eval.BuffQP0 ct
        >>= fun r1 => last QiOverF r1.1 (reduceQ r) r1.2
        >>= fun ct => last PiOverF r1.1 (reduceP r) ct) = .ok out ∧
      Congruent r out (dot eval levelQ levelP cxNTT cxInvNTT gadgetCt n) := by
  obtain ⟨ct1, hloop, hc1⟩ := loop_congruent eval r hex levelQ levelP cxNTT cxInvNTT gadgetCt
    QiOverF PiOverF hq hp n 0 0 ct (fun j _ hj => hcell j (by omega)) (fun h => absurd rfl h)
  rw [Nat.zero_add] at hloop hc1
  have hcong := hc1 hn
  obtain ⟨ct2, hct2, hor2⟩ := last_ok QiOverF n (reduceQ r) ct1 hq
  have h2 : Congruent r ct2 (dot eval levelQ levelP cxNTT cxInvNTT gadgetCt n) := by
    rcases hor2 with e | e
    · rw [e]
      exact congruent_reduceQ r hex _ _ hcong
    · rw [e]
      exact hcong
  obtain ⟨ct3, hct3, hor3⟩ := last_ok PiOverF n (reduceP r) ct2 hp
  have h3 : Congruent r ct3 (dot eval levelQ levelP cxNTT cxInvNTT gadgetCt n) := by
    rcases hor3 with e | e
    · rw [e]
      exact congruent_reduceP r hex _ _ h2
    · rw [e]
      exact h2
  refine ⟨ct3, ?_, h3⟩
  have hb : bufferAt eval levelQ levelP cxNTT cxInvNTT 0 = eval.BuffQP0 := rfl
  rw [hb] at hloop
  rw [hloop, mkckks.ok_bind_any]
  show (last QiOverF n (reduceQ r) ct1 >>= fun ct => last PiOverF n (reduceP r) ct) = _
  rw [hct2, mkckks.ok_bind_any, hct3]

theorem GadgetProductNoModDown.inputs_eq (eval : Evaluator) (ringQ : Ring) (isNTT : Bool)
    (cx : ring.Poly) :
    GadgetProductNoModDown.inputs eval ringQ isNTT cx =
      (if isNTT then cx else ringQ.NTT cx eval.BuffInvNTT,
        if isNTT then ringQ.InvNTT cx eval.BuffInvNTT else cx) := by
  cases isNTT <;> rfl

open GadgetProductNoModDown in
/-- C1: for `decompRNS ≥ 1` and halved overflow margins `QiOverF, PiOverF ≥ 1`, with a gadget table
that has the cells `gadget[i][0]` for `i < decompRNS` and ring operations that are exact modulo each
modulus, `GadgetProductNoModDown` returns, and each coefficient of `ct.Value[0]` and `ct.Value[1]`
is congruent, modulo every active modulus of Q and of P, to the sum over the digits
`i < decompRNS` of `gadget[i][0].Value[b] * d_i`, `d_i` being the `i`-th digit produced by
`DecomposeSingleNTT` on the input in the two domains (`cx` and its transform by `NTT` or
`InvNTT`, according to the flag `IsNTT` of `ct`). -/
theorem GadgetProductNoModDown_congruent (eval : Evaluator) (levelQ : Int) (cx : ring.Poly)
    (gadgetCt : GadgetCiphertext) (ct : CiphertextQP)
    (hex : (eval.params.RingQPAtLevel levelQ gadgetCt.LevelP).Exact)
    (hd : 1 ≤ eval.params.DecompRNS levelQ gadgetCt.LevelP)
    (hq : 1 ≤ eval.params.QiOverflowMargin levelQ / 2)
    (hp : 1 ≤ eval.params.PiOverflowMargin gadgetCt.LevelP / 2)
    (hg : ∀ i : Nat, (i : Int) < eval.params.DecompRNS levelQ gadgetCt.LevelP →
      ∃ cell, gadgetCt.cell? i 0 = some cell) :
    ∃ out : CiphertextQP, GadgetProductNoModDown eval levelQ cx gadgetCt ct = .ok out ∧
      ∀ (b isP : Bool) (u k : Nat),
        u < ((eval.params.RingQPAtLevel levelQ gadgetCt.LevelP).ring isP).Modulus.length →
        k < ((eval.params.RingQPAtLevel levelQ gadgetCt.LevelP).ring isP).N →
        ((out.value b).part isP).coeff u k ≡
          dot eval levelQ gadgetCt.LevelP
            (if ct.IsNTT then cx
              else (eval.params.RingQPAtLevel levelQ gadgetCt.LevelP).RingQ.NTT cx
                eval.BuffInvNTT)
            (if ct.IsNTT then
                (eval.params.RingQPAtLevel levelQ gadgetCt.LevelP).RingQ.InvNTT cx
                  eval.BuffInvNTT
              else cx)
            gadgetCt (eval.params.DecompRNS levelQ gadgetCt.LevelP).toNat b isP u k
          [MOD ((eval.params.RingQPAtLevel levelQ gadgetCt.LevelP).ring isP).modulus u] := by
  have hq0 : eval.params.QiOverflowMargin levelQ / 2 ≠ 0 := by omega
  have hp0 : eval.params.PiOverflowMargin gadgetCt.LevelP / 2 ≠ 0 := by omega
  obtain ⟨out, hout, hc⟩ := run_congruent eval _ hex levelQ gadgetCt.LevelP
    (inputs eval (eval.params.RingQPAtLevel levelQ gadgetCt.LevelP).RingQ ct.IsNTT cx).1
    (inputs eval (eval.params.RingQPAtLevel levelQ gadgetCt.LevelP).RingQ ct.IsNTT cx).2
    gadgetCt _ _ hq0 hp0
    (eval.params.DecompRNS levelQ gadgetCt.LevelP).toNat (by omega) ct
    (fun j hj => hg j (by omega))
  refine ⟨out, hout, ?_⟩
  rw [inputs_eq] at hc
  exact hc

theorem GadgetProductNoModDown_congruent_witness :
    ∃ out : CiphertextQP,
      GadgetProductNoModDown sampleEvaluator 1 [[3, 5], [4, 6]] sampleGadget sampleAccumulators =
        .ok out ∧
      (∀ (b isP : Bool) (u k : Nat),
        u < ((sampleEvaluator.params.RingQPAtLevel 1 sampleGadget.LevelP).ring isP).Modulus.length →
        k < ((sampleEvaluator.params.RingQPAtLevel 1 sampleGadget.LevelP).ring isP).N →
        ((out.value b).part isP).coeff u k ≡
          GadgetProductNoModDown.dot sampleEvaluator 1 sampleGadget.LevelP
            (if sampleAccumulators.IsNTT then [[3, 5], [4, 6]]
              else (sampleEvaluator.params.RingQPAtLevel 1 sampleGadget.LevelP).RingQ.NTT
                [[3, 5], [4, 6]] sampleEvaluator.BuffInvNTT)
            (if sampleAccumulators.IsNTT then
                (sampleEvaluator.params.RingQPAtLevel 1 sampleGadget.LevelP).RingQ.InvNTT
                  [[3, 5], [4, 6]] sampleEvaluator.BuffInvNTT
              else [[3, 5], [4, 6]])
            sampleGadget (sampleEvaluator.params.DecompRNS 1 sampleGadget.LevelP).toNat b isP u k
          [MOD ((sampleEvaluator.params.RingQPAtLevel 1 sampleGadget.LevelP).ring isP).modulus
            u]) ∧
      out.Value = ({ Q := [[6, 5], [3, 5]], P := [[10, 10], [6, 3]] },
                   { Q := [[3, 3], [9, 10]], P := [[8, 7], [15, 2]] }) ∧
      sampleEvaluator.DecomposeSingleNTT 1 1 2 0 [[3, 5], [4, 6]] [[3, 5], [4, 6]]
        [[0, 0], [0, 0]] [[0, 0], [0, 0]] = ([[3, 5], [3, 5]], [[3, 5], [3, 5]]) ∧
      sampleEvaluator.DecomposeSingleNTT 1 1 2 1 [[3, 5], [4, 6]] [[3, 5], [4, 6]]
        [[3, 5], [3, 5]] [[3, 5], [3, 5]] = ([[4, 6], [4, 6]], [[4, 6], [4, 6]]) ∧
      GadgetProductNoModDown.dot sampleEvaluator 1 1 [[3, 5], [4, 6]] [[3, 5], [4, 6]]
        sampleGadget 2 false false 0 0 = 1 * 3 + 6 * 4 ∧
      GadgetProductNoModDown.dot sampleEvaluator 1 1 [[3, 5], [4, 6]] [[3, 5], [4, 6]]
        sampleGadget 2 true true 1 1 = 5 * 5 + 16 * 6 := by
  obtain ⟨out, hout, hcong⟩ :=
    GadgetProductNoModDown_congruent sampleEvaluator 1 [[3, 5], [4, 6]] sampleGadget
      sampleAccumulators (exactRingQP_exact 2 [7, 11] [13, 17]) (by decide) (by decide)
      (by decide)
      (fun i hi => by
        have h2 : i < 2 := by
          have : (i : Int) < 2 := hi
          omega
        interval_cases i
        · exact ⟨_, rfl⟩
        · exact ⟨_, rfl⟩)
  have hlit : GadgetProductNoModDown sampleEvaluator 1 [[3, 5], [4, 6]] sampleGadget
      sampleAccumulators =
      .ok { Value := ({ Q := [[6, 5], [3, 5]], P := [[10, 10], [6, 3]] },
                      { Q := [[3, 3], [9, 10]], P := [[8, 7], [15, 2]] }), IsNTT := true } :=
    rfl
  have hval : out.Value = ({ Q := [[6, 5], [3, 5]], P := [[10, 10], [6, 3]] },
      { Q := [[3, 3], [9, 10]], P := [[8, 7], [15, 2]] }) := by
    rw [hlit] at hout
    injection hout with e
    rw [← e]
  exact ⟨out, hout, hcong, hval, rfl, rfl, rfl, rfl⟩

end rlwe

namespace mkckks

theorem ConvertToMKCiphertext.loop_zip (ids : List Nat) :
    ∀ (ct : List ckks.Element) (i : Nat), (∀ c ∈ ct, c.Degree = 1) →
      i + ct.length ≤ ids.length →
      ConvertToMKCiphertext.loop ids ct i =
        .ok (List.zipWith (fun c id => { Ciphertexts := c, PeerID := [id] }) ct (ids.drop i)) := by
  intro ct
  induction ct with
  | nil =>
    intro i _ _
    rfl
  | cons c rest ih =>
    intro i hdeg hlen
    have hi : i < ids.length := by
      simp only [List.length_cons] at hlen
      omega
    have hc : c.Degree = 1 := hdeg c (List.mem_cons_self c rest)
    have hdrop : ids.drop i = ids[i] :: ids.drop (i + 1) := List.drop_eq_getElem_cons hi
    rw [ConvertToMKCiphertext.loop, if_neg (not_not.mpr hc), List.getElem?_eq_getElem hi]
    show (ConvertToMKCiphertext.loop ids rest (i + 1) >>= fun res => _) = _
    rw [ih (i + 1) (fun c2 h2 => hdeg c2 (List.mem_cons_of_mem c h2))
      (by simp only [List.length_cons] at hlen; omega), ok_bind, hdrop]
    rfl

theorem ConvertToMKCiphertext_eq (ct : List ckks.Element) (ids : List Nat)
    (hdeg : ∀ c ∈ ct, c.Degree = 1) (hlen : ids.length = ct.length) :
    ConvertToMKCiphertext ct ids =
      .ok (List.zipWith (fun c id => { Ciphertexts := c, PeerID := [id] }) ct ids) := by
  unfold ConvertToMKCiphertext
  rw [if_neg (not_not.mpr hlen), ConvertToMKCiphertext.loop_zip ids ct 0 hdeg (by omega)]
  rfl

/-- C19, evaluated on two degree-1 ciphertexts given with the identifiers 5 and 2: the function
returns two multi-key ciphertexts with one identifier each, in the order of the input, that is
with the identifiers 5 then 2, which is not the ascending order that the claim and the comment of
the function promise. -/
theorem ConvertToMKCiphertext_keeps_input_order :
    sampleA.Ciphertexts.Degree = 1 ∧ sampleB.Ciphertexts.Degree = 1 ∧
      ConvertToMKCiphertext [sampleA.Ciphertexts, sampleB.Ciphertexts] [5, 2] =
        .ok [{ Ciphertexts := sampleA.Ciphertexts, PeerID := [5] },
             { Ciphertexts := sampleB.Ciphertexts, PeerID := [2] }] ∧
      ¬ List.Sorted (fun a b : Nat => a ≤ b) [5, 2] :=
  ⟨rfl, rfl, rfl, by decide⟩

theorem NegWithNil.loop_absent (ringQ : ring.Ring) (level : Nat) :
    ∀ (vs : List (Option ring.Poly)) (i : Nat) (ctOut : ckks.Element), none ∈ vs →
      ∃ p : Panic, NegWithNil.loop ringQ level vs i ctOut = .error p := by
  intro vs
  induction vs with
  | nil =>
    intro i ctOut h
    cases h
  | cons v rest ih =>
    intro i ctOut h
    unfold NegWithNil.loop
    cases hr : readPart ctOut i with
    | error e => exact ⟨e, rfl⟩
    | ok old =>
      rw [ok_bind]
      cases v with
      | none => exact ⟨Panic.nilDereference, rfl⟩
      | some p =>
        cases old with
        | none => exact ⟨Panic.nilDereference, rfl⟩
        | some po =>
          have hrest : none ∈ rest := by
            rcases List.mem_cons.mp h with h1 | h1
            · cases h1
            · exact h1
          show ∃ p2 : Panic, (writePart ctOut i (some (ringQ.NegLvl level p po)) >>= fun ctOut =>
            NegWithNil.loop ringQ level rest (i + 1) ctOut) = .error p2
          cases hw : writePart ctOut i (some (ringQ.NegLvl level p po)) with
          | error e => exact ⟨e, rfl⟩
          | ok c2 =>
            rw [ok_bind]
            exact ih (i + 1) c2 hrest

theorem bind_error {α β : Type} (e : Panic) (f : α → Except Panic β) :
    ((Except.error e : Except Panic α) >>= f) = .error e :=
  rfl

theorem Neg_absent (eval : mkEvaluator) (c : MKCiphertext) (h : none ∈ c.Ciphertexts.Value) :
    ∃ p : Panic, Neg eval c = .error p := by
  unfold Neg
  cases hl : levelOf eval c.Ciphertexts with
  | error e => exact ⟨e, rfl⟩
  | ok level =>
    rw [ok_bind]
    unfold NegNew
    dsimp only
    rw [hl, ok_bind]
    unfold NegWithNil
    rw [hl, ok_bind]
    cases hl2 : levelOf eval (eval.NewCiphertext c.Ciphertexts.Degree level c.Ciphertexts.scale) with
    | error e => exact ⟨e, rfl⟩
    | ok lOut =>
      rw [ok_bind]
      by_cases hd : c.Ciphertexts.Degree ≠
          (eval.NewCiphertext c.Ciphertexts.Degree level c.Ciphertexts.scale).Degree
      · rw [if_pos hd]
        exact ⟨Panic.negateDegree, rfl⟩
      · rw [if_neg hd]
        obtain ⟨p, hp⟩ := NegWithNil.loop_absent eval.ringQ (min level lOut) c.Ciphertexts.Value 0
          (eval.NewCiphertext c.Ciphertexts.Degree level c.Ciphertexts.scale) h
        rw [hp]
        exact ⟨p, rfl⟩

/-- C14, evaluated on a ciphertext whose participant part is absent: `Neg` does not complete, it
aborts on the nil part that `NegWithNil` hands to the ring negation (for every evaluator, by
`Neg_absent`). -/
theorem Neg_aborts_on_absent_part :
    sampleA.Ciphertexts.Value = [some [[3, 4]], none] ∧
      Neg (exactEvaluator 2 [7, 11]) sampleA = .error Panic.nilDereference :=
  ⟨rfl, rfl⟩

theorem checkParticipants_ok_iff (mismatch : Panic) (keys : List Nat) :
    ∀ (ids : List Nat) (i : Nat),
      checkParticipants mismatch keys ids i = .ok () ↔ ids <+: keys.drop i := by
  intro ids
  induction ids with
  | nil =>
    intro i
    exact ⟨fun _ => List.nil_prefix, fun _ => rfl⟩
  | cons id rest ih =>
    intro i
    unfold checkParticipants
    by_cases hi : i < keys.length
    · rw [List.getElem?_eq_getElem hi, List.drop_eq_getElem_cons hi]
      dsimp only
      by_cases hid : id = keys[i]
      · rw [if_neg (not_not.mpr hid), ih (i + 1), hid]
        exact (List.cons_prefix_cons.trans ⟨fun h => h.2, fun h => ⟨rfl, h⟩⟩).symm
      · rw [if_pos hid]
        constructor
        · intro h
          cases h
        · intro h
          exact absurd (List.cons_prefix_cons.mp h).1 hid
    · rw [List.getElem?_eq_none (by omega), List.drop_eq_nil_of_le (by omega)]
      constructor
      · intro h
        cases h
      · intro h
        have := List.eq_nil_of_prefix_nil h
        cases this

set_option maxRecDepth 8000 in
/-- C15, evaluated on a ciphertext of participant 2 with the keys of participants 2 and 5: the
sorted key identifiers `[2, 5]` are not the list `[2]` of the ciphertext, yet both checks of
`RelinInPlace` pass and the relinearization is run, and `Rotate` with the Galois keys of 2 and 5
returns a ciphertext as well. The checks compare one key per identifier of the ciphertext and never
the lengths (they pass exactly when the list of the ciphertext is a prefix of the key identifiers,
by `checkParticipants_ok_iff`). -/
theorem checkParticipants_accepts_extra_keys :
    sampleA.PeerID = [2] ∧
      (sortByPeerID (·.PeerID) [sampleEvalKey 2, sampleEvalKey 5]).map (·.PeerID) = [2, 5] ∧
      (RelinInPlace (exactEvaluator 2 [7, 11]) sampleA [sampleEvalKey 2, sampleEvalKey 5]
        [samplePubKey 2, samplePubKey 5]).result = .ok sampleA ∧
      ∃ out : MKCiphertext,
        (Rotate (exactEvaluator 2 [7, 11]) sampleB 1
          [sampleGalKeyTwoModuli 2, sampleGalKeyTwoModuli 5]).result = .ok out :=
  ⟨rfl, rfl, rfl, _, rfl⟩

theorem sortByPeerID_spec {α : Type} (peerID : α → Nat) (keys : List α) :
    (sortByPeerID peerID keys).Perm keys ∧
      (sortByPeerID peerID keys).Sorted (fun a b => peerID a ≤ peerID b) ∧
      (sortByPeerID peerID keys = keys → keys.Sorted (fun a b => peerID a ≤ peerID b)) ∧
      (keys.Sorted (fun a b => peerID a < peerID b) → sortByPeerID peerID keys = keys) := by
  haveI : IsTotal α (fun a b => peerID a ≤ peerID b) := ⟨fun a b => Nat.le_total _ _⟩
  haveI : IsTrans α (fun a b => peerID a ≤ peerID b) := ⟨fun _ _ _ h1 h2 => Nat.le_trans h1 h2⟩
  refine ⟨List.perm_insertionSort _ keys, List.sorted_insertionSort _ keys, ?_, ?_⟩
  · intro h
    have hs := List.sorted_insertionSort (fun a b => peerID a ≤ peerID b) keys
    unfold sortByPeerID at h
    rw [h] at hs
    exact hs
  · intro h
    exact List.Sorted.insertionSort_eq (List.Pairwise.imp (fun hab => Nat.le_of_lt hab) h)

/-- C16, as the code has it: `RelinInPlace` and `Rotate` sort the key slices of the caller in
place. After the call each of the three slices holds a permutation of its elements in ascending
order of `PeerID`; the caller can observe the order it passed only when the slice was already in
ascending order, and does observe it when the identifiers were strictly increasing. -/
theorem key_slices_sorted_in_place (eval : mkEvaluator) (ct c : MKCiphertext) (n : Int)
    (evalKeys : List mkrlwe.MKEvaluationKey) (publicKeys : List mkrlwe.MKPublicKey)
    (galKeys : List mkrlwe.MKEvalGalKey) :
    ((RelinInPlace eval ct evalKeys publicKeys).evalKeys.Perm evalKeys ∧
      (RelinInPlace eval ct evalKeys publicKeys).evalKeys.Sorted
        (fun a b => a.PeerID ≤ b.PeerID) ∧
      ((RelinInPlace eval ct evalKeys publicKeys).evalKeys = evalKeys →
        evalKeys.Sorted (fun a b => a.PeerID ≤ b.PeerID)) ∧
      (evalKeys.Sorted (fun a b => a.PeerID < b.PeerID) →
        (RelinInPlace eval ct evalKeys publicKeys).evalKeys = evalKeys)) ∧
    ((RelinInPlace eval ct evalKeys publicKeys).publicKeys.Perm publicKeys ∧
      (RelinInPlace eval ct evalKeys publicKeys).publicKeys.Sorted
        (fun a b => a.PeerID ≤ b.PeerID) ∧
      ((RelinInPlace eval ct evalKeys publicKeys).publicKeys = publicKeys →
        publicKeys.Sorted (fun a b => a.PeerID ≤ b.PeerID)) ∧
      (publicKeys.Sorted (fun a b => a.PeerID < b.PeerID) →
        (RelinInPlace eval ct evalKeys publicKeys).publicKeys = publicKeys)) ∧
    ((Rotate eval c n galKeys).keys.Perm galKeys ∧
      (Rotate eval c n galKeys).keys.Sorted (fun a b => a.PeerID ≤ b.PeerID) ∧
      ((Rotate eval c n galKeys).keys = galKeys →
        galKeys.Sorted (fun a b => a.PeerID ≤ b.PeerID)) ∧
      (galKeys.Sorted (fun a b => a.PeerID < b.PeerID) →
        (Rotate eval c n galKeys).keys = galKeys)) :=
  ⟨sortByPeerID_spec (fun k : mkrlwe.MKEvaluationKey => k.PeerID) evalKeys,
    sortByPeerID_spec (fun k : mkrlwe.MKPublicKey => k.PeerID) publicKeys,
    sortByPeerID_spec (fun k : mkrlwe.MKEvalGalKey => k.PeerID) galKeys⟩

set_option maxRecDepth 8000 in
/-- C16 fails as stated: a caller that passes the matching keys of participants 9, 5 and 2 in
that order finds its three slices in the order 2, 5, 9 after `RelinInPlace` and `Rotate`. -/
theorem key_slices_reordered :
    (RelinInPlace (exactEvaluator 2 [7, 11]) sampleC
        [sampleEvalKey 9, sampleEvalKey 5, sampleEvalKey 2]
        [samplePubKey 9, samplePubKey 5, samplePubKey 2]).evalKeys =
      [sampleEvalKey 2, sampleEvalKey 5, sampleEvalKey 9] ∧
    (RelinInPlace (exactEvaluator 2 [7, 11]) sampleC
        [sampleEvalKey 9, sampleEvalKey 5, sampleEvalKey 2]
        [samplePubKey 9, samplePubKey 5, samplePubKey 2]).publicKeys =
      [samplePubKey 2, samplePubKey 5, samplePubKey 9] ∧
    (Rotate (exactEvaluator 2 [7, 11]) sampleC 1
        [sampleGalKeyTwoModuli 9, sampleGalKeyTwoModuli 5, sampleGalKeyTwoModuli 2]).keys =
      [sampleGalKeyTwoModuli 2, sampleGalKeyTwoModuli 5, sampleGalKeyTwoModuli 9] ∧
    [sampleEvalKey 2, sampleEvalKey 5, sampleEvalKey 9] ≠
      [sampleEvalKey 9, sampleEvalKey 5, sampleEvalKey 2] ∧
    [samplePubKey 2, samplePubKey 5, samplePubKey 9] ≠
      [samplePubKey 9, samplePubKey 5, samplePubKey 2] ∧
    [sampleGalKeyTwoModuli 2, sampleGalKeyTwoModuli 5, sampleGalKeyTwoModuli 9] ≠
      [sampleGalKeyTwoModuli 9, sampleGalKeyTwoModuli 5, sampleGalKeyTwoModuli 2] :=
  ⟨rfl, rfl, rfl, by decide, by decide, by decide⟩

set_option maxRecDepth 8000 in
/-- C13, evaluated over the ring with the Montgomery radix `2^64` and the modulus 7 on a ciphertext
whose participant part is absent: the absent position receives the buffer `tmp`, which holds the
Montgomery form `[[2, 2]]` of the plaintext polynomial `[[1, 1]]` (`2^64 mod 7 = 2`), not the
plaintext polynomial itself; the present part is the ring product and the scale is the product of
the scales. -/
theorem MultPlaintext_absent_part_in_montgomery_form :
    sampleA.Ciphertexts.Value = [some [[3, 4]], none] ∧
      samplePlaintext.Value = [some [[1, 1]]] ∧
      ∃ out : MKCiphertext,
        MultPlaintext (montgomeryEvaluator 2 [7]) samplePlaintext sampleA = .ok out ∧
        out.Ciphertexts.Value = [some [[3, 4]], some [[2, 2]]] ∧
        out.Ciphertexts.scale = samplePlaintext.scale * sampleA.Ciphertexts.scale :=
  ⟨rfl, rfl, _, rfl, rfl, rfl⟩

set_option maxRecDepth 8000 in
/-- C17, evaluated on a chain of two moduli: the ciphertext is at level 0 (one row per part) and
the ciphertext returned by `Rotate` has two parts, the same identifiers and the same scale, but its
parts are the polynomials allocated by `NewPoly`, with one row per modulus of the chain, that is
level 1 and not level 0. -/
theorem Rotate_level_on_two_moduli :
    rowLevel sampleB.Ciphertexts = some 0 ∧
      ∃ out : MKCiphertext,
        (Rotate (exactEvaluator 2 [7, 11]) sampleB 1 [sampleGalKeyTwoModuli 2]).result = .ok out ∧
        out.Ciphertexts.Value = [some [[6, 3], [0, 0]], some [[5, 5], [0, 0]]] ∧
        out.PeerID = sampleB.PeerID ∧
        out.Ciphertexts.scale = sampleB.Ciphertexts.scale ∧
        rowLevel out.Ciphertexts = some 1 :=
  ⟨rfl, _, rfl, rfl, rfl, rfl, rfl⟩

end mkckks

namespace rlwe

theorem succ_mod_of_ne (i F : Nat) (hF : 1 ≤ F) (h : i % F ≠ F - 1) :
    (i + 1) % F = i % F + 1 := by
  have hlt : i % F < F := Nat.mod_lt i (by omega)
  have h1 : 1 % F = 1 := Nat.mod_eq_of_lt (by omega)
  rw [Nat.add_mod, h1]
  exact Nat.mod_eq_of_lt (by omega)

theorem GadgetProductNoModDown.coefficients_le (q F : Nat) (reduce : Nat → Nat) (hF : 1 ≤ F)
    (hq : 1 ≤ q) (hred : ∀ x : Nat, reduce x < q) :
    ∀ (products : List Nat) (i acc : Nat), (∀ p ∈ products, p ≤ 2 * q - 1) →
      (i ≠ 0 → acc ≤ (q - 1) + (i % F) * (2 * q - 1)) →
      ∀ v ∈ GadgetProductNoModDown.coefficients F reduce products i acc,
        v ≤ (q - 1) + F * (2 * q - 1) := by
  intro products
  induction products with
  | nil =>
    intro i acc _ _ v hv
    cases hv
  | cons p rest ih =>
    intro i acc hprod hacc v hv
    have hp : p ≤ 2 * q - 1 := hprod p (List.mem_cons_self p rest)
    have hlt : i % F < F := Nat.mod_lt i (by omega)
    have hstep : (if i = 0 then p else acc + p) ≤ (q - 1) + (i % F + 1) * (2 * q - 1) := by
      rw [Nat.succ_mul]
      by_cases h0 : i = 0
      · rw [if_pos h0]
        omega
      · rw [if_neg h0]
        have := hacc h0
        omega
    have hmono : (i % F + 1) * (2 * q - 1) ≤ F * (2 * q - 1) :=
      Nat.mul_le_mul_right _ (by omega)
    unfold GadgetProductNoModDown.coefficients at hv
    rcases List.mem_cons.mp hv with h1 | h1
    · rw [h1]
      omega
    · refine ih (i + 1) _ (fun p2 h2 => hprod p2 (List.mem_cons_of_mem p h2)) ?_ v h1
      intro _
      by_cases hr : i % F = F - 1
      · rw [if_pos hr]
        have := hred (if i = 0 then p else acc + p)
        omega
      · rw [if_neg hr, succ_mod_of_ne i F hF hr]
        exact hstep

/-- C18, as the schedule has it: for a modulus `q` with overflow margin `M = floor(2^64 / q) ≥ 2`
and `F = floor(M / 2)`, when `M` is odd, or more generally when `(2F+1)·q ≤ 2^64 + F`, lazy
products of at most `2q-1` and a `Reduce` that returns values below `q` keep every value of an
accumulator coefficient below `2^64`, for every number of digits. -/
theorem GadgetProductNoModDown.coefficients_lt (q M : Nat) (reduce : Nat → Nat)
    (products : List Nat) (hM : M = 2 ^ 64 / q) (hM2 : 2 ≤ M)
    (hodd : M % 2 = 1 ∨ (2 * (M / 2) + 1) * q ≤ 2 ^ 64 + M / 2)
    (hprod : ∀ p ∈ products, p ≤ 2 * q - 1) (hred : ∀ x : Nat, reduce x < q) :
    List.Forall (fun v => v < 2 ^ 64)
      (GadgetProductNoModDown.coefficients (M / 2) reduce products 0 0) := by
  have hq : 1 ≤ q := by
    rcases Nat.eq_zero_or_pos q with h | h
    · rw [h, Nat.div_zero] at hM
      omega
    · exact h
  have hF : 1 ≤ M / 2 := by omega
  have hbound : (2 * (M / 2) + 1) * q ≤ 2 ^ 64 + M / 2 := by
    rcases hodd with h | h
    · have h2 : 2 * (M / 2) + 1 = M := by omega
      have h3 : M * q ≤ 2 ^ 64 := by
        rw [hM]
        exact Nat.div_mul_le_self _ _
      rw [h2]
      omega
    · exact h
  rw [List.forall_iff_forall_mem]
  intro v hv
  have hle := GadgetProductNoModDown.coefficients_le q (M / 2) reduce hF hq hred products 0 0
    hprod (fun h => absurd rfl h) v hv
  obtain ⟨q2, rfl⟩ : ∃ q2 : Nat, q = q2 + 1 := ⟨q - 1, by omega⟩
  have e1 : 2 * (q2 + 1) - 1 = 2 * q2 + 1 := by omega
  rw [e1] at hle
  have e2 : (2 * (M / 2) + 1) * (q2 + 1) =
      (q2 + 1 - 1) + (M / 2) * (2 * q2 + 1) + M / 2 + 1 := by
    rw [Nat.add_sub_cancel]
    ring
  omega

theorem GadgetProductNoModDown.coefficients_lt_witness :
    List.Forall (fun v => v < 2 ^ 64)
      (GadgetProductNoModDown.coefficients (7 / 2) (fun x => x % 2635249153387078802)
        [5270498306774157603, 5270498306774157603, 5270498306774157603, 5270498306774157603]
        0 0) :=
  GadgetProductNoModDown.coefficients_lt 2635249153387078802 7 (fun x => x % 2635249153387078802)
    [5270498306774157603, 5270498306774157603, 5270498306774157603, 5270498306774157603]
    (by norm_num) (by norm_num) (Or.inl (by norm_num)) (by decide)
    (fun x => Nat.mod_lt x (by norm_num))

/-- C18 fails as stated: for the 61-bit prime `q = 0x1fffffffffe00001` the margin is `M = 8` and
`F = 4`; with eight lazy products equal to `2q-1` and the exact reduction modulo `q`, the
accumulator holds `q - 4` after the reduction that follows the fourth digit and reaches
`9q - 8 ≥ 2^64` at the eighth digit. -/
theorem GadgetProductNoModDown.coefficient_overflow :
    2 ^ 64 / sampleModulus = 8 ∧ (∀ p ∈ sampleProducts, p ≤ 2 * sampleModulus - 1) ∧
      (∀ x : Nat, x % sampleModulus < sampleModulus) ∧
      ∃ v ∈ GadgetProductNoModDown.coefficients (8 / 2) (fun x => x % sampleModulus)
        sampleProducts 0 0, 2 ^ 64 ≤ v := by
  refine ⟨by norm_num [sampleModulus], by decide, fun x => Nat.mod_lt x (by decide), ?_⟩
  refine ⟨9 * sampleModulus - 8, ?_, by norm_num [sampleModulus]⟩
  decide

end rlwe

namespace mkckks

theorem evaluateInPlace.copyTail_element (ringQ : ring.Ring) (level : Nat) (tmp : ckks.Element) :
    ∀ (n i : Nat) (ctOut : ckks.Element),
      (∀ j : Nat, i ≤ j → j < i + n → ∃ pa : ring.Poly, tmp.Value[j]? = some (some pa)) →
      (∀ j : Nat, i ≤ j → j < i + n → ∃ po : ring.Poly, ctOut.Value[j]? = some (some po)) →
      ∃ res : ckks.Element,
        evaluateInPlace.copyTail ringQ level tmp n i ctOut = .ok res ∧
        res.scale = ctOut.scale ∧ res.IsNTT = ctOut.IsNTT ∧
        res.Value.length = ctOut.Value.length ∧
        ∀ j : Nat, res.Value[j]? =
          if i ≤ j ∧ j < i + n then
            some (some (ringQ.CopyLvl level ((tmp.Value.getD j none).getD [])
              ((ctOut.Value.getD j none).getD [])))
          else ctOut.Value[j]? := by
  intro n
  induction n with
  | zero =>
    intro i ctOut _ _
    refine ⟨ctOut, rfl, rfl, rfl, rfl, ?_⟩
    intro j
    have : ¬ (i ≤ j ∧ j < i + 0) := by omega
    rw [if_neg this]
  | succ n ih =>
    intro i ctOut ht hp
    obtain ⟨pa, hpa⟩ := ht i (Nat.le_refl i) (by omega)
    obtain ⟨po, hpo⟩ := hp i (Nat.le_refl i) (by omega)
    have hlt : i < ctOut.Value.length := by
      by_contra hge
      rw [List.getElem?_eq_none (by omega)] at hpo
      cases hpo
    obtain ⟨res, hres, hs, hn, hl, hget⟩ := ih (i + 1)
      { ctOut with Value := ctOut.Value.set i (some (ringQ.CopyLvl level pa po)) }
      (fun j hj1 hj2 => ht j (by omega) (by omega))
      (fun j hj1 hj2 => by
        obtain ⟨p, hp2⟩ := hp j (by omega) (by omega)
        refine ⟨p, ?_⟩
        show (ctOut.Value.set i _)[j]? = _
        rw [List.getElem?_set_ne (by omega)]
        exact hp2)
    refine ⟨res, ?_, ?_, ?_, ?_, ?_⟩
    · unfold evaluateInPlace.copyTail
      rw [readPart_of_get tmp i _ hpa, ok_bind, readPart_of_get ctOut i _ hpo, ok_bind]
      dsimp only
      rw [writePart_of_lt ctOut i _ hlt, ok_bind]
      exact hres
    · rw [hs]
    · rw [hn]
    · rw [hl]
      exact List.length_set _ _ _
    · intro j
      rw [hget j]
      by_cases hj : i + 1 ≤ j ∧ j < i + 1 + n
      · have c2 : i ≤ j ∧ j < i + (n + 1) := by omega
        rw [if_pos hj, if_pos c2]
        have hne : i ≠ j := by omega
        simp only [List.getD_eq_getElem?_getD, List.getElem?_set_ne hne]
      · rw [if_neg hj]
        by_cases hji : j = i
        · subst hji
          have c2 : j ≤ j ∧ j < j + (n + 1) := by omega
          rw [if_pos c2]
          show (ctOut.Value.set j _)[j]? = _
          rw [List.getElem?_set_self hlt]
          simp only [List.getD_eq_getElem?_getD, hpa, hpo, Option.getD_some]
        · have c2 : ¬ (i ≤ j ∧ j < i + (n + 1)) := by omega
          rw [if_neg c2]
          show (ctOut.Value.set i _)[j]? = _
          rw [List.getElem?_set_ne (fun h => hji h.symm)]

theorem evaluateInPlace.copyRemaining_element (ringQ : ring.Ring) (level : Nat)
    (t0 t1 ctOut : ckks.Element) (k m : Nat) (hm : m ≤ k) :
    evaluateInPlace.copyRemaining ringQ level (Source.element t0) (Source.element t1) k m
        (m + 1) (k + 1) ctOut =
      evaluateInPlace.copyTail ringQ level t0 (k - m) (m + 1) ctOut := by
  unfold evaluateInPlace.copyRemaining
  by_cases h : k > m
  · rw [if_pos h]
    have e : k + 1 - (m + 1) = k - m := by omega
    rw [e]
  · have e : k - m = 0 := by omega
    rw [if_neg h, if_neg (by omega), e]
    rfl

theorem evaluateInPlace_other (eval : mkEvaluator) (isSub : Bool)
    (evaluate : Nat → ring.Poly → ring.Poly → ring.Poly → ring.Poly)
    (e0 e1 fresh t0 t1 : ckks.Element) (k m la lb lf : Nat)
    (h0 : e0.Value.length = k + 1) (h1 : e1.Value.length = m + 1) (hm : m ≤ k)
    (hf : fresh.Value.length = k + 1) (hk : k + 1 < 2 ^ 64)
    (hla : eval.Level e0 = some la) (hlb : eval.Level e1 = some lb)
    (hlf : eval.Level fresh = some lf)
    (hresize : eval.Resize fresh k = fresh)
    (hdrop : eval.DropLevel fresh (subUint64 lf (min la lb)) = fresh)
    (halign : evaluateInPlace.align eval Receiver.other e0 e1 fresh =
      .ok (Source.element t0, Source.element t1, fresh))
    (ht0 : m + 1 ≤ t0.Value.length) (ht1 : m + 1 ≤ t1.Value.length)
    (hpresent : ∀ j : Nat, j ≤ k → ∃ po : ring.Poly, fresh.Value[j]? = some (some po))
    (htail : ∀ j : Nat, m < j → j ≤ k → ∃ pa : ring.Poly, t0.Value[j]? = some (some pa))
    (hneg : isSub = true → ∀ j : Nat, j ≤ m → t0.Value.getD j none = none →
      ∀ pb : ring.Poly, t1.Value.getD j none = some pb →
      ∃ v : ring.Poly, eval.ringQ.Neg pb ((fresh.Value.getD j none).getD []) = some v) :
    ∃ res : ckks.Element,
      evaluateInPlace eval (some e0) (some e1) (some fresh) Receiver.other isSub evaluate =
        .ok (some res) ∧
      res.scale = max e0.scale e1.scale ∧ res.IsNTT = fresh.IsNTT ∧
      res.Value.length = k + 1 ∧
      (∀ j : Nat, j ≤ m → res.Value[j]? =
        some (evaluateInPlace.combine eval.ringQ isSub evaluate (min (min la lb) lf)
          (t0.Value.getD j none) (t1.Value.getD j none) ((fresh.Value.getD j none).getD []))) ∧
      (∀ j : Nat, m < j → j ≤ k → res.Value[j]? =
        some (some (eval.ringQ.CopyLvl (min (min la lb) lf) ((t0.Value.getD j none).getD [])
          ((fresh.Value.getD j none).getD [])))) := by
  have hd0 : e0.Degree = k := Degree_of_length e0 k h0 hk
  have hd1 : e1.Degree = m := Degree_of_length e1 m h1 (by omega)
  obtain ⟨res1, hres1, hs1, hn1, hl1, hget1⟩ :=
    evaluateInPlace.loop_element eval.ringQ isSub evaluate (min (min la lb) lf) t0 t1 (m + 1) 0
      fresh (by omega) (by omega) (fun j _ hj => hpresent j (by omega))
      (fun hsub j _ hj => hneg hsub j (by omega))
  obtain ⟨res, hres, hs, hn, hl, hget⟩ :=
    evaluateInPlace.copyTail_element eval.ringQ (min (min la lb) lf) t0 (k - m) (m + 1)
      { res1 with scale := max e0.scale e1.scale }
      (fun j hj1 hj2 => htail j (by omega) (by omega))
      (fun j hj1 hj2 => by
        obtain ⟨po, hpo⟩ := hpresent j (by omega)
        refine ⟨po, ?_⟩
        show res1.Value[j]? = _
        rw [hget1 j, if_neg (by omega)]
        exact hpo)
  refine ⟨res, ?_, ?_, ?_, ?_, ?_, ?_⟩
  · have hL0 : levelOf eval e0 = .ok la := levelOf_of_some eval e0 la hla
    have hL1 : levelOf eval e1 = .ok lb := levelOf_of_some eval e1 lb hlb
    have hLf : levelOf eval fresh = .ok lf := levelOf_of_some eval fresh lf hlf
    have hmod1 : (m + 1) % 2 ^ 64 = m + 1 := Nat.mod_eq_of_lt (by omega)
    have hmod2 : (k + 1) % 2 ^ 64 = k + 1 := Nat.mod_eq_of_lt hk
    have hrun : evaluateInPlace.run eval e0 e1 fresh Receiver.other isSub evaluate =
        .ok res := by
      unfold evaluateInPlace.run
      simp only [Receiver.src0, Receiver.src1, Source.read]
      rw [hL0, hL1, hLf, ok_bind, ok_bind, ok_bind]
      rw [hd0, hd1, max_eq_left hm, min_eq_right hm, hresize, hLf, ok_bind, ok_bind, ok_bind,
        hdrop, halign, ok_bind, hmod1, hmod2]
      dsimp only
      rw [hres1, ok_bind, evaluateInPlace.copyRemaining_element _ _ _ _ _ k m hm]
      exact hres
    show (evaluateInPlace.run eval e0 e1 fresh Receiver.other isSub evaluate >>=
      fun eo => pure (some eo)) = _
    rw [hrun]
    rfl
  · rw [hs]
  · rw [hn]
    exact hn1
  · rw [hl]
    show res1.Value.length = k + 1
    rw [hl1, hf]
  · intro j hj
    rw [hget j, if_neg (by omega)]
    show res1.Value[j]? = _
    rw [hget1 j, if_pos (by omega)]
  · intro j hj1 hj2
    rw [hget j, if_pos (by omega)]
    have e : ({ res1 with scale := max e0.scale e1.scale } : ckks.Element).Value.getD j none =
        fresh.Value.getD j none := by
      show res1.Value.getD j none = _
      rw [List.getD_eq_getElem?_getD, List.getD_eq_getElem?_getD, hget1 j, if_neg (by omega)]
    rw [e]

end mkckks

namespace mkckks

theorem scaleRatio_ne_zero (a b : ℚ) (hb : 0 < b) (hab : b < a) (hlt : a / b < 2 ^ 64) :
    scaleRatio a b ≠ 0 := by
  have h1 : (1 : ℚ) ≤ a / b := (one_le_div hb).mpr hab.le
  have h2 : (1 : ℤ) ≤ ⌊a / b⌋ := Int.le_floor.mpr (by exact_mod_cast h1)
  have h3 : ⌊a / b⌋ < 2 ^ 64 := Int.floor_lt.mpr (by exact_mod_cast hlt)
  unfold scaleRatio
  omega

theorem evaluateInPlace.align_other_eq (eval : mkEvaluator) (e0 e1 fresh : ckks.Element)
    (h : e0.scale = e1.scale) :
    evaluateInPlace.align eval Receiver.other e0 e1 fresh =
      .ok (Source.element e0, Source.element e1, fresh) := by
  unfold evaluateInPlace.align
  simp only [Receiver.src0, Receiver.src1, Source.read, h, gt_iff_lt, lt_self_iff_false,
    if_false]
  rfl

theorem newCiphertextBinary_of_le (eval : mkEvaluator) (e0 e1 : ckks.Element) (k m la lb : Nat)
    (h0 : e0.Value.length = k + 1) (h1 : e1.Value.length = m + 1) (hm : m ≤ k)
    (hk : k + 1 < 2 ^ 64)
    (hla : eval.Level e0 = some la) (hlb : eval.Level e1 = some lb) :
    newCiphertextBinary eval (some e0) (some e1) =
      .ok (eval.NewCiphertext k (min la lb) (max e0.scale e1.scale)) := by
  show (levelOf eval e0 >>= fun l0 => levelOf eval e1 >>= fun l1 =>
    pure (eval.NewCiphertext (max e0.Degree e1.Degree) (min l0 l1) (max e0.scale e1.scale))) = _
  rw [levelOf_of_some eval e0 la hla, levelOf_of_some eval e1 lb hlb, ok_bind, ok_bind,
    Degree_of_length e0 k h0 hk, Degree_of_length e1 m h1 (by omega), max_eq_left hm]
  rfl

theorem AddNew_other (eval : mkEvaluator) (e0 e1 t0 t1 : ckks.Element) (k m la lb : Nat)
    (h0 : e0.Value.length = k + 1) (h1 : e1.Value.length = m + 1) (hm : m ≤ k)
    (hk : k + 1 < 2 ^ 64)
    (hla : eval.Level e0 = some la) (hlb : eval.Level e1 = some lb)
    (hget3 : ∀ a b c, eval.GetThreeElementsckksWithNil a b c = (a, b, c))
    (hfresh : FreshReceiver eval (eval.NewCiphertext k (min la lb) (max e0.scale e1.scale)) k
      (min la lb))
    (halign : ∀ fresh : ckks.Element, evaluateInPlace.align eval Receiver.other e0 e1 fresh =
      .ok (Source.element t0, Source.element t1, fresh))
    (ht0 : m + 1 ≤ t0.Value.length) (ht1 : m + 1 ≤ t1.Value.length)
    (htail : ∀ j : Nat, m < j → j ≤ k → ∃ pa : ring.Poly, t0.Value[j]? = some (some pa)) :
    ∃ res : ckks.Element, AddNew eval (some e0) (some e1) = .ok res ∧
      res.scale = max e0.scale e1.scale ∧ res.Value.length = k + 1 ∧
      (∀ j : Nat, j ≤ m → res.Value[j]? =
        some (evaluateInPlace.combine eval.ringQ false eval.ringQ.AddLvl (min la lb)
          (t0.Value.getD j none) (t1.Value.getD j none)
          (((eval.NewCiphertext k (min la lb) (max e0.scale e1.scale)).Value.getD j none).getD
            []))) ∧
      (∀ j : Nat, m < j → j ≤ k → res.Value[j]? =
        some (some (eval.ringQ.CopyLvl (min la lb) ((t0.Value.getD j none).getD [])
          (((eval.NewCiphertext k (min la lb) (max e0.scale e1.scale)).Value.getD j none).getD
            [])))) := by
  obtain ⟨res, hres, hs, _, hl, hget, hcopy⟩ :=
    evaluateInPlace_other eval false eval.ringQ.AddLvl e0 e1 _ t0 t1 k m la lb (min la lb) h0 h1
      hm hfresh.length hk hla hlb hfresh.level hfresh.resize
      (by rw [subUint64_self]; exact hfresh.drop) (halign _) ht0 ht1 hfresh.present htail
      (fun h => Bool.noConfusion h)
  rw [min_self] at hget hcopy
  refine ⟨res, ?_, hs, hl, hget, hcopy⟩
  unfold AddNew
  rw [newCiphertextBinary_of_le eval e0 e1 k m la lb h0 h1 hm hk hla hlb]
  show (AddWithNil eval (some e0) (some e1) (some _) Receiver.other >>= fun res => _) = _
  unfold AddWithNil
  simp only [hget3]
  rw [hres]
  rfl

theorem SubNew_other (eval : mkEvaluator) (e0 e1 t0 t1 : ckks.Element) (k m la lb : Nat)
    (h0 : e0.Value.length = k + 1) (h1 : e1.Value.length = m + 1) (hm : m ≤ k)
    (hk : k + 1 < 2 ^ 64)
    (hla : eval.Level e0 = some la) (hlb : eval.Level e1 = some lb)
    (hget3 : ∀ a b c, eval.GetThreeElementsckksWithNil a b c = (a, b, c))
    (hfresh : FreshReceiver eval (eval.NewCiphertext k (min la lb) (max e0.scale e1.scale)) k
      (min la lb))
    (halign : ∀ fresh : ckks.Element, evaluateInPlace.align eval Receiver.other e0 e1 fresh =
      .ok (Source.element t0, Source.element t1, fresh))
    (ht0 : m + 1 ≤ t0.Value.length) (ht1 : m + 1 ≤ t1.Value.length)
    (htail : ∀ j : Nat, m < j → j ≤ k → ∃ pa : ring.Poly, t0.Value[j]? = some (some pa))
    (hlv : ∀ el : ckks.Element, (∃ p : ring.Poly, el.Value[0]? = some (some p)) →
      ∃ l : Nat, eval.Level el = some l)
    (hpart0 : (∃ p : ring.Poly, t0.Value[0]? = some (some p)) ∨
      (∃ p : ring.Poly, t1.Value[0]? = some (some p)))
    (hneg : ∀ j : Nat, j ≤ m → t0.Value.getD j none = none →
      ∀ pb : ring.Poly, t1.Value.getD j none = some pb →
      ∃ v : ring.Poly, eval.ringQ.Neg pb
        (((eval.NewCiphertext k (min la lb) (max e0.scale e1.scale)).Value.getD j none).getD
          []) = some v) :
    ∃ res : ckks.Element, SubNew eval (some e0) (some e1) = .ok res ∧
      res.scale = max e0.scale e1.scale ∧ res.Value.length = k + 1 ∧
      (∀ j : Nat, j ≤ m → res.Value[j]? =
        some (evaluateInPlace.combine eval.ringQ true eval.ringQ.SubLvl (min la lb)
          (t0.Value.getD j none) (t1.Value.getD j none)
          (((eval.NewCiphertext k (min la lb) (max e0.scale e1.scale)).Value.getD j none).getD
            []))) ∧
      (∀ j : Nat, m < j → j ≤ k → res.Value[j]? =
        some (some (eval.ringQ.CopyLvl (min la lb) ((t0.Value.getD j none).getD [])
          (((eval.NewCiphertext k (min la lb) (max e0.scale e1.scale)).Value.getD j none).getD
            [])))) := by
  obtain ⟨res, hres, hs, _, hl, hget, hcopy⟩ :=
    evaluateInPlace_other eval true eval.ringQ.SubLvl e0 e1 _ t0 t1 k m la lb (min la lb) h0 h1
      hm hfresh.length hk hla hlb hfresh.level hfresh.resize
      (by rw [subUint64_self]; exact hfresh.drop) (halign _) ht0 ht1 hfresh.present htail
      (fun _ => hneg)
  rw [min_self] at hget hcopy
  have hres0 : ∃ p : ring.Poly, res.Value[0]? = some (some p) := by
    rw [hget 0 (Nat.zero_le m)]
    rcases hpart0 with ⟨p, hp⟩ | ⟨p, hp⟩
    · rw [List.getD_eq_getElem?_getD, hp, Option.getD_some]
      cases t1.Value.getD 0 none with
      | none => exact ⟨_, rfl⟩
      | some pb => exact ⟨_, rfl⟩
    · rw [List.getD_eq_getElem?_getD t1.Value, hp, Option.getD_some]
      cases t0.Value.getD 0 none with
      | none => exact ⟨_, rfl⟩
      | some pa => exact ⟨_, rfl⟩
  obtain ⟨lr, hlr⟩ := hlv res hres0
  refine ⟨res, ?_, hs, hl, hget, hcopy⟩
  unfold SubNew
  rw [newCiphertextBinary_of_le eval e0 e1 k m la lb h0 h1 hm hk hla hlb]
  show (SubWithNil eval (some e0) (some e1) (some _) Receiver.other >>= fun res => _) = _
  unfold SubWithNil
  simp only [hget3]
  rw [hres, ok_bind]
  simp only [Receiver.src0, Receiver.src1, Source.read]
  rw [levelOf_of_some eval e0 la hla, levelOf_of_some eval e1 lb hlb,
    levelOf_of_some eval res lr hlr, ok_bind, ok_bind, ok_bind,
    Degree_of_length e0 k h0 hk, Degree_of_length e1 m h1 (by omega), if_neg (by omega)]
  rfl

end mkckks

namespace mkckks

set_option maxRecDepth 8000 in
/-- C11, evaluated on operands of different scales: `sampleB` has scale 3 and `sampleE` scale 2,
both with two present parts over the single modulus 7. `Add` and `Sub` return no ciphertext, in
either order of the operands: the alignment of the scales hands the element `new(ckks.Element)`,
which has no part, to `MultByConst` as its receiver, and `MultByConst` aborts on reading the level
of its receiver. -/
theorem Add_Sub_abort_on_different_scales :
    sampleB.Ciphertexts.scale = 3 ∧ sampleE.Ciphertexts.scale = 2 ∧
      newElement.Value = [] ∧
      (exactEvaluator 2 [7]).MultByConst sampleE.Ciphertexts 1 newElement = none ∧
      Add (exactEvaluator 2 [7]) sampleB sampleE = .error Panic.collaborator ∧
      Sub (exactEvaluator 2 [7]) sampleB sampleE = .error Panic.collaborator ∧
      Add (exactEvaluator 2 [7]) sampleE sampleB = .error Panic.collaborator ∧
      Sub (exactEvaluator 2 [7]) sampleE sampleB = .error Panic.collaborator := by
  with_unfolding_all exact ⟨rfl, rfl, rfl, rfl, rfl, rfl, rfl, rfl⟩

/-- For a plaintext (one part) and a ciphertext of the same scale with `k+1` parts, all present, `AddPlaintext` and `SubPlaintext` return a ciphertext whose part 0 is the
ring sum `AddLvl`, respectively the ring difference `SubLvl`, of part 0 of the ciphertext and the
plaintext polynomial at the common level, and whose parts `1..k` are the copies `CopyLvl` of the
parts of the ciphertext at the common level. -/
theorem AddPlaintext_SubPlaintext_parts (eval : mkEvaluator) (pt : ckks.Element)
    (c : MKCiphertext) (k lc lpt : Nat)
    (hc : c.Ciphertexts.Value.length = k + 1) (hpt : pt.Value.length = 1)
    (hk : k + 1 < 2 ^ 64) (hscale : c.Ciphertexts.scale = pt.scale)
    (hlc : eval.Level c.Ciphertexts = some lc) (hlpt : eval.Level pt = some lpt)
    (hget3 : ∀ a b c, eval.GetThreeElementsckksWithNil a b c = (a, b, c))
    (hfresh : FreshReceiver eval (eval.NewCiphertext k (min lc lpt)
      (max c.Ciphertexts.scale pt.scale)) k (min lc lpt))
    (hlv : ∀ el : ckks.Element, (∃ p : ring.Poly, el.Value[0]? = some (some p)) →
      ∃ l : Nat, eval.Level el = some l)
    (hall : ∀ j : Nat, j ≤ k → ∃ p : ring.Poly, c.Ciphertexts.Value[j]? = some (some p))
    (hpt0 : ∃ p : ring.Poly, pt.Value[0]? = some (some p)) :
    ∃ sum diff : MKCiphertext,
      AddPlaintext eval pt c = .ok sum ∧ SubPlaintext eval pt c = .ok diff ∧
      sum.Ciphertexts.Value.length = k + 1 ∧ diff.Ciphertexts.Value.length = k + 1 ∧
      (∃ c0 p0 po : ring.Poly, c.Ciphertexts.Value[0]? = some (some c0) ∧
        pt.Value[0]? = some (some p0) ∧
        (eval.NewCiphertext k (min lc lpt) (max c.Ciphertexts.scale pt.scale)).Value[0]? =
          some (some po) ∧
        sum.Ciphertexts.Value[0]? = some (some (eval.ringQ.AddLvl (min lc lpt) c0 p0 po)) ∧
        diff.Ciphertexts.Value[0]? = some (some (eval.ringQ.SubLvl (min lc lpt) c0 p0 po))) ∧
      ∀ j : Nat, 1 ≤ j → j ≤ k → ∃ cj po : ring.Poly,
        c.Ciphertexts.Value[j]? = some (some cj) ∧
        (eval.NewCiphertext k (min lc lpt) (max c.Ciphertexts.scale pt.scale)).Value[j]? =
          some (some po) ∧
        sum.Ciphertexts.Value[j]? = some (some (eval.ringQ.CopyLvl (min lc lpt) cj po)) ∧
        diff.Ciphertexts.Value[j]? = some (some (eval.ringQ.CopyLvl (min lc lpt) cj po)) := by
  have halign := fun fresh =>
    evaluateInPlace.align_other_eq eval c.Ciphertexts pt fresh hscale
  obtain ⟨resA, hresA, _, hlA, hgetA, hcopyA⟩ :=
    AddNew_other eval c.Ciphertexts pt c.Ciphertexts pt k 0 lc lpt hc hpt (Nat.zero_le k) hk
      hlc hlpt hget3 hfresh halign (by omega) (by omega) (fun j _ hj => hall j hj)
  obtain ⟨resS, hresS, _, hlS, hgetS, hcopyS⟩ :=
    SubNew_other eval c.Ciphertexts pt c.Ciphertexts pt k 0 lc lpt hc hpt (Nat.zero_le k) hk
      hlc hlpt hget3 hfresh halign (by omega) (by omega) (fun j _ hj => hall j hj) hlv
      (Or.inr hpt0)
      (fun j hj hnone _ _ => by
        obtain ⟨p, hp⟩ := hall j (by omega)
        rw [List.getD_eq_getElem?_getD, hp] at hnone
        exact Option.noConfusion hnone)
  refine ⟨{ eval.NewMKCiphertext c.PeerID lc c.Ciphertexts.scale with Ciphertexts := resA },
    { eval.NewMKCiphertext c.PeerID lc c.Ciphertexts.scale with Ciphertexts := resS },
    ?_, ?_, hlA, hlS, ?_, ?_⟩
  · unfold AddPlaintext
    rw [levelOf_of_some eval _ lc hlc, ok_bind, hresA]
    rfl
  · unfold SubPlaintext
    rw [levelOf_of_some eval _ lc hlc, ok_bind, hresS]
    rfl
  · obtain ⟨c0, hc0⟩ := hall 0 (Nat.zero_le k)
    obtain ⟨p0, hp0⟩ := hpt0
    obtain ⟨po, hpo⟩ := hfresh.present 0 (Nat.zero_le k)
    refine ⟨c0, p0, po, hc0, hp0, hpo, ?_, ?_⟩
    · show resA.Value[0]? = _
      rw [hgetA 0 (Nat.le_refl 0)]
      simp only [List.getD_eq_getElem?_getD, hc0, hp0, hpo, Option.getD_some,
        evaluateInPlace.combine]
    · show resS.Value[0]? = _
      rw [hgetS 0 (Nat.le_refl 0)]
      simp only [List.getD_eq_getElem?_getD, hc0, hp0, hpo, Option.getD_some,
        evaluateInPlace.combine]
  · intro j hj1 hj2
    obtain ⟨cj, hcj⟩ := hall j hj2
    obtain ⟨po, hpo⟩ := hfresh.present j hj2
    refine ⟨cj, po, hcj, hpo, ?_, ?_⟩
    · show resA.Value[j]? = _
      rw [hcopyA j (by omega) hj2]
      simp only [List.getD_eq_getElem?_getD, hcj, hpo, Option.getD_some]
    · show resS.Value[j]? = _
      rw [hcopyS j (by omega) hj2]
      simp only [List.getD_eq_getElem?_getD, hcj, hpo, Option.getD_some]

end mkckks

namespace mkckks

theorem AddPlaintext_SubPlaintext_parts_witness :
    ∃ sum diff : MKCiphertext,
      AddPlaintext (exactEvaluator 2 [7, 11]) samplePlaintext sampleE = .ok sum ∧
      SubPlaintext (exactEvaluator 2 [7, 11]) samplePlaintext sampleE = .ok diff ∧
      sum.Ciphertexts.Value.length = 1 + 1 ∧ diff.Ciphertexts.Value.length = 1 + 1 ∧
      (∃ c0 p0 po : ring.Poly, sampleE.Ciphertexts.Value[0]? = some (some c0) ∧
        samplePlaintext.Value[0]? = some (some p0) ∧
        ((exactEvaluator 2 [7, 11]).NewCiphertext 1 (min 0 0)
          (max sampleE.Ciphertexts.scale samplePlaintext.scale)).Value[0]? = some (some po) ∧
        sum.Ciphertexts.Value[0]? =
          some (some ((exactEvaluator 2 [7, 11]).ringQ.AddLvl (min 0 0) c0 p0 po)) ∧
        diff.Ciphertexts.Value[0]? =
          some (some ((exactEvaluator 2 [7, 11]).ringQ.SubLvl (min 0 0) c0 p0 po))) ∧
      ∀ j : Nat, 1 ≤ j → j ≤ 1 → ∃ cj po : ring.Poly,
        sampleE.Ciphertexts.Value[j]? = some (some cj) ∧
        ((exactEvaluator 2 [7, 11]).NewCiphertext 1 (min 0 0)
          (max sampleE.Ciphertexts.scale samplePlaintext.scale)).Value[j]? = some (some po) ∧
        sum.Ciphertexts.Value[j]? =
          some (some ((exactEvaluator 2 [7, 11]).ringQ.CopyLvl (min 0 0) cj po)) ∧
        diff.Ciphertexts.Value[j]? =
          some (some ((exactEvaluator 2 [7, 11]).ringQ.CopyLvl (min 0 0) cj po)) :=
  AddPlaintext_SubPlaintext_parts (exactEvaluator 2 [7, 11]) samplePlaintext sampleE 1 0 0 rfl rfl
    (by norm_num) rfl rfl rfl (fun _ _ _ => rfl) (exactEvaluator_fresh 2 [7, 11] 1 (min 0 0) _)
    (exactEvaluator_level 2 [7, 11])
    (fun j hj => match j, hj with
      | 0, _ => ⟨_, rfl⟩
      | 1, _ => ⟨_, rfl⟩
      | n + 2, h => absurd h (by omega))
    ⟨_, rfl⟩

set_option maxRecDepth 8000 in
/-- C12, evaluated on a plaintext and a ciphertext of different scales, over the single modulus 7
and with all parts present: for the plaintext of scale 4 and the ciphertext `sampleE` of scale 2,
and for the plaintext of scale 2 and the ciphertext `sampleB` of scale 3, `AddPlaintext` and
`SubPlaintext` return no ciphertext: the alignment of the scales hands the element
`new(ckks.Element)`, which has no part, to `MultByConst` as its receiver, and `MultByConst` aborts
on reading the level of its receiver. -/
theorem AddPlaintext_SubPlaintext_abort_on_different_scales :
    samplePlaintextScale4.scale = 4 ∧ sampleE.Ciphertexts.scale = 2 ∧
      samplePlaintext.scale = 2 ∧ sampleB.Ciphertexts.scale = 3 ∧
      sampleE.Ciphertexts.Value = [some [[5, 6]], some [[1, 2]]] ∧
      sampleB.Ciphertexts.Value = [some [[5, 6]], some [[1, 2]]] ∧
      AddPlaintext (exactEvaluator 2 [7]) samplePlaintextScale4 sampleE =
        .error Panic.collaborator ∧
      SubPlaintext (exactEvaluator 2 [7]) samplePlaintextScale4 sampleE =
        .error Panic.collaborator ∧
      AddPlaintext (exactEvaluator 2 [7]) samplePlaintext sampleB = .error Panic.collaborator ∧
      SubPlaintext (exactEvaluator 2 [7]) samplePlaintext sampleB = .error Panic.collaborator := by
  with_unfolding_all exact ⟨rfl, rfl, rfl, rfl, rfl, rfl, rfl, rfl, rfl, rfl⟩

end mkckks

namespace mkrlwe

theorem count_foldl_step (s2 : List Nat) : ∀ (s3 : List Nat) (x : Nat),
    (s2.foldl MergeSlices.step s3).count x =
      if x ∈ s3 then s3.count x else if x ∈ s2 then 1 else 0 := by
  induction s2 with
  | nil =>
    intro s3 x
    by_cases h : x ∈ s3
    · simp [h]
    · simp [h, List.count_eq_zero_of_not_mem h]
  | cons a t ih =>
    intro s3 x
    rw [List.foldl_cons, ih, MergeSlices.step_eq]
    by_cases ha : a ∈ s3
    · rw [if_pos ha]
      by_cases hx : x ∈ s3
      · rw [if_pos hx, if_pos hx]
      · have hne : x ≠ a := fun h => hx (h ▸ ha)
        rw [if_neg hx, if_neg hx]
        simp [hne]
    · rw [if_neg ha]
      by_cases hx : x ∈ s3
      · have hne : a ≠ x := fun h => ha (h ▸ hx)
        have h1 : x ∈ s3 ++ [a] := List.mem_append_left _ hx
        have h0 : List.count x [a] = 0 :=
          List.count_eq_zero_of_not_mem (fun h => hne (List.mem_singleton.mp h).symm)
        rw [if_pos hx, if_pos h1, List.count_append, h0, Nat.add_zero]
      · rw [if_neg hx]
        by_cases hxa : x = a
        · subst hxa
          have h1 : x ∈ s3 ++ [x] := List.mem_append_right _ (List.mem_singleton_self x)
          rw [if_pos h1, List.count_append, List.count_eq_zero_of_not_mem hx]
          simp
        · have h1 : x ∉ s3 ++ [a] := by
            intro h
            rcases List.mem_append.mp h with h2 | h2
            · exact hx h2
            · exact hxa (List.mem_singleton.mp h2)
          rw [if_neg h1]
          simp [hxa]

/-- C28: `MergeSlices` keeps the multiplicities of its first argument: a value of `s1` occurs in
`MergeSlices s1 s2` as many times as in `s1`, a value of `s2` that is not in `s1` occurs exactly
once, and the result is duplicate-free if and only if `s1` is. -/
theorem MergeSlices_count (s1 s2 : List Nat) :
    (∀ x ∈ s1, (MergeSlices s1 s2).count x = s1.count x) ∧
      (∀ x ∈ s2, x ∉ s1 → (MergeSlices s1 s2).count x = 1) ∧
      ((MergeSlices s1 s2).Nodup ↔ s1.Nodup) := by
  have hcount : ∀ x : Nat, (MergeSlices s1 s2).count x =
      if x ∈ s1 then s1.count x else if x ∈ s2 then 1 else 0 := by
    intro x
    unfold MergeSlices sortSlice
    rw [(List.perm_insertionSort (· ≤ ·) _).count_eq x, count_foldl_step]
  refine ⟨?_, ?_, ?_, ?_⟩
  · intro x hx
    rw [hcount x, if_pos hx]
  · intro x hx2 hx1
    rw [hcount x, if_neg hx1, if_pos hx2]
  · intro h
    rw [List.nodup_iff_count_le_one] at h ⊢
    intro x
    by_cases hx : x ∈ s1
    · have := h x
      rw [hcount x, if_pos hx] at this
      exact this
    · rw [List.count_eq_zero_of_not_mem hx]
      exact Nat.zero_le 1
  · intro h
    unfold MergeSlices sortSlice
    exact ((List.perm_insertionSort (· ≤ ·) _).nodup_iff).2 (nodup_foldl_step s2 s1 h)

end mkrlwe

namespace mkckks

/-- C30: converting a degree-1 ciphertext with an identifier to a multi-key ciphertext and back
gives a list of one ciphertext, which holds the two parts of the ciphertext and its scale. -/
theorem Convert_round_trip (ct : ckks.Element) (id : Nat) (hdeg : ct.Degree = 1)
    (hlen : ct.Value.length < 2 ^ 64) :
    ∃ (c0 c1 : Option ring.Poly) (mk : MKCiphertext), ct.Value = [c0, c1] ∧
      ConvertToMKCiphertext [ct] [id] = .ok [mk] ∧
      ConvertToCKKSCiphertext mk =
        .ok [some { Value := [c0, c1], scale := ct.scale, IsNTT := true }] := by
  have h2 : ct.Value.length = 2 := by
    unfold ckks.Element.Degree at hdeg
    omega
  obtain ⟨c0, c1, hv⟩ : ∃ c0 c1 : Option ring.Poly, ct.Value = [c0, c1] := by
    match hm : ct.Value, h2 with
    | [a, b], _ => exact ⟨a, b, rfl⟩
  refine ⟨c0, c1, { Ciphertexts := ct, PeerID := [id] }, hv, ?_, ?_⟩
  · rw [ConvertToMKCiphertext_eq [ct] [id] (fun c hc => by
      rw [List.mem_singleton.mp hc]
      exact hdeg) rfl]
    rfl
  · unfold ConvertToCKKSCiphertext readPart
    simp only [hv]
    rfl

theorem Convert_round_trip_witness :
    ∃ (c0 c1 : Option ring.Poly) (mk : MKCiphertext), sampleB.Ciphertexts.Value = [c0, c1] ∧
      ConvertToMKCiphertext [sampleB.Ciphertexts] [7] = .ok [mk] ∧
      ConvertToCKKSCiphertext mk =
        .ok [some { Value := [c0, c1], scale := sampleB.Ciphertexts.scale, IsNTT := true }] :=
  Convert_round_trip sampleB.Ciphertexts 7 rfl (by decide)

theorem MultPlaintext.loop_ok (ringQ : ring.Ring) (level : Nat) (tmp : ring.Poly) :
    ∀ (vs : List (Option ring.Poly)) (i : Nat) (val : List (Option ring.Poly)),
      i + vs.length ≤ val.length →
      ∃ res : List (Option ring.Poly),
        MultPlaintext.loop ringQ level tmp vs i val = .ok res ∧ res.length = val.length := by
  intro vs
  induction vs with
  | nil =>
    intro i val _
    exact ⟨val, rfl, rfl⟩
  | cons v rest ih =>
    intro i val h
    simp only [List.length_cons] at h
    have hi : i < val.length := by omega
    have hi2 : i < (val.set i (some ringQ.NewPoly)).length := by
      rw [List.length_set]
      exact hi
    rw [MultPlaintext.loop, setIndex_ok val i _ hi, ok_bind]
    cases v with
    | none =>
      dsimp only
      rw [setIndex_ok _ i _ hi2, ok_bind]
      obtain ⟨res, hres, hl⟩ := ih (i + 1)
        ((val.set i (some ringQ.NewPoly)).set i (some tmp)) (by
          rw [List.length_set, List.length_set]
          omega)
      exact ⟨res, hres, by rw [hl, List.length_set, List.length_set]⟩
    | some p =>
      dsimp only
      rw [setIndex_ok _ i _ hi2, ok_bind]
      obtain ⟨res, hres, hl⟩ := ih (i + 1)
        ((val.set i (some ringQ.NewPoly)).set i
          (some (ringQ.MulCoeffsMontgomeryLvl level tmp p ringQ.NewPoly))) (by
          rw [List.length_set, List.length_set]
          omega)
      exact ⟨res, hres, by rw [hl, List.length_set, List.length_set]⟩

theorem MultPlaintext.loop_out_of_range (ringQ : ring.Ring) (level : Nat) (tmp : ring.Poly) :
    ∀ (vs : List (Option ring.Poly)) (i : Nat) (val : List (Option ring.Poly)),
      i ≤ val.length → val.length < i + vs.length →
      MultPlaintext.loop ringQ level tmp vs i val = .error Panic.indexOutOfRange := by
  intro vs
  induction vs with
  | nil =>
    intro i val h1 h2
    simp only [List.length_nil] at h2
    omega
  | cons v rest ih =>
    intro i val h1 h2
    simp only [List.length_cons] at h2
    by_cases hi : i < val.length
    · have hi2 : i < (val.set i (some ringQ.NewPoly)).length := by
        rw [List.length_set]
        exact hi
      rw [MultPlaintext.loop, setIndex_ok val i _ hi, ok_bind]
      cases v with
      | none =>
        dsimp only
        rw [setIndex_ok _ i _ hi2, ok_bind]
        exact ih (i + 1) ((val.set i (some ringQ.NewPoly)).set i (some tmp))
          (by rw [List.length_set, List.length_set]; omega)
          (by rw [List.length_set, List.length_set]; omega)
      | some p =>
        dsimp only
        rw [setIndex_ok _ i _ hi2, ok_bind]
        exact ih (i + 1)
          ((val.set i (some ringQ.NewPoly)).set i
            (some (ringQ.MulCoeffsMontgomeryLvl level tmp p ringQ.NewPoly)))
          (by rw [List.length_set, List.length_set]; omega)
          (by rw [List.length_set, List.length_set]; omega)
    · have hset : setIndex val (i : Int) (some ringQ.NewPoly) = .error Panic.indexOutOfRange := by
        unfold setIndex
        rw [if_neg (by omega)]
      rw [MultPlaintext.loop, hset]
      rfl

theorem MultPlaintext_eq_loop (eval : mkEvaluator) (pt : ckks.Element) (c : MKCiphertext)
    (lc lpt : Nat) (p0 : ring.Poly) (hlc : eval.Level c.Ciphertexts = some lc)
    (hlpt : eval.Level pt = some lpt) (hp0 : pt.Value[0]? = some (some p0)) :
    MultPlaintext eval pt c =
      (MultPlaintext.loop eval.ringQ (min lc lpt)
        (eval.ringQ.MFormLvl (min lc lpt) p0 eval.ringQ.NewPoly) c.Ciphertexts.Value 0
        (List.replicate (c.PeerID.length + 1) none) >>= fun val =>
      pure { eval.NewMKCiphertext c.PeerID lc c.Ciphertexts.scale with
        Ciphertexts := { (eval.NewMKCiphertext c.PeerID lc c.Ciphertexts.scale).Ciphertexts with
          Value := val, scale := pt.scale * c.Ciphertexts.scale } }) := by
  unfold MultPlaintext
  rw [levelOf_of_some eval _ lc hlc, levelOf_of_some eval _ lpt hlpt, ok_bind, ok_bind, ok_bind,
    readPart_of_get pt 0 _ hp0, ok_bind]

end mkckks

namespace mkckks

/-- C29: `MultPlaintext` (on a plaintext with a part 0 and operands whose level can be read)
returns exactly when the ciphertext has at most `len(PeerID)+1` parts, and aborts on an index out
of range of the array `val` when it has more. In particular, for `k ≥ 1` participants, the product
returned by `Mul` has `(k+1)^2` parts for `k` identifiers, and `MultPlaintext` aborts on it, on
that index whenever the level of the product can be read. -/
theorem MultPlaintext_index_bounds (eval : mkEvaluator) (pt : ckks.Element) (lpt : Nat)
    (p0 : ring.Poly) (hlpt : eval.Level pt = some lpt) (hp0 : pt.Value[0]? = some (some p0)) :
    (∀ (c : MKCiphertext) (lc : Nat), eval.Level c.Ciphertexts = some lc →
      ((∃ out : MKCiphertext, MultPlaintext eval pt c = .ok out) ↔
        c.Ciphertexts.Value.length ≤ c.PeerID.length + 1) ∧
      (c.PeerID.length + 1 < c.Ciphertexts.Value.length →
        MultPlaintext eval pt c = .error Panic.indexOutOfRange)) ∧
    (∀ (c1 c2 padded1 padded2 : MKCiphertext) (k la lb : Nat),
      eval.PadCiphers c1 c2 = (padded1, padded2) →
      padded1.Ciphertexts.Value.length = k + 1 → padded2.Ciphertexts.Value.length = k + 1 →
      padded1.PeerID.length = k → 1 ≤ k → (k + 1) * (k + 1) < 2 ^ 63 →
      padded1.Ciphertexts.IsNTT = true → padded2.Ciphertexts.IsNTT = true →
      eval.Level padded1.Ciphertexts = some la → eval.Level padded2.Ciphertexts = some lb →
      ∃ prod : MKCiphertext, Mul eval c1 c2 = .ok prod ∧
        prod.Ciphertexts.Value.length = (k + 1) * (k + 1) ∧ prod.PeerID.length = k ∧
        (∃ e : Panic, MultPlaintext eval pt prod = .error e) ∧
        (∀ l : Nat, eval.Level prod.Ciphertexts = some l →
          MultPlaintext eval pt prod = .error Panic.indexOutOfRange)) := by
  have hlong : ∀ (c : MKCiphertext) (lc : Nat), eval.Level c.Ciphertexts = some lc →
      c.PeerID.length + 1 < c.Ciphertexts.Value.length →
      MultPlaintext eval pt c = .error Panic.indexOutOfRange := by
    intro c lc hlc h
    rw [MultPlaintext_eq_loop eval pt c lc lpt p0 hlc hlpt hp0,
      MultPlaintext.loop_out_of_range eval.ringQ _ _ c.Ciphertexts.Value 0 _ (Nat.zero_le _)
        (by rw [List.length_replicate]; omega)]
    rfl
  refine ⟨?_, ?_⟩
  · intro c lc hlc
    refine ⟨⟨?_, ?_⟩, hlong c lc hlc⟩
    · rintro ⟨out, hout⟩
      by_contra hgt
      rw [hlong c lc hlc (by omega)] at hout
      cases hout
    · intro hle
      obtain ⟨res, hres, _⟩ := MultPlaintext.loop_ok eval.ringQ (min lc lpt)
        (eval.ringQ.MFormLvl (min lc lpt) p0 eval.ringQ.NewPoly) c.Ciphertexts.Value 0
        (List.replicate (c.PeerID.length + 1) none) (by rw [List.length_replicate]; omega)
      rw [MultPlaintext_eq_loop eval pt c lc lpt p0 hlc hlpt hp0, hres]
      exact ⟨_, rfl⟩
  · intro c1 c2 padded1 padded2 k la lb hpad h1 h2 hid hk1 hk hn1 hn2 hla hlb
    obtain ⟨res, hres, hlen, _⟩ :=
      Mul_eq_ok eval c1 c2 padded1 padded2 hpad k h1 h2 hk hn1 hn2 la lb hla hlb
    have hmore : k + 1 < (k + 1) * (k + 1) := by
      have e : (k + 1) * (k + 1) = (k + 1) * k + (k + 1) := by ring
      have hpos : 0 < (k + 1) * k := Nat.mul_pos (Nat.succ_pos k) (by omega)
      omega
    have hidx : ∀ l : Nat, eval.Level
        ({ Ciphertexts :=
            { Value := res
              scale := padded1.Ciphertexts.scale * padded2.Ciphertexts.scale
              IsNTT := true }
           PeerID := padded1.PeerID } : MKCiphertext).Ciphertexts = some l →
        MultPlaintext eval pt
          { Ciphertexts :=
              { Value := res
                scale := padded1.Ciphertexts.scale * padded2.Ciphertexts.scale
                IsNTT := true }
            PeerID := padded1.PeerID } = .error Panic.indexOutOfRange := by
      intro l hl
      apply hlong _ l hl
      show padded1.PeerID.length + 1 < res.length
      rw [hid, hlen]
      exact hmore
    refine ⟨_, hres, hlen, hid, ?_, hidx⟩
    cases hl : eval.Level
        ({ Ciphertexts :=
            { Value := res
              scale := padded1.Ciphertexts.scale * padded2.Ciphertexts.scale
              IsNTT := true }
           PeerID := padded1.PeerID } : MKCiphertext).Ciphertexts with
    | some l => exact ⟨_, hidx l hl⟩
    | none =>
      refine ⟨Panic.collaborator, ?_⟩
      unfold MultPlaintext levelOf
      rw [hl]
      rfl

theorem MultPlaintext_index_bounds_witness :
    ∃ prod : MKCiphertext, Mul (exactEvaluator 2 [7, 11]) sampleB sampleB = .ok prod ∧
      prod.Ciphertexts.Value.length = (1 + 1) * (1 + 1) ∧ prod.PeerID.length = 1 ∧
      (∃ e : Panic, MultPlaintext (exactEvaluator 2 [7, 11]) samplePlaintext prod = .error e) ∧
      (∀ l : Nat, (exactEvaluator 2 [7, 11]).Level prod.Ciphertexts = some l →
        MultPlaintext (exactEvaluator 2 [7, 11]) samplePlaintext prod =
          .error Panic.indexOutOfRange) :=
  (MultPlaintext_index_bounds (exactEvaluator 2 [7, 11]) samplePlaintext 0 [[1, 1]] rfl rfl).2
    sampleB sampleB sampleB sampleB 1 0 0 rfl rfl rfl rfl (by decide) (by norm_num) rfl rfl rfl
    rfl

end mkckks

namespace rlwe

theorem window_sum (c p : Nat) : ∀ n : Nat,
    ((List.range n).map fun j => c / 2 ^ (j * p) % 2 ^ p * 2 ^ (j * p)).sum =
      c % 2 ^ (n * p) := by
  intro n
  induction n with
  | zero =>
    simp [Nat.mod_one]
  | succ n ih =>
    rw [List.range_succ, List.map_append, List.sum_append, ih]
    simp only [List.map_cons, List.map_nil, List.sum_cons, List.sum_nil, Nat.add_zero]
    rw [Nat.succ_mul, Nat.pow_add, Nat.mod_mul, Nat.mul_comm (2 ^ (n * p))]

theorem MaskVec_window (c w p : Nat) :
    (MaskVec [c] w (2 ^ p - 1)).getD 0 0 = c / 2 ^ w % 2 ^ p := by
  show (c >>> w) &&& (2 ^ p - 1) = _
  rw [Nat.and_pow_two_sub_one_eq_mod, Nat.shiftRight_eq_div_pow]

/-- C26: for a window size `1 ≤ pw2 ≤ 63` the mask is `2^pw2 - 1`, and the windows
`(c >> (j*pw2)) & mask`, `j < decompPw2`, of a 64-bit coefficient `c < 2^(pw2*decompPw2)` are
below `2^pw2` and rebuild the coefficient: the sum of `w_j * 2^(j*pw2)` is `c`. -/
theorem bitDecomp_windows (pw2 decompPw2 c : Nat) (h1 : 1 ≤ pw2) (h2 : pw2 ≤ 63)
    (hc64 : c < 2 ^ 64) (hc : c < 2 ^ (pw2 * decompPw2)) :
    GadgetProductSinglePAndBitDecompNoModDown.mask pw2 = 2 ^ pw2 - 1 ∧
      ((List.range decompPw2).map fun j =>
        (MaskVec [c] (j * pw2) (GadgetProductSinglePAndBitDecompNoModDown.mask pw2)).getD 0 0 *
          2 ^ (j * pw2)).sum = c ∧
      ∀ j : Nat, j < decompPw2 →
        (MaskVec [c] (j * pw2) (GadgetProductSinglePAndBitDecompNoModDown.mask pw2)).getD 0 0 <
          2 ^ pw2 := by
  have _ := hc64
  have hle : 2 ^ pw2 ≤ 2 ^ 63 := Nat.pow_le_pow_right (by norm_num) h2
  have hge : 2 ^ 1 ≤ 2 ^ pw2 := Nat.pow_le_pow_right (by norm_num) h1
  have hmask : GadgetProductSinglePAndBitDecompNoModDown.mask pw2 = 2 ^ pw2 - 1 := by
    unfold GadgetProductSinglePAndBitDecompNoModDown.mask
    rw [Nat.one_shiftLeft]
    have e1 : 2 ^ pw2 % 2 ^ 64 = 2 ^ pw2 := Nat.mod_eq_of_lt (by omega)
    have e2 : (2 ^ pw2 + (2 ^ 64 - 1)) % 2 ^ 64 = 2 ^ pw2 - 1 := by omega
    simp only [e1, e2]
    rw [if_neg (by omega)]
  refine ⟨hmask, ?_, ?_⟩
  · rw [hmask]
    simp only [MaskVec_window]
    rw [window_sum c pw2 decompPw2, Nat.mul_comm decompPw2 pw2]
    exact Nat.mod_eq_of_lt hc
  · intro j _
    rw [hmask, MaskVec_window]
    exact Nat.mod_lt _ (by omega)

theorem bitDecomp_windows_witness :
    GadgetProductSinglePAndBitDecompNoModDown.mask 3 = 2 ^ 3 - 1 ∧
      ((List.range 2).map fun j =>
        (MaskVec [45] (j * 3) (GadgetProductSinglePAndBitDecompNoModDown.mask 3)).getD 0 0 *
          2 ^ (j * 3)).sum = 45 ∧
      ∀ j : Nat, j < 2 →
        (MaskVec [45] (j * 3) (GadgetProductSinglePAndBitDecompNoModDown.mask 3)).getD 0 0 <
          2 ^ 3 :=
  bitDecomp_windows 3 2 45 (by decide) (by decide) (by norm_num) (by norm_num)

theorem emod_pred_iff (d : Nat) (F : Int) (hF : 1 ≤ F) :
    (d : Int) % F = F - 1 ↔ ((d + 1 : Nat) : Int) % F = 0 := by
  constructor
  · intro h
    have h1 := Int.emod_add_ediv (d : Int) F
    have h2 : ((d + 1 : Nat) : Int) = F * ((d : Int) / F + 1) := by
      push_cast
      rw [Int.mul_add, Int.mul_one]
      omega
    rw [h2]
    exact Int.mul_emod_right F _
  · intro h
    obtain ⟨c, hc⟩ := Int.dvd_of_emod_eq_zero h
    have h2 : (d : Int) = (F - 1) + F * (c - 1) := by
      push_cast at hc
      rw [Int.mul_sub, Int.mul_one]
      omega
    rw [h2, Int.add_mul_emod_self_left]
    exact Int.emod_eq_of_lt (by omega) (by omega)

theorem GadgetProductNoModDown.periodic_eq (OverF : Int) (reduce : Nat)
    (red : CiphertextQP → CiphertextQP) (ct : CiphertextQP) (h : OverF ≠ 0) :
    GadgetProductNoModDown.periodic OverF reduce red ct =
      .ok ((if (reduce : Int) % OverF = OverF - 1 then red else id) ct) := by
  unfold GadgetProductNoModDown.periodic
  rw [if_neg h]
  by_cases h2 : (reduce : Int) % OverF = OverF - 1
  · rw [if_pos h2, if_pos h2]
    rfl
  · rw [if_neg h2, if_neg h2]
    rfl

theorem GadgetProductNoModDown.last_eq (OverF : Int) (reduce : Nat)
    (red : CiphertextQP → CiphertextQP) (ct : CiphertextQP) (h : OverF ≠ 0) :
    GadgetProductNoModDown.last OverF reduce red ct =
      .ok ((if (reduce : Int) % OverF ≠ 0 then red else id) ct) := by
  unfold GadgetProductNoModDown.last
  rw [if_neg h]
  by_cases h2 : (reduce : Int) % OverF ≠ 0
  · rw [if_pos h2, if_pos h2]
    rfl
  · rw [if_neg h2, if_neg h2]
    rfl

open GadgetProductNoModDown in
theorem GadgetProductNoModDown.loop_last (eval : Evaluator) (r : RingQP)
    (levelQ levelP : Int) (cxNTT cxInvNTT : ring.Poly) (gadgetCt : GadgetCiphertext)
    (QiOverF PiOverF : Int) (hq : QiOverF ≠ 0) (hp : PiOverF ≠ 0) :
    ∀ (n i reduce : Nat) (ct : CiphertextQP),
      (∀ j : Nat, i ≤ j → j ≤ i + n → ∃ cell, gadgetCt.cell? j 0 = some cell) →
      ∃ (pre cell : CiphertextQP), gadgetCt.cell? (i + n) 0 = some cell ∧
        loop eval r levelQ levelP cxNTT cxInvNTT gadgetCt QiOverF PiOverF n i reduce
          (bufferAt eval levelQ levelP cxNTT cxInvNTT i) ct = .ok (reduce + n, pre) ∧
        loop eval r levelQ levelP cxNTT cxInvNTT gadgetCt QiOverF PiOverF (n + 1) i reduce
          (bufferAt eval levelQ levelP cxNTT cxInvNTT i) ct =
          .ok (reduce + n + 1,
            (if ((reduce + n : Nat) : Int) % PiOverF = PiOverF - 1 then reduceP r else id)
              ((if ((reduce + n : Nat) : Int) % QiOverF = QiOverF - 1 then reduceQ r else id)
                (accumulate r (i + n) cell
                  (digit eval levelQ levelP cxNTT cxInvNTT (i + n)) pre))) := by
  intro n
  induction n with
  | zero =>
    intro i reduce ct hcell
    obtain ⟨cell, hc⟩ := hcell i (Nat.le_refl i) (Nat.le_refl i)
    have hdig : decompose eval levelQ levelP cxNTT cxInvNTT i
        (bufferAt eval levelQ levelP cxNTT cxInvNTT i) =
        digit eval levelQ levelP cxNTT cxInvNTT i := by
      cases i <;> rfl
    refine ⟨ct, cell, hc, rfl, ?_⟩
    rw [loop]
    simp only [hdig, hc]
    rw [periodic_eq _ _ _ _ hq, mkckks.ok_bind_any, periodic_eq _ _ _ _ hp, mkckks.ok_bind_any]
    rfl
  | succ n ih =>
    intro i reduce ct hcell
    obtain ⟨cell0, hc0⟩ := hcell i (Nat.le_refl i) (by omega)
    have hdig : decompose eval levelQ levelP cxNTT cxInvNTT i
        (bufferAt eval levelQ levelP cxNTT cxInvNTT i) =
        bufferAt eval levelQ levelP cxNTT cxInvNTT (i + 1) := by
      cases i <;> rfl
    obtain ⟨ct1, hct1, _⟩ := periodic_ok QiOverF reduce (reduceQ r)
      (accumulate r i cell0 (bufferAt eval levelQ levelP cxNTT cxInvNTT (i + 1)) ct) hq
    obtain ⟨ct2, hct2, _⟩ := periodic_ok PiOverF reduce (reduceP r) ct1 hp
    obtain ⟨pre, cell, hc, hpre, hlast⟩ := ih (i + 1) (reduce + 1) ct2
      (fun j hj1 hj2 => hcell j (by omega) (by omega))
    have e1 : i + 1 + n = i + (n + 1) := by omega
    have e2 : reduce + 1 + n = reduce + (n + 1) := by omega
    rw [e1, e2] at hlast
    rw [e1] at hc
    rw [e2] at hpre
    refine ⟨pre, cell, hc, ?_, ?_⟩
    · rw [loop]
      simp only [hdig, hc0]
      rw [hct1, mkckks.ok_bind_any, hct2, mkckks.ok_bind_any]
      exact hpre
    · rw [loop]
      simp only [hdig, hc0]
      rw [hct1, mkckks.ok_bind_any, hct2, mkckks.ok_bind_any]
      exact hlast

end rlwe

namespace rlwe

open GadgetProductNoModDown in
theorem GadgetProductNoModDown.run_last (eval : Evaluator) (levelQ : Int) (cx : ring.Poly)
    (gadgetCt : GadgetCiphertext) (ct : CiphertextQP)
    (hd : 1 ≤ eval.params.DecompRNS levelQ gadgetCt.LevelP)
    (hq : 1 ≤ eval.params.QiOverflowMargin levelQ / 2)
    (hp : 1 ≤ eval.params.PiOverflowMargin gadgetCt.LevelP / 2)
    (hg : ∀ i : Nat, (i : Int) < eval.params.DecompRNS levelQ gadgetCt.LevelP →
      ∃ cell, gadgetCt.cell? i 0 = some cell) :
    ∃ (pre cell : CiphertextQP),
      gadgetCt.cell? ((eval.params.DecompRNS levelQ gadgetCt.LevelP).toNat - 1) 0 = some cell ∧
      loop eval (eval.params.RingQPAtLevel levelQ gadgetCt.LevelP) levelQ gadgetCt.LevelP
          (inputs eval (eval.params.RingQPAtLevel levelQ gadgetCt.LevelP).RingQ ct.IsNTT cx).1
          (inputs eval (eval.params.RingQPAtLevel levelQ gadgetCt.LevelP).RingQ ct.IsNTT cx).2
          gadgetCt (eval.params.QiOverflowMargin levelQ / 2)
          (eval.params.PiOverflowMargin gadgetCt.LevelP / 2)
          ((eval.params.DecompRNS levelQ gadgetCt.LevelP).toNat - 1) 0 0 eval.BuffQP0 ct =
        .ok ((eval.params.DecompRNS levelQ gadgetCt.LevelP).toNat - 1, pre) ∧
      GadgetProductNoModDown eval levelQ cx gadgetCt ct =
        .ok (reduceP (eval.params.RingQPAtLevel levelQ gadgetCt.LevelP)
          (reduceQ (eval.params.RingQPAtLevel levelQ gadgetCt.LevelP)
            (accumulate (eval.params.RingQPAtLevel levelQ gadgetCt.LevelP)
              ((eval.params.DecompRNS levelQ gadgetCt.LevelP).toNat - 1) cell
              (digit eval levelQ gadgetCt.LevelP
                (inputs eval (eval.params.RingQPAtLevel levelQ gadgetCt.LevelP).RingQ ct.IsNTT
                  cx).1
                (inputs eval (eval.params.RingQPAtLevel levelQ gadgetCt.LevelP).RingQ ct.IsNTT
                  cx).2
                ((eval.params.DecompRNS levelQ gadgetCt.LevelP).toNat - 1)) pre))) := by
  have hq0 : eval.params.QiOverflowMargin levelQ / 2 ≠ 0 := by omega
  have hp0 : eval.params.PiOverflowMargin gadgetCt.LevelP / 2 ≠ 0 := by omega
  obtain ⟨n, hn⟩ : ∃ n : Nat, (eval.params.DecompRNS levelQ gadgetCt.LevelP).toNat = n + 1 :=
    ⟨(eval.params.DecompRNS levelQ gadgetCt.LevelP).toNat - 1, by omega⟩
  obtain ⟨pre, cell, hc, hpre, hlast⟩ :=
    loop_last eval (eval.params.RingQPAtLevel levelQ gadgetCt.LevelP) levelQ gadgetCt.LevelP
      (inputs eval (eval.params.RingQPAtLevel levelQ gadgetCt.LevelP).RingQ ct.IsNTT cx).1
      (inputs eval (eval.params.RingQPAtLevel levelQ gadgetCt.LevelP).RingQ ct.IsNTT cx).2
      gadgetCt _ _ hq0 hp0 n 0 0 ct (fun j _ hj => hg j (by omega))
  rw [Nat.zero_add] at hc hpre hlast
  have hb : bufferAt eval levelQ gadgetCt.LevelP
      (inputs eval (eval.params.RingQPAtLevel levelQ gadgetCt.LevelP).RingQ ct.IsNTT cx).1
      (inputs eval (eval.params.RingQPAtLevel levelQ gadgetCt.LevelP).RingQ ct.IsNTT cx).2 0 =
      eval.BuffQP0 := rfl
  rw [hb] at hpre hlast
  have hn1 : (eval.params.DecompRNS levelQ gadgetCt.LevelP).toNat - 1 = n := by omega
  rw [hn1]
  refine ⟨pre, cell, hc, hpre, ?_⟩
  have hQ := emod_pred_iff n (eval.params.QiOverflowMargin levelQ / 2) hq
  have hP := emod_pred_iff n (eval.params.PiOverflowMargin gadgetCt.LevelP / 2) hp
  unfold GadgetProductNoModDown
  simp only [hn]
  rw [hlast, mkckks.ok_bind_any, last_eq _ _ _ _ hq0, mkckks.ok_bind_any, last_eq _ _ _ _ hp0]
  by_cases h1 : ((n : Nat) : Int) % (eval.params.QiOverflowMargin levelQ / 2) =
      eval.params.QiOverflowMargin levelQ / 2 - 1
  · have h1' : ¬ ((n + 1 : Nat) : Int) % (eval.params.QiOverflowMargin levelQ / 2) ≠ 0 :=
      fun h => h (hQ.mp h1)
    by_cases h2 : ((n : Nat) : Int) % (eval.params.PiOverflowMargin gadgetCt.LevelP / 2) =
        eval.params.PiOverflowMargin gadgetCt.LevelP / 2 - 1
    · have h2' : ¬ ((n + 1 : Nat) : Int) % (eval.params.PiOverflowMargin gadgetCt.LevelP / 2)
          ≠ 0 := fun h => h (hP.mp h2)
      simp only [if_pos h1, if_pos h2, if_neg h1', if_neg h2']
      rfl
    · have h2' : ((n + 1 : Nat) : Int) % (eval.params.PiOverflowMargin gadgetCt.LevelP / 2)
          ≠ 0 := fun h => h2 (hP.mpr h)
      simp only [if_pos h1, if_neg h2, if_neg h1', if_pos h2']
      rfl
  · have h1' : ((n + 1 : Nat) : Int) % (eval.params.QiOverflowMargin levelQ / 2) ≠ 0 :=
      fun h => h1 (hQ.mpr h)
    by_cases h2 : ((n : Nat) : Int) % (eval.params.PiOverflowMargin gadgetCt.LevelP / 2) =
        eval.params.PiOverflowMargin gadgetCt.LevelP / 2 - 1
    · have h2' : ¬ ((n + 1 : Nat) : Int) % (eval.params.PiOverflowMargin gadgetCt.LevelP / 2)
          ≠ 0 := fun h => h (hP.mp h2)
      simp only [if_neg h1, if_pos h2, if_pos h1', if_neg h2']
      rfl
    · have h2' : ((n + 1 : Nat) : Int) % (eval.params.PiOverflowMargin gadgetCt.LevelP / 2)
          ≠ 0 := fun h => h2 (hP.mpr h)
      simp only [if_neg h1, if_neg h2, if_pos h1', if_pos h2']
      rfl

open GadgetProductNoModDown in
/-- C25: for `decompRNS ≥ 1`, halved margins `QiOverF, PiOverF ≥ 1` and a gadget table with the
cells `gadget[i][0]`, `i < decompRNS`, `GadgetProductNoModDown` returns, whatever the ring
operations are, and each of the four accumulators it returns (`ct.Value[0].Q`, `ct.Value[1].Q`,
`ct.Value[0].P`, `ct.Value[1].P`) is one application of `Reduce`, of the ring of Q resp. of P, to
the value `x` that the last multiply-accumulate left in it: that of the digit `decompRNS-1`
(`MulCoeffsMontgomeryConstant` when it is the digit 0, `MulCoeffsMontgomeryConstantAndAddNoMod`
otherwise), applied to the state `pre` left by the first `n = decompRNS-1` iterations; `r` is the
ring at the level of the call and `cxNTT`, `cxInvNTT` are the input in the two domains. -/
theorem GadgetProductNoModDown_reduced_once (eval : Evaluator) (levelQ : Int) (cx : ring.Poly)
    (gadgetCt : GadgetCiphertext) (ct : CiphertextQP) (r : RingQP) (cxNTT cxInvNTT : ring.Poly)
    (n : Nat)
    (hr : r = eval.params.RingQPAtLevel levelQ gadgetCt.LevelP)
    (hNTT : cxNTT = if ct.IsNTT then cx else r.RingQ.NTT cx eval.BuffInvNTT)
    (hInv : cxInvNTT = if ct.IsNTT then r.RingQ.InvNTT cx eval.BuffInvNTT else cx)
    (hn : n = (eval.params.DecompRNS levelQ gadgetCt.LevelP).toNat - 1)
    (hd : 1 ≤ eval.params.DecompRNS levelQ gadgetCt.LevelP)
    (hq : 1 ≤ eval.params.QiOverflowMargin levelQ / 2)
    (hp : 1 ≤ eval.params.PiOverflowMargin gadgetCt.LevelP / 2)
    (hg : ∀ i : Nat, (i : Int) < eval.params.DecompRNS levelQ gadgetCt.LevelP →
      ∃ cell, gadgetCt.cell? i 0 = some cell) :
    ∃ (pre cell : CiphertextQP) (x0 x1 : PolyQP) (out : CiphertextQP),
      gadgetCt.cell? n 0 = some cell ∧
      loop eval r levelQ gadgetCt.LevelP cxNTT cxInvNTT gadgetCt
          (eval.params.QiOverflowMargin levelQ / 2)
          (eval.params.PiOverflowMargin gadgetCt.LevelP / 2) n 0 0 eval.BuffQP0 ct =
        .ok (n, pre) ∧
      x0 = (if n = 0 then
          r.MulCoeffsMontgomeryConstant cell.Value.1
            (digit eval levelQ gadgetCt.LevelP cxNTT cxInvNTT n) pre.Value.1
        else
          r.MulCoeffsMontgomeryConstantAndAddNoMod cell.Value.1
            (digit eval levelQ gadgetCt.LevelP cxNTT cxInvNTT n) pre.Value.1) ∧
      x1 = (if n = 0 then
          r.MulCoeffsMontgomeryConstant cell.Value.2
            (digit eval levelQ gadgetCt.LevelP cxNTT cxInvNTT n) pre.Value.2
        else
          r.MulCoeffsMontgomeryConstantAndAddNoMod cell.Value.2
            (digit eval levelQ gadgetCt.LevelP cxNTT cxInvNTT n) pre.Value.2) ∧
      GadgetProductNoModDown eval levelQ cx gadgetCt ct = .ok out ∧
      out.Value.1.Q = r.RingQ.Reduce x0.Q x0.Q ∧
      out.Value.2.Q = r.RingQ.Reduce x1.Q x1.Q ∧
      out.Value.1.P = r.RingP.Reduce x0.P x0.P ∧
      out.Value.2.P = r.RingP.Reduce x1.P x1.P := by
  obtain ⟨pre, cell, hc, hpre, hrun⟩ := run_last eval levelQ cx gadgetCt ct hd hq hp hg
  rw [inputs_eq] at hpre hrun
  subst hr hNTT hInv hn
  refine ⟨pre, cell, _, _, _, hc, hpre, rfl, rfl, hrun, ?_, ?_, ?_, ?_⟩
  all_goals
    by_cases h : (eval.params.DecompRNS levelQ gadgetCt.LevelP).toNat - 1 = 0
    · rw [if_pos h]
      simp only [reduceP, reduceQ, accumulate, if_pos h]
    · rw [if_neg h]
      simp only [reduceP, reduceQ, accumulate, if_neg h]

end rlwe

namespace rlwe

set_option maxRecDepth 8000 in
theorem GadgetProductNoModDown_reduced_once_witness :
    ∃ (pre cell : CiphertextQP) (x0 x1 : PolyQP) (out : CiphertextQP),
      sampleGadget.cell? 1 0 = some cell ∧
      GadgetProductNoModDown.loop sampleEvaluator (exactRingQP 2 [7, 11] [13, 17]) 1
          sampleGadget.LevelP [[3, 5], [4, 6]] [[3, 5], [4, 6]] sampleGadget
          (sampleEvaluator.params.QiOverflowMargin 1 / 2)
          (sampleEvaluator.params.PiOverflowMargin sampleGadget.LevelP / 2) 1 0 0
          sampleEvaluator.BuffQP0 sampleAccumulators =
        .ok (1, pre) ∧
      x0 = (if 1 = 0 then
          (exactRingQP 2 [7, 11] [13, 17]).MulCoeffsMontgomeryConstant cell.Value.1
            (GadgetProductNoModDown.digit sampleEvaluator 1 sampleGadget.LevelP
              [[3, 5], [4, 6]] [[3, 5], [4, 6]] 1) pre.Value.1
        else
          (exactRingQP 2 [7, 11] [13, 17]).MulCoeffsMontgomeryConstantAndAddNoMod cell.Value.1
            (GadgetProductNoModDown.digit sampleEvaluator 1 sampleGadget.LevelP
              [[3, 5], [4, 6]] [[3, 5], [4, 6]] 1) pre.Value.1) ∧
      x1 = (if 1 = 0 then
          (exactRingQP 2 [7, 11] [13, 17]).MulCoeffsMontgomeryConstant cell.Value.2
            (GadgetProductNoModDown.digit sampleEvaluator 1 sampleGadget.LevelP
              [[3, 5], [4, 6]] [[3, 5], [4, 6]] 1) pre.Value.2
        else
          (exactRingQP 2 [7, 11] [13, 17]).MulCoeffsMontgomeryConstantAndAddNoMod cell.Value.2
            (GadgetProductNoModDown.digit sampleEvaluator 1 sampleGadget.LevelP
              [[3, 5], [4, 6]] [[3, 5], [4, 6]] 1) pre.Value.2) ∧
      GadgetProductNoModDown sampleEvaluator 1 [[3, 5], [4, 6]] sampleGadget sampleAccumulators =
        .ok out ∧
      out.Value.1.Q = (exactRingQP 2 [7, 11] [13, 17]).RingQ.Reduce x0.Q x0.Q ∧
      out.Value.2.Q = (exactRingQP 2 [7, 11] [13, 17]).RingQ.Reduce x1.Q x1.Q ∧
      out.Value.1.P = (exactRingQP 2 [7, 11] [13, 17]).RingP.Reduce x0.P x0.P ∧
      out.Value.2.P = (exactRingQP 2 [7, 11] [13, 17]).RingP.Reduce x1.P x1.P ∧
      pre.Value = ({ Q := [[3, 3], [9, 9]], P := [[2, 4], [4, 6]] },
                   { Q := [[6, 3], [9, 4]], P := [[12, 7], [15, 8]] }) ∧
      x0.Q = [[6, 5], [14, 16]] ∧ x0.P = [[10, 10], [6, 20]] ∧
      x1.Q = [[10, 3], [9, 10]] ∧ x1.P = [[21, 7], [15, 19]] ∧
      out.Value = ({ Q := [[6, 5], [3, 5]], P := [[10, 10], [6, 3]] },
                   { Q := [[3, 3], [9, 10]], P := [[8, 7], [15, 2]] }) := by
  obtain ⟨pre, cell, x0, x1, out, hc, hpre, hx0, hx1, hout, h1, h2, h3, h4⟩ :=
    GadgetProductNoModDown_reduced_once sampleEvaluator 1 [[3, 5], [4, 6]] sampleGadget
      sampleAccumulators (exactRingQP 2 [7, 11] [13, 17]) [[3, 5], [4, 6]] [[3, 5], [4, 6]] 1
      rfl rfl rfl rfl (by decide) (by decide) (by decide)
      (fun i hi => by
        have h2 : i < 2 := by
          have : (i : Int) < 2 := hi
          omega
        interval_cases i
        · exact ⟨_, rfl⟩
        · exact ⟨_, rfl⟩)
  have hcell : cell = { Value := ({ Q := [[6, 5], [4, 3]], P := [[2, 1], [9, 8]] },
      { Q := [[1, 0], [0, 1]], P := [[12, 0], [0, 16]] }), IsNTT := true } := by
    have h : (some { Value := ({ Q := [[6, 5], [4, 3]], P := [[2, 1], [9, 8]] },
        { Q := [[1, 0], [0, 1]], P := [[12, 0], [0, 16]] }), IsNTT := true } :
        Option CiphertextQP) = some cell := hc
    injection h with h
    exact h.symm
  have hprev : pre = { Value := ({ Q := [[3, 3], [9, 9]], P := [[2, 4], [4, 6]] },
      { Q := [[6, 3], [9, 4]], P := [[12, 7], [15, 8]] }), IsNTT := true } := by
    have h : (Except.ok (1, { Value := ({ Q := [[3, 3], [9, 9]], P := [[2, 4], [4, 6]] },
        { Q := [[6, 3], [9, 4]], P := [[12, 7], [15, 8]] }), IsNTT := true }) :
        Except Panic (Nat × CiphertextQP)) = .ok (1, pre) := hpre
    injection h with h
    injection h with _ h
    exact h.symm
  have hval : out = { Value := ({ Q := [[6, 5], [3, 5]], P := [[10, 10], [6, 3]] },
      { Q := [[3, 3], [9, 10]], P := [[8, 7], [15, 2]] }), IsNTT := true } := by
    have h : (Except.ok { Value := ({ Q := [[6, 5], [3, 5]], P := [[10, 10], [6, 3]] },
        { Q := [[3, 3], [9, 10]], P := [[8, 7], [15, 2]] }), IsNTT := true } :
        Except Panic CiphertextQP) = .ok out := hout
    injection h with h
    exact h.symm
  refine ⟨pre, cell, x0, x1, out, hc, hpre, hx0, hx1, hout, h1, h2, h3, h4, ?_, ?_, ?_, ?_, ?_,
    ?_⟩
  · rw [hprev]
  · rw [hx0, hprev, hcell]
    rfl
  · rw [hx0, hprev, hcell]
    rfl
  · rw [hx1, hprev, hcell]
    rfl
  · rw [hx1, hprev, hcell]
    rfl
  · rw [hval]

/-- C23: `GadgetProduct` works at the level `min(levelQ, gadgetCt.LevelQ())`; on its temporary
`ctTmp` it runs `GadgetProductNoModDown` when `gadgetCt.LevelP() > 0` and
`GadgetProductSinglePAndBitDecompNoModDown` when `gadgetCt.LevelP() ≤ 0` (a single auxiliary
modulus, or none), both at that level, before its post-processing at that level. -/
theorem GadgetProduct_selection (eval : Evaluator) (levelQ : Int) (cx : ring.Poly)
    (gadgetCt : GadgetCiphertext) (ct : Ciphertext) (v0 v1 : ring.Poly)
    (h0 : ct.Value[0]? = some v0) (h1 : ct.Value[1]? = some v1) :
    (0 < gadgetCt.LevelP →
      GadgetProduct eval levelQ cx gadgetCt ct =
        (GadgetProductNoModDown eval (min levelQ gadgetCt.LevelQ) cx gadgetCt
          (GadgetProduct.ctTmp eval ct v0 v1) >>= fun acc =>
        pure { ct with
          Value := (ct.Value.set 0
            (GadgetProduct.finish eval (min levelQ gadgetCt.LevelQ) gadgetCt.LevelP ct.IsNTT
              acc).1).set 1
            (GadgetProduct.finish eval (min levelQ gadgetCt.LevelQ) gadgetCt.LevelP ct.IsNTT
              acc).2 })) ∧
    (gadgetCt.LevelP ≤ 0 →
      GadgetProduct eval levelQ cx gadgetCt ct =
        (GadgetProductSinglePAndBitDecompNoModDown eval (min levelQ gadgetCt.LevelQ) cx gadgetCt
          (GadgetProduct.ctTmp eval ct v0 v1) >>= fun acc =>
        pure { ct with
          Value := (ct.Value.set 0
            (GadgetProduct.finish eval (min levelQ gadgetCt.LevelQ) gadgetCt.LevelP ct.IsNTT
              acc).1).set 1
            (GadgetProduct.finish eval (min levelQ gadgetCt.LevelQ) gadgetCt.LevelP ct.IsNTT
              acc).2 })) := by
  constructor
  · intro h
    unfold GadgetProduct
    simp only [h0, h1]
    unfold GadgetProduct.accumulation
    rw [if_pos h]
  · intro h
    unfold GadgetProduct
    simp only [h0, h1]
    unfold GadgetProduct.accumulation
    rw [if_neg (by omega)]

theorem GadgetProduct_selection_witness :
    GadgetProduct sampleEvaluator 3 [[3, 5], [4, 6]] sampleGadget sampleCiphertext =
        (GadgetProductNoModDown sampleEvaluator (min 3 sampleGadget.LevelQ) [[3, 5], [4, 6]]
          sampleGadget
          (GadgetProduct.ctTmp sampleEvaluator sampleCiphertext [[9, 9], [9, 9]]
            [[8, 8], [8, 8]]) >>= fun acc =>
        pure { sampleCiphertext with
          Value := (sampleCiphertext.Value.set 0
            (GadgetProduct.finish sampleEvaluator (min 3 sampleGadget.LevelQ)
              sampleGadget.LevelP sampleCiphertext.IsNTT acc).1).set 1
            (GadgetProduct.finish sampleEvaluator (min 3 sampleGadget.LevelQ)
              sampleGadget.LevelP sampleCiphertext.IsNTT acc).2 }) ∧
      min (3 : Int) sampleGadget.LevelQ = 1 :=
  ⟨(GadgetProduct_selection sampleEvaluator 3 [[3, 5], [4, 6]] sampleGadget sampleCiphertext
    [[9, 9], [9, 9]] [[8, 8], [8, 8]] rfl rfl).1 (by decide), by decide⟩

/-- C24: once the accumulation has left `acc` in the temporary, `GadgetProduct` returns `ct` with
its two polynomials replaced as follows. In the NTT domain with `levelP ≠ -1`: the mod-down
`ModDownQPtoQNTT` of the accumulators, and nothing else. In the coefficient domain with
`levelP ≠ -1`: the mod-down `ModDownQPtoQ` of the inverse transforms `InvNTTLazy` of the parts
modulo Q and modulo P. In the coefficient domain with `levelP = -1`: the inverse transform `InvNTT`
of the part modulo Q, without mod-down. In the NTT domain with `levelP = -1`: the part modulo Q of
the accumulators, untouched. -/
theorem GadgetProduct_post_processing (eval : Evaluator) (levelQ : Int) (cx : ring.Poly)
    (gadgetCt : GadgetCiphertext) (ct : Ciphertext) (v0 v1 : ring.Poly) (acc : CiphertextQP)
    (h0 : ct.Value[0]? = some v0) (h1 : ct.Value[1]? = some v1)
    (hacc : GadgetProduct.accumulation eval (min levelQ gadgetCt.LevelQ) gadgetCt.LevelP cx
      gadgetCt (GadgetProduct.ctTmp eval ct v0 v1) = .ok acc) :
    ∃ r0 r1 : ring.Poly,
      GadgetProduct eval levelQ cx gadgetCt ct =
        .ok { ct with Value := (ct.Value.set 0 r0).set 1 r1 } ∧
      (ct.IsNTT = true → gadgetCt.LevelP ≠ -1 →
        r0 = eval.ModDownQPtoQNTT (min levelQ gadgetCt.LevelQ) gadgetCt.LevelP acc.Value.1.Q
          acc.Value.1.P acc.Value.1.Q ∧
        r1 = eval.ModDownQPtoQNTT (min levelQ gadgetCt.LevelQ) gadgetCt.LevelP acc.Value.2.Q
          acc.Value.2.P acc.Value.2.Q) ∧
      (ct.IsNTT = false → gadgetCt.LevelP ≠ -1 →
        r0 = eval.ModDownQPtoQ (min levelQ gadgetCt.LevelQ) gadgetCt.LevelP
          ((eval.params.RingQAtLevel (min levelQ gadgetCt.LevelQ)).InvNTTLazy acc.Value.1.Q
            acc.Value.1.Q)
          ((eval.params.RingPAtLevel gadgetCt.LevelP).InvNTTLazy acc.Value.1.P acc.Value.1.P)
          ((eval.params.RingQAtLevel (min levelQ gadgetCt.LevelQ)).InvNTTLazy acc.Value.1.Q
            acc.Value.1.Q) ∧
        r1 = eval.ModDownQPtoQ (min levelQ gadgetCt.LevelQ) gadgetCt.LevelP
          ((eval.params.RingQAtLevel (min levelQ gadgetCt.LevelQ)).InvNTTLazy acc.Value.2.Q
            acc.Value.2.Q)
          ((eval.params.RingPAtLevel gadgetCt.LevelP).InvNTTLazy acc.Value.2.P acc.Value.2.P)
          ((eval.params.RingQAtLevel (min levelQ gadgetCt.LevelQ)).InvNTTLazy acc.Value.2.Q
            acc.Value.2.Q)) ∧
      (ct.IsNTT = false → gadgetCt.LevelP = -1 →
        r0 = (eval.params.RingQAtLevel (min levelQ gadgetCt.LevelQ)).InvNTT acc.Value.1.Q
          acc.Value.1.Q ∧
        r1 = (eval.params.RingQAtLevel (min levelQ gadgetCt.LevelQ)).InvNTT acc.Value.2.Q
          acc.Value.2.Q) ∧
      (ct.IsNTT = true → gadgetCt.LevelP = -1 → r0 = acc.Value.1.Q ∧ r1 = acc.Value.2.Q) := by
  refine ⟨(GadgetProduct.finish eval (min levelQ gadgetCt.LevelQ) gadgetCt.LevelP ct.IsNTT acc).1,
    (GadgetProduct.finish eval (min levelQ gadgetCt.LevelQ) gadgetCt.LevelP ct.IsNTT acc).2,
    ?_, ?_, ?_, ?_, ?_⟩
  · unfold GadgetProduct
    simp only [h0, h1]
    rw [hacc]
    rfl
  · intro hn hp
    unfold GadgetProduct.finish
    simp [hn, hp]
  · intro hn hp
    unfold GadgetProduct.finish
    simp [hn, hp]
  · intro hn hp
    unfold GadgetProduct.finish
    simp [hn, hp]
  · intro hn hp
    unfold GadgetProduct.finish
    simp [hn, hp]

set_option maxRecDepth 8000 in
theorem GadgetProduct_post_processing_witness :
    ∃ r0 r1 : ring.Poly,
      GadgetProduct sampleEvaluator 3 [[3, 5], [4, 6]] sampleGadget sampleCiphertext =
        .ok { sampleCiphertext with Value := (sampleCiphertext.Value.set 0 r0).set 1 r1 } ∧
      (sampleCiphertext.IsNTT = true → sampleGadget.LevelP ≠ -1 →
        r0 = sampleEvaluator.ModDownQPtoQNTT (min 3 sampleGadget.LevelQ) sampleGadget.LevelP
          sampleAccumulated.Value.1.Q sampleAccumulated.Value.1.P sampleAccumulated.Value.1.Q ∧
        r1 = sampleEvaluator.ModDownQPtoQNTT (min 3 sampleGadget.LevelQ) sampleGadget.LevelP
          sampleAccumulated.Value.2.Q sampleAccumulated.Value.2.P sampleAccumulated.Value.2.Q) :=
  match GadgetProduct_post_processing sampleEvaluator 3 [[3, 5], [4, 6]] sampleGadget
    sampleCiphertext [[9, 9], [9, 9]] [[8, 8], [8, 8]] sampleAccumulated rfl rfl rfl with
  | ⟨r0, r1, h, hA, _⟩ => ⟨r0, r1, h, hA⟩

end rlwe

namespace buffer

theorem WriteUintSlice.room_ne_zero {σ : Type} (shift : Nat) (w : Writer σ) (s s1 : σ)
    (a : Int) (h : WriteUintSlice.room shift w s = Sum.inr (s1, a)) : a ≠ 0 := by
  unfold WriteUintSlice.room at h
  by_cases h0 : w.Available s >>> shift = 0
  · simp only [h0, if_true] at h
    cases hf : (w.Flush s).2 with
    | some err =>
      simp only [hf] at h
      cases h
    | none =>
      simp only [hf] at h
      by_cases h1 : w.Available (w.Flush s).1 >>> shift = 0
      · rw [if_pos h1] at h
        cases h
      · rw [if_neg h1] at h
        injection h with h2
        injection h2 with _ h3
        rw [← h3]
        exact h1
  · simp only [h0, if_false] at h
    injection h with h2
    injection h2 with _ h3
    rw [← h3]
    exact h0

theorem WriteUintSlice.step_recurse {σ : Type} (shift : Nat) (w : Writer σ) (s : σ)
    (c : List Nat) (s1 : σ) (n : Int) (rest : List Nat)
    (h : WriteUintSlice.step shift w s c = .ok (Step.recurse s1 n rest)) :
    0 < rest.length ∧ rest.length < c.length := by
  unfold WriteUintSlice.step at h
  by_cases hc : c.length = 0
  · rw [if_pos hc] at h
    cases h
  · rw [if_neg hc] at h
    cases hr : WriteUintSlice.room shift w s with
    | inl r =>
      rw [hr] at h
      cases h
    | inr r =>
      obtain ⟨s2, a⟩ := r
      have ha := WriteUintSlice.room_ne_zero shift w s s2 a hr
      rw [hr] at h
      dsimp only at h
      by_cases h1 : (c.length : Int) ≤ a
      · rw [if_pos h1] at h
        by_cases h2 : c.length <<< shift ≤ w.AvailableBuffer s2
        · rw [if_pos h2] at h
          cases h
        · rw [if_neg h2] at h
          cases h
      · rw [if_neg h1] at h
        by_cases h2 : 0 ≤ a ∧ a.toNat <<< shift ≤ w.AvailableBuffer s2
        · rw [if_pos h2] at h
          cases hw : (w.Write s2 ((c.take a.toNat).flatMap (putLittleEndian shift))).2.2 with
          | some err =>
            simp only [hw] at h
            cases h
          | none =>
            simp only [hw] at h
            cases hf : (w.Flush
                (w.Write s2 ((c.take a.toNat).flatMap (putLittleEndian shift))).1).2 with
            | some err =>
              simp only [hf] at h
              cases h
            | none =>
              simp only [hf] at h
              have hrest : rest = c.drop a.toNat := by
                have h3 : Step.recurse (w.Flush
                    (w.Write s2 ((c.take a.toNat).flatMap (putLittleEndian shift))).1).1
                    (0 + (w.Write s2 ((c.take a.toNat).flatMap (putLittleEndian shift))).2.1)
                    (c.drop a.toNat) = Step.recurse s1 n rest := by
                  injection h
                injection h3 with _ _ h4
                exact h4.symm
              rw [hrest, List.length_drop]
              omega
        · rw [if_neg h2] at h
          cases h

theorem WriteUintSlice.run_returns {σ : Type} (shift : Nat) (w : Writer σ) :
    ∀ (fuel : Nat) (s : σ) (c : List Nat), c.length ≤ fuel + 1 →
      WriteUintSlice.run shift w fuel s c ≠ .ok none := by
  intro fuel
  induction fuel with
  | zero =>
    intro s c hlen
    rw [WriteUintSlice.run]
    cases hst : WriteUintSlice.step shift w s c with
    | error e =>
      intro h
      cases h
    | ok st =>
      cases st with
      | done s1 n err =>
        intro h
        cases h
      | recurse s1 n rest =>
        have := WriteUintSlice.step_recurse shift w s c s1 n rest hst
        omega
  | succ fuel ih =>
    intro s c hlen
    rw [WriteUintSlice.run]
    cases hst : WriteUintSlice.step shift w s c with
    | error e =>
      intro h
      cases h
    | ok st =>
      cases st with
      | done s1 n err =>
        intro h
        cases h
      | recurse s1 n rest =>
        have hdec := WriteUintSlice.step_recurse shift w s c s1 n rest hst
        have hrec := ih s1 rest (by omega)
        show (WriteUintSlice.run shift w fuel s1 rest >>= fun r =>
          pure (r.map fun out => (out.1, n + out.2.1, out.2.2))) ≠ .ok none
        cases hr : WriteUintSlice.run shift w fuel s1 rest with
        | error e =>
          intro h
          cases h
        | ok r =>
          cases r with
          | none => exact absurd hr hrec
          | some out =>
            intro h
            cases h

/-- C27: in `WriteUint8Slice`, `WriteUint16Slice`, `WriteUint32Slice` and `WriteUint64Slice`, for
every writer, a recursive call is made on a remainder of `c` that is not empty and strictly shorter
than `c`; `len(c)` nested calls are therefore enough for each of the four functions to return (or
to abort on a slice bound), and it never needs more. Nothing is asked of `Available()`: a negative
value makes the slice expression abort before any recursive call. -/
theorem WriteUintSlice_terminates {σ : Type} (w : Writer σ) :
    (∀ (shift : Nat) (s : σ) (c : List Nat) (s1 : σ) (n : Int) (rest : List Nat),
      WriteUintSlice.step shift w s c = .ok (Step.recurse s1 n rest) →
      0 < rest.length ∧ rest.length < c.length) ∧
    (∀ (shift fuel : Nat) (s : σ) (c : List Nat), c.length ≤ fuel →
      WriteUintSlice.run shift w fuel s c ≠ .ok none) ∧
    (∀ (s : σ) (c : List Nat),
      WriteUint8Slice w s c ≠ .ok none ∧ WriteUint16Slice w s c ≠ .ok none ∧
      WriteUint32Slice w s c ≠ .ok none ∧ WriteUint64Slice w s c ≠ .ok none) :=
  ⟨fun shift s c s1 n rest h => WriteUintSlice.step_recurse shift w s c s1 n rest h,
    fun shift fuel s c h => WriteUintSlice.run_returns shift w fuel s c (by omega),
    fun s c => ⟨WriteUintSlice.run_returns 0 w c.length s c (by omega),
      WriteUintSlice.run_returns 1 w c.length s c (by omega),
      WriteUintSlice.run_returns 2 w c.length s c (by omega),
      WriteUintSlice.run_returns 3 w c.length s c (by omega)⟩⟩

end buffer

namespace buffer

theorem length_flatMap_putLittleEndian (c : List Nat) :
    (c.flatMap (putLittleEndian 3)).length = 8 * c.length := by
  induction c with
  | nil => rfl
  | cons x t ih =>
    rw [List.flatMap_cons, List.length_append, ih, List.length_cons]
    have h8 : (putLittleEndian 3 x).length = 8 := by
      unfold putLittleEndian
      rw [List.length_map, List.length_range]
      rfl
    omega

theorem WriteUintSlice.room_of_contract {σ : Type} (w : Writer σ) (stream : σ → List Nat)
    (inv : σ → Prop)
    (hflush : ∀ s : σ, inv s → (w.Flush s).2 = none ∧ inv (w.Flush s).1 ∧
      stream (w.Flush s).1 = stream s ∧ 8 ≤ w.Available (w.Flush s).1)
    (havail : ∀ s : σ, inv s → 0 ≤ w.Available s) (s : σ) (hs : inv s) :
    ∃ (s1 : σ) (a : Int), WriteUintSlice.room 3 w s = Sum.inr (s1, a) ∧ inv s1 ∧
      stream s1 = stream s ∧ 1 ≤ a ∧ a * 8 ≤ w.Available s1 := by
  unfold WriteUintSlice.room
  by_cases h0 : w.Available s >>> (3 : Nat) = 0
  · obtain ⟨hf, hi, hst, h8⟩ := hflush s hs
    have e : w.Available (w.Flush s).1 >>> (3 : Nat) = w.Available (w.Flush s).1 / 8 :=
      Int.shiftRight_eq_div_pow _ 3
    have h1 : ¬ w.Available (w.Flush s).1 >>> (3 : Nat) = 0 := by
      rw [e]
      omega
    refine ⟨(w.Flush s).1, w.Available (w.Flush s).1 >>> (3 : Nat), ?_, hi, hst, ?_, ?_⟩
    · simp only [h0, if_true, hf, h1, if_false]
    · rw [e]
      omega
    · rw [e]
      omega
  · have e : w.Available s >>> (3 : Nat) = w.Available s / 8 := Int.shiftRight_eq_div_pow _ 3
    have hs0 := havail s hs
    refine ⟨s, w.Available s >>> (3 : Nat), ?_, hs, rfl, ?_, ?_⟩
    · simp only [h0, if_false]
    · rw [e] at h0 ⊢
      omega
    · rw [e]
      omega

theorem WriteUintSlice.run_nil {σ : Type} (shift : Nat) (w : Writer σ) (fuel : Nat) (s : σ) :
    WriteUintSlice.run shift w fuel s [] = .ok (some (s, 0, none)) := by
  rw [WriteUintSlice.run, WriteUintSlice.step,
    if_pos (show ([] : List Nat).length = 0 from rfl)]
  rfl

theorem WriteUintSlice.run_of_contract {σ : Type} (w : Writer σ) (stream : σ → List Nat)
    (inv : σ → Prop)
    (hflush : ∀ s : σ, inv s → (w.Flush s).2 = none ∧ inv (w.Flush s).1 ∧
      stream (w.Flush s).1 = stream s ∧ 8 ≤ w.Available (w.Flush s).1)
    (hwrite : ∀ (s : σ) (p : List Nat), inv s → (p.length : Int) ≤ w.Available s →
      (w.Write s p).2 = ((p.length : Int), none) ∧ inv (w.Write s p).1 ∧
      stream (w.Write s p).1 = stream s ++ p)
    (havail : ∀ s : σ, inv s → 0 ≤ w.Available s ∧ w.AvailableBuffer s = (w.Available s).toNat) :
    ∀ (fuel : Nat) (s : σ) (c : List Nat), inv s → c.length ≤ fuel →
      ∃ s1 : σ, WriteUintSlice.run 3 w fuel s c = .ok (some (s1, 8 * (c.length : Int), none)) ∧
        stream s1 = stream s ++ c.flatMap (putLittleEndian 3) := by
  intro fuel
  induction fuel with
  | zero =>
    intro s c _ hlen
    have hc : c = [] := List.length_eq_zero.mp (by omega)
    subst hc
    exact ⟨s, WriteUintSlice.run_nil 3 w 0 s, by simp⟩
  | succ fuel ih =>
    intro s c hs hlen
    by_cases hc : c.length = 0
    · have hc2 : c = [] := List.length_eq_zero.mp hc
      subst hc2
      exact ⟨s, WriteUintSlice.run_nil 3 w (fuel + 1) s, by simp⟩
    · obtain ⟨s1, a, hroom, hi1, hs1, ha1, ha8⟩ :=
        WriteUintSlice.room_of_contract w stream inv hflush (fun s h => (havail s h).1) s hs
      obtain ⟨hav0, hcap⟩ := havail s1 hi1
      by_cases hfit : (c.length : Int) ≤ a
      · have hlenbuf := length_flatMap_putLittleEndian c
        have hw := hwrite s1 (c.flatMap (putLittleEndian 3)) hi1
          (by rw [hlenbuf]; push_cast; omega)
        have hshift : c.length <<< 3 ≤ w.AvailableBuffer s1 := by
          rw [Nat.shiftLeft_eq, hcap]
          omega
        have hstep : WriteUintSlice.step 3 w s c =
            .ok (Step.done (w.Write s1 (c.flatMap (putLittleEndian 3))).1
              (8 * (c.length : Int)) none) := by
          unfold WriteUintSlice.step
          rw [if_neg hc, hroom]
          dsimp only
          rw [if_pos hfit, if_pos hshift, hw.1]
          show Except.ok (Step.done _ ((c.flatMap (putLittleEndian 3)).length : Int) none) = _
          rw [hlenbuf]
          push_cast
          rfl
        refine ⟨(w.Write s1 (c.flatMap (putLittleEndian 3))).1, ?_, ?_⟩
        · rw [WriteUintSlice.run, hstep]
          rfl
        · rw [hw.2.2, hs1]
      · have hale : a.toNat ≤ c.length := by omega
        have hlenbuf : ((c.take a.toNat).flatMap (putLittleEndian 3)).length = 8 * a.toNat := by
          rw [length_flatMap_putLittleEndian, List.length_take, Nat.min_eq_left hale]
        have hw := hwrite s1 ((c.take a.toNat).flatMap (putLittleEndian 3)) hi1
          (by rw [hlenbuf]; push_cast; omega)
        have hshift : 0 ≤ a ∧ a.toNat <<< 3 ≤ w.AvailableBuffer s1 := by
          refine ⟨by omega, ?_⟩
          rw [Nat.shiftLeft_eq, hcap]
          omega
        obtain ⟨hf, hfi, hfs, _⟩ :=
          hflush (w.Write s1 ((c.take a.toNat).flatMap (putLittleEndian 3))).1 hw.2.1
        have hstep : WriteUintSlice.step 3 w s c =
            .ok (Step.recurse
              (w.Flush (w.Write s1 ((c.take a.toNat).flatMap (putLittleEndian 3))).1).1
              (0 + ((8 * a.toNat : Nat) : Int)) (c.drop a.toNat)) := by
          unfold WriteUintSlice.step
          rw [if_neg hc, hroom]
          dsimp only
          rw [if_neg hfit, if_pos hshift]
          simp only [hw.1, hf, hlenbuf]
          rfl
        obtain ⟨s2, hrun, hs2⟩ := ih
          (w.Flush (w.Write s1 ((c.take a.toNat).flatMap (putLittleEndian 3))).1).1
          (c.drop a.toNat) hfi (by rw [List.length_drop]; omega)
        refine ⟨s2, ?_, ?_⟩
        · rw [WriteUintSlice.run, hstep]
          show (WriteUintSlice.run 3 w fuel _ (c.drop a.toNat) >>= fun r =>
            pure (r.map fun out => (out.1, 0 + ((8 * a.toNat : Nat) : Int) + out.2.1, out.2.2)))
            = _
          rw [hrun]
          show Except.ok (some (s2, 0 + ((8 * a.toNat : Nat) : Int) +
            8 * ((c.drop a.toNat).length : Int), none)) = _
          rw [List.length_drop]
          have e : 0 + ((8 * a.toNat : Nat) : Int) + 8 * ((c.length - a.toNat : Nat) : Int) =
              8 * (c.length : Int) := by
            push_cast
            omega
          rw [e]
        · rw [hs2, hfs, hw.2.2, hs1, List.append_assoc, ← List.flatMap_append,
            List.take_append_drop]

theorem bufferedWriter_flush (s : Buffered) (hs : 8 ≤ s.cap ∧ s.buf.length ≤ s.cap) :
    (bufferedWriter.Flush s).2 = none ∧
      (8 ≤ (bufferedWriter.Flush s).1.cap ∧
        (bufferedWriter.Flush s).1.buf.length ≤ (bufferedWriter.Flush s).1.cap) ∧
      Buffered.stream (bufferedWriter.Flush s).1 = Buffered.stream s ∧
      8 ≤ bufferedWriter.Available (bufferedWriter.Flush s).1 := by
  obtain ⟨h8, _⟩ := hs
  refine ⟨rfl, ⟨h8, Nat.zero_le _⟩, ?_, ?_⟩
  · show (s.out ++ s.buf) ++ [] = s.out ++ s.buf
    rw [List.append_nil]
  · show (8 : Int) ≤ (s.cap : Int) - (([] : List Nat).length : Nat)
    rw [List.length_nil]
    push_cast
    omega

theorem bufferedWriter_write (s : Buffered) (p : List Nat)
    (hs : 8 ≤ s.cap ∧ s.buf.length ≤ s.cap) (hp : (p.length : Int) ≤ bufferedWriter.Available s) :
    (bufferedWriter.Write s p).2 = ((p.length : Int), none) ∧
      (8 ≤ (bufferedWriter.Write s p).1.cap ∧
        (bufferedWriter.Write s p).1.buf.length ≤ (bufferedWriter.Write s p).1.cap) ∧
      Buffered.stream (bufferedWriter.Write s p).1 = Buffered.stream s ++ p := by
  obtain ⟨h8, hb⟩ := hs
  have hp2 : (p.length : Int) ≤ (s.cap : Int) - s.buf.length := hp
  have hfit : p.length ≤ s.cap - s.buf.length := by omega
  have e : bufferedWriter.Write s p =
      ({ s with buf := s.buf ++ p }, (p.length : Int), none) := by
    show (if p.length ≤ s.cap - s.buf.length then _ else _) = _
    rw [if_pos hfit]
  rw [e]
  refine ⟨rfl, ⟨h8, ?_⟩, ?_⟩
  · show (s.buf ++ p).length ≤ s.cap
    rw [List.length_append]
    omega
  · show s.out ++ (s.buf ++ p) = (s.out ++ s.buf) ++ p
    rw [List.append_assoc]

theorem bufferedWriter_available (s : Buffered) (hs : 8 ≤ s.cap ∧ s.buf.length ≤ s.cap) :
    0 ≤ bufferedWriter.Available s ∧
      bufferedWriter.AvailableBuffer s = (bufferedWriter.Available s).toNat := by
  obtain ⟨_, hb⟩ := hs
  refine ⟨?_, ?_⟩
  · show (0 : Int) ≤ (s.cap : Int) - s.buf.length
    omega
  · show s.cap - s.buf.length = ((s.cap : Int) - s.buf.length).toNat
    omega

theorem littleEndian64_value (x : Nat) :
    (littleEndian64 x).length = 8 ∧ (∀ y ∈ littleEndian64 x, y < 256) ∧
      Nat.ofDigits 256 (littleEndian64 x) = x % 2 ^ 64 := by
  refine ⟨rfl, ?_, ?_⟩
  · intro y hy
    unfold littleEndian64 at hy
    simp only [List.mem_cons, List.mem_singleton, List.not_mem_nil, or_false] at hy
    omega
  · unfold littleEndian64
    simp only [Nat.ofDigits_cons, Nat.ofDigits_nil]
    omega

/-- C21: on a writer that keeps an invariant `inv` of its states under which `Flush` succeeds,
keeps the stream and leaves at least 8 bytes available, `Write` accepts every buffer that fits in
the available space and appends it to the stream, and `AvailableBuffer` has the capacity
`Available()`, which is not negative, `WriteUint64Slice(w, c)` called in a state of the invariant
returns `n = 8 * len(c)` and a nil error, and the stream is extended with the 8-byte little-endian
encodings of the elements of `c` (for each element its eight digits in base 256, the least
significant first), in order; how full the buffer is at the call does not matter. -/
theorem WriteUint64Slice_stream {σ : Type} (w : Writer σ) (stream : σ → List Nat)
    (inv : σ → Prop)
    (hflush : ∀ s : σ, inv s → (w.Flush s).2 = none ∧ inv (w.Flush s).1 ∧
      stream (w.Flush s).1 = stream s ∧ 8 ≤ w.Available (w.Flush s).1)
    (hwrite : ∀ (s : σ) (p : List Nat), inv s → (p.length : Int) ≤ w.Available s →
      (w.Write s p).2 = ((p.length : Int), none) ∧ inv (w.Write s p).1 ∧
      stream (w.Write s p).1 = stream s ++ p)
    (havail : ∀ s : σ, inv s → 0 ≤ w.Available s ∧ w.AvailableBuffer s = (w.Available s).toNat)
    (s : σ) (hs : inv s) (c : List Nat) :
    ∃ s1 : σ, WriteUint64Slice w s c = .ok (some (s1, 8 * (c.length : Int), none)) ∧
      stream s1 = stream s ++ c.flatMap fun x =>
        [x % 256, x / 2 ^ 8 % 256, x / 2 ^ 16 % 256, x / 2 ^ 24 % 256, x / 2 ^ 32 % 256,
          x / 2 ^ 40 % 256, x / 2 ^ 48 % 256, x / 2 ^ 56 % 256] := by
  obtain ⟨s1, hrun, hstream⟩ :=
    WriteUintSlice.run_of_contract w stream inv hflush hwrite havail c.length s c hs
      (Nat.le_refl _)
  have henc : putLittleEndian 3 = littleEndian64 := by
    funext x
    unfold putLittleEndian littleEndian64
    have h8 : (1 <<< 3 : Nat) = 8 := rfl
    rw [h8]
    simp only [List.range_succ, List.range_zero, List.nil_append, List.cons_append,
      List.map_cons, List.map_nil, Nat.shiftRight_eq_div_pow]
    norm_num
  rw [henc] at hstream
  exact ⟨s1, hrun, hstream⟩

/-- The buffered writer of capacity 20 that holds 3 bytes writes the 24 bytes of three values. -/
theorem WriteUint64Slice_stream_witness :
    (8 ≤ (Buffered.mk 20 [1, 2, 3] [7]).cap ∧
      (Buffered.mk 20 [1, 2, 3] [7]).buf.length ≤ (Buffered.mk 20 [1, 2, 3] [7]).cap) ∧
    ∃ s1 : Buffered,
      WriteUint64Slice bufferedWriter (Buffered.mk 20 [1, 2, 3] [7]) [258, 1, 5] =
        .ok (some (s1, 8 * (([258, 1, 5] : List Nat).length : Int), none)) ∧
      Buffered.stream s1 = Buffered.stream (Buffered.mk 20 [1, 2, 3] [7]) ++
        ([258, 1, 5] : List Nat).flatMap (fun x =>
          [x % 256, x / 2 ^ 8 % 256, x / 2 ^ 16 % 256, x / 2 ^ 24 % 256, x / 2 ^ 32 % 256,
            x / 2 ^ 40 % 256, x / 2 ^ 48 % 256, x / 2 ^ 56 % 256]) ∧
      Buffered.stream (Buffered.mk 20 [1, 2, 3] [7]) = [7, 1, 2, 3] ∧
      Buffered.stream s1 =
        [7, 1, 2, 3, 2, 1, 0, 0, 0, 0, 0, 0, 1, 0, 0, 0, 0, 0, 0, 0, 5, 0, 0, 0, 0, 0, 0, 0] ∧
      s1 = Buffered.mk 20 [5, 0, 0, 0, 0, 0, 0, 0]
        [7, 1, 2, 3, 2, 1, 0, 0, 0, 0, 0, 0, 1, 0, 0, 0, 0, 0, 0, 0] := by
  obtain ⟨s1, hrun, hstream⟩ :=
    WriteUint64Slice_stream bufferedWriter Buffered.stream
      (fun s => 8 ≤ s.cap ∧ s.buf.length ≤ s.cap) bufferedWriter_flush
      (fun s p hs hp => bufferedWriter_write s p hs hp) bufferedWriter_available
      (Buffered.mk 20 [1, 2, 3] [7]) (by decide) [258, 1, 5]
  have hstate : s1 = Buffered.mk 20 [5, 0, 0, 0, 0, 0, 0, 0]
      [7, 1, 2, 3, 2, 1, 0, 0, 0, 0, 0, 0, 1, 0, 0, 0, 0, 0, 0, 0] := by
    have hlit : WriteUint64Slice bufferedWriter (Buffered.mk 20 [1, 2, 3] [7]) [258, 1, 5] =
        .ok (some (Buffered.mk 20 [5, 0, 0, 0, 0, 0, 0, 0]
          [7, 1, 2, 3, 2, 1, 0, 0, 0, 0, 0, 0, 1, 0, 0, 0, 0, 0, 0, 0], (24 : Int), none)) := by
      have h1 : WriteUintSlice.step 3 bufferedWriter (Buffered.mk 20 [1, 2, 3] [7])
          [258, 1, 5] =
          .ok (Step.recurse (Buffered.mk 20 []
            [7, 1, 2, 3, 2, 1, 0, 0, 0, 0, 0, 0, 1, 0, 0, 0, 0, 0, 0, 0]) 16 [5]) := rfl
      have h2 : WriteUintSlice.step 3 bufferedWriter (Buffered.mk 20 []
          [7, 1, 2, 3, 2, 1, 0, 0, 0, 0, 0, 0, 1, 0, 0, 0, 0, 0, 0, 0]) [5] =
          .ok (Step.done (Buffered.mk 20 [5, 0, 0, 0, 0, 0, 0, 0]
            [7, 1, 2, 3, 2, 1, 0, 0, 0, 0, 0, 0, 1, 0, 0, 0, 0, 0, 0, 0]) 8 none) := rfl
      show WriteUintSlice.run 3 bufferedWriter 3 _ _ = _
      rw [WriteUintSlice.run, h1]
      show (WriteUintSlice.run 3 bufferedWriter 2 _ [5] >>= _) = _
      rw [WriteUintSlice.run, h2]
      rfl
    rw [hlit] at hrun
    injection hrun with h
    injection h with h
    injection h with h _
    exact h.symm
  refine ⟨by decide, s1, hrun, hstream, rfl, ?_, hstate⟩
  rw [hstate]
  rfl

end buffer

namespace mkckks

theorem take_succ_set {α : Type} (l : List α) (a : α) :
    ∀ u : Nat, u < l.length → (l.set u a).take (u + 1) = l.take u ++ [a] := by
  induction l with
  | nil =>
    intro u h
    cases h
  | cons x t ih =>
    intro u h
    cases u with
    | zero => rfl
    | succ u =>
      show x :: ((t.set u a).take (u + 1)) = x :: (t.take u ++ [a])
      rw [ih u (Nat.lt_of_succ_lt_succ h)]

theorem getDigit_of_lt (d : mkrlwe.MKDecomposedPoly) (u : Nat) (h : u < d.Poly.length) :
    getDigit d u = .ok (d.Poly.get ⟨u, h⟩) := by
  unfold getDigit
  rw [List.getElem?_eq_getElem h]
  rfl

theorem sliceTo_ok (coeffs : ring.Poly) (n : Nat) (h : n ≤ coeffs.length) :
    sliceTo coeffs n = .ok (coeffs.take n) := by
  unfold sliceTo
  rw [if_pos h]
  rfl

theorem sliceFrom_ok (coeffs : ring.Poly) (n : Nat) (h : n ≤ coeffs.length) :
    sliceFrom coeffs n = .ok (coeffs.drop n) := by
  unfold sliceFrom
  rw [if_pos h]
  rfl

theorem setCoeffs_ok (d : mkrlwe.MKDecomposedPoly) (u : Nat) (coeffs : ring.Poly)
    (h : u < d.Poly.length) : setCoeffs d u coeffs = .ok { Poly := d.Poly.set u coeffs } := by
  unfold setCoeffs
  rw [if_pos h]
  rfl

theorem prepared_step (l K : List ring.Poly) (f : ring.Poly → ring.Poly) (u n : Nat)
    (hl : u < l.length) (hK : u < K.length) :
    (l.set u (f (K.get ⟨u, hK⟩))).take (u + 1) ++ ((K.drop (u + 1)).take n).map f =
      l.take u ++ ((K.drop u).take (n + 1)).map f := by
  rw [take_succ_set l _ u hl, List.drop_eq_getElem_cons hK, List.take_succ_cons, List.map_cons,
    List.append_assoc]
  rfl

theorem prepareGaloisEvaluationKey.loop_prepared (level modulus : Nat) (key : mkrlwe.MKEvalGalKey)
    (h0 : ∀ p ∈ key.Key.1.Poly, level + 1 ≤ p.length ∧ modulus ≤ p.length)
    (h1 : ∀ p ∈ key.Key.2.Poly, level + 1 ≤ p.length ∧ modulus ≤ p.length) :
    ∀ (n u : Nat) (g : GaloisBuffers), u + n ≤ key.Key.1.Poly.length →
      u + n ≤ key.Key.2.Poly.length → u + n = g.gal0Q.Poly.length →
      u + n = g.gal0P.Poly.length → u + n = g.gal1Q.Poly.length → u + n = g.gal1P.Poly.length →
      prepareGaloisEvaluationKey.loop level modulus key n u g = .ok
        { gal0Q := ⟨g.gal0Q.Poly.take u ++
            ((key.Key.1.Poly.drop u).take n).map fun p => p.take (level + 1)⟩
          gal0P := ⟨g.gal0P.Poly.take u ++
            ((key.Key.1.Poly.drop u).take n).map fun p => p.drop modulus⟩
          gal1Q := ⟨g.gal1Q.Poly.take u ++
            ((key.Key.2.Poly.drop u).take n).map fun p => p.take (level + 1)⟩
          gal1P := ⟨g.gal1P.Poly.take u ++
            ((key.Key.2.Poly.drop u).take n).map fun p => p.drop modulus⟩ } := by
  intro n
  induction n with
  | zero =>
    intro u g _ _ ha hb hc hd
    obtain ⟨⟨a⟩, ⟨b⟩, ⟨c⟩, ⟨d⟩⟩ := g
    simp only [Nat.add_zero] at ha hb hc hd
    simp only [List.take_zero, List.map_nil, List.append_nil]
    rw [List.take_of_length_le (Nat.le_of_eq ha.symm), List.take_of_length_le (Nat.le_of_eq hb.symm),
      List.take_of_length_le (Nat.le_of_eq hc.symm), List.take_of_length_le (Nat.le_of_eq hd.symm)]
    rfl
  | succ n ih =>
    intro u g hk0 hk1 ha hb hc hd
    have hu0 : u < key.Key.1.Poly.length := by omega
    have hu1 : u < key.Key.2.Poly.length := by omega
    have hm0 := h0 _ (List.get_mem key.Key.1.Poly u hu0)
    have hm1 := h1 _ (List.get_mem key.Key.2.Poly u hu1)
    rw [prepareGaloisEvaluationKey.loop, getDigit_of_lt _ u hu0, getDigit_of_lt _ u hu1]
    simp only [ok_bind]
    rw [sliceTo_ok _ _ hm0.1, sliceFrom_ok _ _ hm0.2, sliceTo_ok _ _ hm1.1,
      sliceFrom_ok _ _ hm1.2]
    simp only [ok_bind]
    rw [setCoeffs_ok _ u _ (by omega), setCoeffs_ok _ u _ (by omega),
      setCoeffs_ok _ u _ (by omega), setCoeffs_ok _ u _ (by omega)]
    simp only [ok_bind]
    rw [ih (u + 1) _ (by omega) (by omega)
      (by simp only [List.length_set]; omega) (by simp only [List.length_set]; omega)
      (by simp only [List.length_set]; omega) (by simp only [List.length_set]; omega)]
    simp only []
    rw [prepared_step _ _ (fun p => p.take (level + 1)) u n (by omega) hu0,
      prepared_step _ _ (fun p => p.drop modulus) u n (by omega) hu0,
      prepared_step _ _ (fun p => p.take (level + 1)) u n (by omega) hu1,
      prepared_step _ _ (fun p => p.drop modulus) u n (by omega) hu1]

theorem prepareGaloisEvaluationKey_ok (j level modulus beta : Nat)
    (keys : List mkrlwe.MKEvalGalKey) (key : mkrlwe.MKEvalGalKey) (g : GaloisBuffers)
    (hkey : keys[j]? = some key)
    (h0 : beta ≤ key.Key.1.Poly.length ∧
      ∀ p ∈ key.Key.1.Poly, level + 1 ≤ p.length ∧ modulus ≤ p.length)
    (h1 : beta ≤ key.Key.2.Poly.length ∧
      ∀ p ∈ key.Key.2.Poly, level + 1 ≤ p.length ∧ modulus ≤ p.length)
    (hg : g.gal0Q.Poly.length = beta ∧ g.gal0P.Poly.length = beta ∧
      g.gal1Q.Poly.length = beta ∧ g.gal1P.Poly.length = beta) :
    prepareGaloisEvaluationKey (j + 1) level modulus beta keys g =
      .ok (preparedKey level modulus beta key) := by
  obtain ⟨ha, hb, hc, hd⟩ := hg
  unfold prepareGaloisEvaluationKey
  by_cases hbeta : beta = 0
  · rw [if_pos hbeta]
    subst hbeta
    obtain ⟨⟨a⟩, ⟨b⟩, ⟨c⟩, ⟨d⟩⟩ := g
    have ea : a = [] := List.length_eq_zero.mp ha
    have eb : b = [] := List.length_eq_zero.mp hb
    have ec : c = [] := List.length_eq_zero.mp hc
    have ed : d = [] := List.length_eq_zero.mp hd
    subst ea eb ec ed
    rfl
  · rw [if_neg hbeta]
    have ej : ((j + 1 : Nat) : Int).toNat - 1 = j := by omega
    have hd1 : decide (1 ≤ j + 1) = true := decide_eq_true (Nat.le_add_left 1 j)
    rw [ej, hkey, hd1]
    show prepareGaloisEvaluationKey.loop level modulus key beta 0 g = _
    rw [prepareGaloisEvaluationKey.loop_prepared level modulus key h0.2 h1.2 beta 0 g
      (by omega) (by omega) (by omega) (by omega) (by omega) (by omega)]
    rfl

theorem Dot_ok (p1 p2 : mkrlwe.MKDecomposedPoly) (r : ring.Ring)
    (h : p1.Poly.length = p2.Poly.length) :
    liftDot (mkrlwe.Dot p1 p2 r) =
      .ok (mkrlwe.dotProduct r.MulCoeffsMontgomeryAndAdd r.NewPoly p1.Poly p2.Poly) := by
  have hn : ¬ p1.Poly.length ≠ p2.Poly.length := fun hne => hne h
  unfold mkrlwe.Dot
  rw [if_neg hn, mkrlwe.Dot.loop_eq _ _ _ _ 0 _ (by omega) (by omega)]
  rfl

theorem DotLvl_ok (level : Nat) (p1 p2 : mkrlwe.MKDecomposedPoly) (r : ring.Ring)
    (h : p1.Poly.length = p2.Poly.length) :
    liftDot (mkrlwe.DotLvl level p1 p2 r) =
      .ok (mkrlwe.dotProduct (r.MulCoeffsMontgomeryAndAddLvl level) r.NewPoly
        p1.Poly p2.Poly) := by
  have hn : ¬ p1.Poly.length ≠ p2.Poly.length := fun hne => hne h
  unfold mkrlwe.DotLvl
  rw [if_neg hn, mkrlwe.Dot.loop_eq _ _ _ _ 0 _ (by omega) (by omega)]
  rfl

theorem setIndex_zero (s : List (Option ring.Poly)) (v : Option ring.Poly) (h : 0 < s.length) :
    setIndex s 0 v = .ok (s.set 0 v) :=
  setIndex_ok s 0 v h

theorem getIndex_of_get (s : List (Option ring.Poly)) (i : Nat) (v : Option ring.Poly)
    (h : s[i]? = some v) : getIndex s i = .ok v := by
  unfold getIndex
  rw [h]
  rfl

theorem Rotate.step_ok (eval : mkEvaluator) (c : MKCiphertext)
    (keys : List mkrlwe.MKEvalGalKey) (n : Int) (level : Nat) (j : Nat) (g : GaloisBuffers)
    (key : mkrlwe.MKEvalGalKey) (ci aQ aP : ring.Poly) (restQ restP : List (Option ring.Poly))
    (hkey : keys[j]? = some key)
    (h0 : eval.Beta ≤ key.Key.1.Poly.length ∧
      ∀ p ∈ key.Key.1.Poly, level + 1 ≤ p.length ∧ eval.ringQ.Modulus.length ≤ p.length)
    (h1 : eval.Beta ≤ key.Key.2.Poly.length ∧
      ∀ p ∈ key.Key.2.Poly, level + 1 ≤ p.length ∧ eval.ringQ.Modulus.length ≤ p.length)
    (hg : g.gal0Q.Poly.length = eval.Beta ∧ g.gal0P.Poly.length = eval.Beta ∧
      g.gal1Q.Poly.length = eval.Beta ∧ g.gal1P.Poly.length = eval.Beta)
    (hginv : ∀ p, (eval.GInverse p level).1.Poly.length = eval.Beta ∧
      (eval.GInverse p level).2.Poly.length = eval.Beta)
    (hci : c.Ciphertexts.Value[j + 1]? = some (some ci))
    (hjQ : j < restQ.length) (hjP : j < restP.length) :
    Rotate.step eval c keys (eval.GaloisElementForColumnRotationBy n) level (j + 1)
        { gal := g, restmpQ := some aQ :: restQ, restmpP := some aP :: restP } =
      .ok { gal := preparedKey level eval.ringQ.Modulus.length eval.Beta key
            restmpQ :=
              some (eval.ringQ.AddLvl level aQ (Rotate.inner eval n level ci key.Key.1).1 aQ) ::
                restQ.set j (some (Rotate.inner eval n level ci key.Key.2).1)
            restmpP :=
              some (eval.ringP.Add aP (Rotate.inner eval n level ci key.Key.1).2 aP) ::
                restP.set j (some (Rotate.inner eval n level ci key.Key.2).2) } := by
  have hl0 : (key.Key.1.Poly.take eval.Beta).length = eval.Beta := by
    rw [List.length_take]
    omega
  have hl1 : (key.Key.2.Poly.take eval.Beta).length = eval.Beta := by
    rw [List.length_take]
    omega
  have hgi := hginv (Rotate.perm eval n level ci)
  unfold Rotate.step
  rw [prepareGaloisEvaluationKey_ok j level _ _ keys key g hkey h0 h1 hg,
    readPart_of_get _ _ _ hci]
  simp only [ok_bind]
  show (deref (some ci) >>= _) = _
  rw [show deref (some ci) = .ok ci from rfl]
  simp only [ok_bind]
  rw [Dot_ok _ (preparedKey level eval.ringQ.Modulus.length eval.Beta key).gal0P eval.ringP
      (by show _ = (List.map _ _).length; rw [List.length_map, hl0]; exact hgi.2),
    DotLvl_ok level _ (preparedKey level eval.ringQ.Modulus.length eval.Beta key).gal0Q eval.ringQ
      (by show _ = (List.map _ _).length; rw [List.length_map, hl0]; exact hgi.1),
    Dot_ok _ (preparedKey level eval.ringQ.Modulus.length eval.Beta key).gal1P eval.ringP
      (by show _ = (List.map _ _).length; rw [List.length_map, hl1]; exact hgi.2),
    DotLvl_ok level _ (preparedKey level eval.ringQ.Modulus.length eval.Beta key).gal1Q eval.ringQ
      (by show _ = (List.map _ _).length; rw [List.length_map, hl1]; exact hgi.1)]
  simp only [ok_bind]
  rw [getIndex_of_get (some aP :: restP) 0 (some aP) List.getElem?_cons_zero,
    getIndex_of_get (some aQ :: restQ) 0 (some aQ) List.getElem?_cons_zero]
  simp only [ok_bind]
  rw [show deref (some aP) = .ok aP from rfl, show deref (some aQ) = .ok aQ from rfl]
  simp only [ok_bind]
  rw [setIndex_zero (some aP :: restP) _ (Nat.succ_pos _),
    setIndex_zero (some aQ :: restQ) _ (Nat.succ_pos _)]
  simp only [ok_bind, List.set_cons_zero]
  rw [setIndex_ok _ (j + 1) _ (by simp only [List.length_cons]; omega),
    setIndex_ok _ (j + 1) _ (by simp only [List.length_cons]; omega)]
  rfl

theorem set_append_replicate {α : Type} (l : List α) (a v : α) (m : Nat) :
    (l ++ List.replicate (m + 1) a).set l.length v = l ++ [v] ++ List.replicate m a := by
  induction l with
  | nil => rfl
  | cons x t ih =>
    show x :: ((t ++ List.replicate (m + 1) a).set t.length v) =
      x :: (t ++ [v] ++ List.replicate m a)
    rw [ih]

theorem set_done_pending (d : List ring.Poly) (x : ring.Poly) (m j : Nat) (hj : d.length = j) :
    (d.map some ++ List.replicate (m + 1) none).set j (some x) =
      (d ++ [x]).map some ++ List.replicate m none := by
  have h := set_append_replicate (d.map some) none (some x) m
  rw [List.length_map, hj] at h
  rw [h, List.map_append]
  rfl

theorem preparedKey_length (level modulus beta : Nat) (key : mkrlwe.MKEvalGalKey)
    (h0 : beta ≤ key.Key.1.Poly.length) (h1 : beta ≤ key.Key.2.Poly.length) :
    (preparedKey level modulus beta key).gal0Q.Poly.length = beta ∧
      (preparedKey level modulus beta key).gal0P.Poly.length = beta ∧
      (preparedKey level modulus beta key).gal1Q.Poly.length = beta ∧
      (preparedKey level modulus beta key).gal1P.Poly.length = beta := by
  unfold preparedKey
  simp only [List.length_map, List.length_take]
  omega

theorem Rotate.loop_accumulates (eval : mkEvaluator) (c : MKCiphertext)
    (keys : List mkrlwe.MKEvalGalKey) (n : Int) (level : Nat) (c0 : ring.Poly)
    (all : List ring.Poly) (hval : c.Ciphertexts.Value = some c0 :: all.map some)
    (hfit : ∀ key ∈ keys,
      (eval.Beta ≤ key.Key.1.Poly.length ∧
        ∀ p ∈ key.Key.1.Poly, level + 1 ≤ p.length ∧ eval.ringQ.Modulus.length ≤ p.length) ∧
      (eval.Beta ≤ key.Key.2.Poly.length ∧
        ∀ p ∈ key.Key.2.Poly, level + 1 ≤ p.length ∧ eval.ringQ.Modulus.length ≤ p.length))
    (hginv : ∀ p, (eval.GInverse p level).1.Poly.length = eval.Beta ∧
      (eval.GInverse p level).2.Poly.length = eval.Beta)
    (hkeys : all.length ≤ keys.length) :
    ∀ (m j : Nat) (g : GaloisBuffers) (aQ aP : ring.Poly) (dQ dP : List ring.Poly),
      j + m = all.length → dQ.length = j → dP.length = j →
      (g.gal0Q.Poly.length = eval.Beta ∧ g.gal0P.Poly.length = eval.Beta ∧
        g.gal1Q.Poly.length = eval.Beta ∧ g.gal1P.Poly.length = eval.Beta) →
      ∃ g1 : GaloisBuffers,
        Rotate.loop eval c keys (eval.GaloisElementForColumnRotationBy n) level m (j + 1)
            { gal := g, restmpQ := some aQ :: (dQ.map some ++ List.replicate m none),
              restmpP := some aP :: (dP.map some ++ List.replicate m none) } =
          .ok { gal := g1
                restmpQ :=
                  some (Rotate.sum eval n level (all.drop j) (keys.drop j) (aQ, aP)).1 ::
                    (dQ ++ (List.zip (all.drop j) (keys.drop j)).map fun ck =>
                      (Rotate.inner eval n level ck.1 ck.2.Key.2).1).map some
                restmpP :=
                  some (Rotate.sum eval n level (all.drop j) (keys.drop j) (aQ, aP)).2 ::
                    (dP ++ (List.zip (all.drop j) (keys.drop j)).map fun ck =>
                      (Rotate.inner eval n level ck.1 ck.2.Key.2).2).map some } := by
  intro m
  induction m with
  | zero =>
    intro j g aQ aP dQ dP hj _ _ _
    have e : all.drop j = [] := List.drop_eq_nil_of_le (by omega)
    refine ⟨g, ?_⟩
    rw [e]
    simp only [List.zip_nil_left, List.map_nil, List.append_nil, List.replicate_zero,
      Rotate.sum, List.foldl_nil]
    rfl
  | succ m ih =>
    intro j g aQ aP dQ dP hj hdQ hdP hg
    have hja : j < all.length := by omega
    have hjk : j < keys.length := by omega
    have hkey : keys[j]? = some (keys.get ⟨j, hjk⟩) := List.getElem?_eq_getElem hjk
    have hmem := hfit _ (List.get_mem keys j hjk)
    have hci : c.Ciphertexts.Value[j + 1]? = some (some (all.get ⟨j, hja⟩)) := by
      rw [hval, List.getElem?_cons_succ, List.getElem?_map, List.getElem?_eq_getElem hja]
      rfl
    rw [Rotate.loop,
      Rotate.step_ok eval c keys n level j g _ _ aQ aP _ _ hkey hmem.1 hmem.2 hg hginv hci
        (by rw [List.length_append, List.length_map, List.length_replicate]; omega)
        (by rw [List.length_append, List.length_map, List.length_replicate]; omega),
      ok_bind, set_done_pending dQ _ m j hdQ, set_done_pending dP _ m j hdP]
    obtain ⟨g1, hloop⟩ := ih (j + 1)
      (preparedKey level eval.ringQ.Modulus.length eval.Beta (keys.get ⟨j, hjk⟩))
      (eval.ringQ.AddLvl level aQ
        (Rotate.inner eval n level (all.get ⟨j, hja⟩) (keys.get ⟨j, hjk⟩).Key.1).1 aQ)
      (eval.ringP.Add aP
        (Rotate.inner eval n level (all.get ⟨j, hja⟩) (keys.get ⟨j, hjk⟩).Key.1).2 aP)
      (dQ ++ [(Rotate.inner eval n level (all.get ⟨j, hja⟩) (keys.get ⟨j, hjk⟩).Key.2).1])
      (dP ++ [(Rotate.inner eval n level (all.get ⟨j, hja⟩) (keys.get ⟨j, hjk⟩).Key.2).2])
      (by omega) (by rw [List.length_append, hdQ]; rfl) (by rw [List.length_append, hdP]; rfl)
      (preparedKey_length _ _ _ _ hmem.1.1 hmem.2.1)
    refine ⟨g1, ?_⟩
    rw [hloop, List.drop_eq_getElem_cons hja, List.drop_eq_getElem_cons hjk]
    simp only [List.zip_cons_cons, List.map_cons, Rotate.sum, List.foldl_cons, List.append_assoc,
      List.singleton_append]
    rfl

theorem deref_some (p : ring.Poly) : deref (some p) = .ok p :=
  rfl

theorem Rotate.finish_ok (eval : mkEvaluator) (level : Nat) (g : GaloisBuffers)
    (aQ aP r0 : Option ring.Poly) (qps : List (ring.Poly × ring.Poly)) :
    ∀ (m j : Nat) (tmp : ring.Poly) (dR : List (Option ring.Poly)),
      j + m = qps.length → dR.length = j →
      Rotate.finish eval level
          { gal := g, restmpQ := aQ :: qps.map (fun qp => some qp.1),
            restmpP := aP :: qps.map (fun qp => some qp.2) }
          m (j + 1) tmp (r0 :: (dR ++ List.replicate m (some eval.ringQ.NewPoly))) =
        .ok (r0 :: (dR ++ (Rotate.modDowns eval level tmp (qps.drop j)).map
          fun t => some (eval.ringQ.CopyLvl level t eval.ringQ.NewPoly))) := by
  intro m
  induction m with
  | zero =>
    intro j tmp dR hj _
    have e : qps.drop j = [] := List.drop_eq_nil_of_le (by omega)
    rw [e]
    rfl
  | succ m ih =>
    intro j tmp dR hj hdR
    have hjq : j < qps.length := by omega
    have hq : (aQ :: qps.map (fun qp => some qp.1))[j + 1]? = some (some (qps.get ⟨j, hjq⟩).1) := by
      rw [List.getElem?_cons_succ, List.getElem?_map, List.getElem?_eq_getElem hjq]
      rfl
    have hp : (aP :: qps.map (fun qp => some qp.2))[j + 1]? = some (some (qps.get ⟨j, hjq⟩).2) := by
      rw [List.getElem?_cons_succ, List.getElem?_map, List.getElem?_eq_getElem hjq]
      rfl
    have hr : (r0 :: (dR ++ List.replicate (m + 1) (some eval.ringQ.NewPoly)))[j + 1]? =
        some (some eval.ringQ.NewPoly) := by
      rw [List.getElem?_cons_succ, List.getElem?_append_right (by omega), hdR, Nat.sub_self,
        List.replicate_succ, List.getElem?_cons_zero]
    rw [Rotate.finish, getIndex_of_get _ _ _ hq, getIndex_of_get _ _ _ hp, ok_bind, ok_bind,
      show deref (some (qps.get ⟨j, hjq⟩).1) = .ok (qps.get ⟨j, hjq⟩).1 from rfl, ok_bind,
      show deref (some (qps.get ⟨j, hjq⟩).2) = .ok (qps.get ⟨j, hjq⟩).2 from rfl, ok_bind]
    dsimp only
    rw [getIndex_of_get _ _ _ hr, ok_bind,
      show deref (some eval.ringQ.NewPoly) = .ok eval.ringQ.NewPoly from rfl, ok_bind,
      setIndex_ok _ (j + 1) _
        (by rw [List.length_cons, List.length_append, List.length_replicate]; omega),
      ok_bind, List.set_cons_succ]
    have hset := set_append_replicate dR (some eval.ringQ.NewPoly)
      (some (eval.ringQ.CopyLvl level
        (eval.ModDownSplitNTTPQ level (qps.get ⟨j, hjq⟩).1 (qps.get ⟨j, hjq⟩).2 tmp)
        eval.ringQ.NewPoly)) m
    rw [hdR] at hset
    rw [hset, ih (j + 1) _ _ (by omega) (by rw [List.length_append, hdR]; rfl),
      List.drop_eq_getElem_cons hjq, Rotate.modDowns, List.map_cons, List.append_assoc]
    rfl

/-- C22: for a ciphertext of level `level` with the parts `c0 :: cs`, one part per participant
after part 0, and keys whose identifiers after sorting start with the identifiers of the
participants, whose two vectors have at least `beta` digits with the rows of Q up to `level` and
the rows of P, `Rotate` returns a ciphertext whose part 0 is
`perm(c[0]) + ModDown(sum_i <G^-1(perm(c[i])), galKey_i[0]>)`, the sum being formed in the extended
basis before one mod-down, and whose part `i` is `ModDown(<G^-1(perm(c[i])), galKey_i[1]>)`, where
`galKey_i` is the `i`-th key in the order of the identifiers, `NewDecomposedPoly` and `GInverse`
giving `beta` digits. -/
theorem Rotate_formula (eval : mkEvaluator) (c : MKCiphertext) (n : Int)
    (keys : List mkrlwe.MKEvalGalKey) (level : Nat) (c0 : ring.Poly) (cs : List ring.Poly)
    (hval : c.Ciphertexts.Value = some c0 :: cs.map some)
    (hlen : cs.length = c.PeerID.length)
    (hlevel : eval.Level c.Ciphertexts = some level)
    (hids : c.PeerID <+:
      (sortByPeerID (fun k : mkrlwe.MKEvalGalKey => k.PeerID) keys).map fun k => k.PeerID)
    (hnew : ∀ r : ring.Ring, (eval.NewDecomposedPoly r eval.Beta).Poly.length = eval.Beta)
    (hginv : ∀ p, (eval.GInverse p level).1.Poly.length = eval.Beta ∧
      (eval.GInverse p level).2.Poly.length = eval.Beta)
    (hfit : ∀ key ∈ keys,
      (eval.Beta ≤ key.Key.1.Poly.length ∧
        ∀ p ∈ key.Key.1.Poly, level + 1 ≤ p.length ∧ eval.ringQ.Modulus.length ≤ p.length) ∧
      (eval.Beta ≤ key.Key.2.Poly.length ∧
        ∀ p ∈ key.Key.2.Poly, level + 1 ≤ p.length ∧ eval.ringQ.Modulus.length ≤ p.length)) :
    ∃ out : MKCiphertext, (Rotate eval c n keys).result = .ok out ∧
      out.Ciphertexts.Value = Rotate.formula eval n level c0 cs
        (sortByPeerID (fun k : mkrlwe.MKEvalGalKey => k.PeerID) keys) := by
  have hcheck : checkParticipantsGalKey c.PeerID
      (sortByPeerID (fun k : mkrlwe.MKEvalGalKey => k.PeerID) keys) = .ok () := by
    unfold checkParticipantsGalKey
    rw [checkParticipants_ok_iff, List.drop_zero]
    exact hids
  have hklen : cs.length ≤
      (sortByPeerID (fun k : mkrlwe.MKEvalGalKey => k.PeerID) keys).length := by
    have h := hids.length_le
    rw [List.length_map] at h
    omega
  have hfit2 : ∀ key ∈ sortByPeerID (fun k : mkrlwe.MKEvalGalKey => k.PeerID) keys,
      (eval.Beta ≤ key.Key.1.Poly.length ∧
        ∀ p ∈ key.Key.1.Poly, level + 1 ≤ p.length ∧ eval.ringQ.Modulus.length ≤ p.length) ∧
      (eval.Beta ≤ key.Key.2.Poly.length ∧
        ∀ p ∈ key.Key.2.Poly, level + 1 ≤ p.length ∧ eval.ringQ.Modulus.length ≤ p.length) :=
    fun key hk => hfit key ((List.perm_insertionSort _ keys).mem_iff.mp hk)
  obtain ⟨g1, hloop⟩ := Rotate.loop_accumulates eval c
    (sortByPeerID (fun k : mkrlwe.MKEvalGalKey => k.PeerID) keys) n level c0 cs hval hfit2 hginv
    hklen cs.length 0
    { gal0Q := eval.NewDecomposedPoly eval.ringQ eval.Beta
      gal0P := eval.NewDecomposedPoly eval.ringP eval.Beta
      gal1Q := eval.NewDecomposedPoly eval.ringQ eval.Beta
      gal1P := eval.NewDecomposedPoly eval.ringP eval.Beta }
    eval.ringQ.NewPoly eval.ringP.NewPoly [] [] (by omega) rfl rfl
    ⟨hnew _, hnew _, hnew _, hnew _⟩
  have hfin := Rotate.finish_ok eval level g1
    (some (Rotate.sum eval n level cs
      (sortByPeerID (fun k : mkrlwe.MKEvalGalKey => k.PeerID) keys)
      (eval.ringQ.NewPoly, eval.ringP.NewPoly)).1)
    (some (Rotate.sum eval n level cs
      (sortByPeerID (fun k : mkrlwe.MKEvalGalKey => k.PeerID) keys)
      (eval.ringQ.NewPoly, eval.ringP.NewPoly)).2)
    (some (eval.ringQ.AddLvl level (Rotate.perm eval n level c0)
      (eval.ModDownSplitNTTPQ level
        (Rotate.sum eval n level cs
          (sortByPeerID (fun k : mkrlwe.MKEvalGalKey => k.PeerID) keys)
          (eval.ringQ.NewPoly, eval.ringP.NewPoly)).1
        (Rotate.sum eval n level cs
          (sortByPeerID (fun k : mkrlwe.MKEvalGalKey => k.PeerID) keys)
          (eval.ringQ.NewPoly, eval.ringP.NewPoly)).2 eval.ringQ.NewPoly)
      (Rotate.perm eval n level c0)))
    ((List.zip cs (sortByPeerID (fun k : mkrlwe.MKEvalGalKey => k.PeerID) keys)).map
      fun ck => Rotate.inner eval n level ck.1 ck.2.Key.2)
    cs.length 0
    (eval.ModDownSplitNTTPQ level
      (Rotate.sum eval n level cs
        (sortByPeerID (fun k : mkrlwe.MKEvalGalKey => k.PeerID) keys)
        (eval.ringQ.NewPoly, eval.ringP.NewPoly)).1
      (Rotate.sum eval n level cs
        (sortByPeerID (fun k : mkrlwe.MKEvalGalKey => k.PeerID) keys)
        (eval.ringQ.NewPoly, eval.ringP.NewPoly)).2 eval.ringQ.NewPoly)
    []
    (by rw [List.length_map, List.length_zip]; omega) rfl
  simp only [List.nil_append, List.map_nil, List.map_map, Function.comp_def, Nat.zero_add,
    List.drop_zero] at hloop hfin
  have hres : (Rotate eval c n keys).result = .ok
      { eval.NewMKCiphertext c.PeerID level c.Ciphertexts.scale with
        Ciphertexts :=
          { (eval.NewMKCiphertext c.PeerID level c.Ciphertexts.scale).Ciphertexts with
            Value := Rotate.formula eval n level c0 cs
              (sortByPeerID (fun k : mkrlwe.MKEvalGalKey => k.PeerID) keys) } } := by
    show (checkParticipantsGalKey c.PeerID
      (sortByPeerID (fun k : mkrlwe.MKEvalGalKey => k.PeerID) keys) >>= _) = _
    rw [hcheck, ok_bind, levelOf_of_some eval _ level hlevel, ok_bind]
    dsimp only
    rw [ok_bind, ← hlen]
    simp only [List.replicate_succ, List.set_cons_zero]
    rw [hloop, ok_bind, readPart_of_get _ 0 (some c0) (by rw [hval, List.getElem?_cons_zero]), ok_bind]
    dsimp only
    rw [show deref (some c0) = .ok c0 from rfl, ok_bind,
      getIndex_of_get _ 0 _ List.getElem?_cons_zero, ok_bind,
      show deref (some eval.ringQ.NewPoly) = .ok eval.ringQ.NewPoly from rfl, ok_bind,
      getIndex_of_get _ 0 _ List.getElem?_cons_zero, ok_bind,
      getIndex_of_get _ 0 _ List.getElem?_cons_zero, ok_bind]
    rw [deref_some, ok_bind, deref_some, ok_bind,
      setIndex_zero (some eval.ringQ.NewPoly :: List.replicate cs.length (some eval.ringQ.NewPoly))
        _ (Nat.succ_pos _),
      ok_bind, List.set_cons_zero]
    rw [show eval.PermuteNTTWithIndexLvl level c0
        (eval.PermuteNTTIndex (eval.GaloisElementForColumnRotationBy n) eval.ringQPN)
        eval.ringQ.NewPoly = Rotate.perm eval n level c0 from rfl, hfin, ok_bind]
    rfl
  exact ⟨_, hres, rfl⟩

/-- The formula of `Rotate` on a ciphertext of level 0 with the two participants 2 and 5, rotated
by 1 over the exact ring with the keys given in the order 5, 2. -/
theorem Rotate_formula_witness :
    ∃ out : MKCiphertext,
      (Rotate (exactEvaluator 2 [7])
        { Ciphertexts :=
            { Value := [some [[5, 6]], some [[1, 2]], some [[3, 4]]], scale := 3, IsNTT := true }
          PeerID := [2, 5] } 1 [sampleGalKey 5, sampleGalKey 2]).result = .ok out ∧
      out.Ciphertexts.Value = Rotate.formula (exactEvaluator 2 [7]) 1 0 [[5, 6]]
        [[[1, 2]], [[3, 4]]]
        (sortByPeerID (fun k : mkrlwe.MKEvalGalKey => k.PeerID)
          [sampleGalKey 5, sampleGalKey 2]) :=
  Rotate_formula (exactEvaluator 2 [7])
    { Ciphertexts :=
        { Value := [some [[5, 6]], some [[1, 2]], some [[3, 4]]], scale := 3, IsNTT := true }
      PeerID := [2, 5] } 1 [sampleGalKey 5, sampleGalKey 2] 0 [[5, 6]] [[[1, 2]], [[3, 4]]]
    rfl rfl rfl (by decide) (fun _ => rfl) (fun _ => ⟨rfl, rfl⟩) (by decide)

end mkckks

namespace buffer

end buffer
